import Mathlib

/-!
# incident-extractor: text classification, field extraction and batch coordination

A shallow embedding of `src/incident_extractor.cpp` (the threaded program) and of
`src/incident_extracter.cpp` (its sequential predecessor, namespace `Extracter`).

* A `std::string` is the list of its `char`s (`Str`).
* `std::regex` (ECMAScript grammar, `regex_search`) is a backtracking matcher `run` over a
  small pattern syntax `Regex`; the patterns of the program are written in that syntax.
  The matcher is proved sound and complete for the declarative reading `Matches`, and
  `regex_search` is proved to report a match at the leftmost position that has one.
* `std::stoi` fails with `out_of_range` above `INT_MAX`; a failure is an `Except` error,
  and an exception that escapes a worker thread ends the whole run.
* The field `int victims` of `ShootingInfo info;` is not initialised by the program; the
  value it holds before any assignment is an explicit argument `uninit` of the embedding
  (in the batch: one value per image index). `reusedVictims` gives these values for a run
  in which the storage of `info` is reused from one iteration of a worker to the next.
* `performOCR` and the directory walk are outside the embedding: a corpus is the list of
  the images' file names with their recognised texts.
* The order in which the workers' locked appends reach the shared vector is an explicit
  schedule (`interleave`). The worker threads are also given as a transition system
  (`stepWorker`, one step per statement of the loop body, `std::mutex` as an owner
  variable), which is proved to return what the batch function returns.
* `nlohmann::json` is a small value type with `push_back` and the braced-list constructor;
  `saveToJson` is the value it streams to the file.
-/

namespace IncidentExtractor

/-- A `std::string`: the sequence of its `char`s. -/
abbrev Str := List Char

/-! ## `::tolower` and `std::string::find` -/

/-- The C function `tolower` in the "C" locale: `A`..`Z` go to `a`..`z`, every other
character is unchanged. -/
def tolower (c : Char) : Char :=
  if 65 ≤ c.toNat ∧ c.toNat ≤ 90 then Char.ofNat (c.toNat + 32) else c

/-- The call `std::transform(s.begin(), s.end(), s.begin(), ::tolower)`. -/
def lowerText (text : Str) : Str := text.map tolower

/-- Whether `needle` is found in `hay` starting exactly at the front of `hay`. -/
def startsWith : Str → Str → Bool
  | [], _ => true
  | _ :: _, [] => false
  | a :: needle, b :: hay => a == b && startsWith needle hay

/-- The call `hay.find(needle)`: the lowest index at which `needle` occurs in `hay`,
`none` standing for `std::string::npos`. -/
def find (needle : Str) : Str → Option Nat
  | [] => if startsWith needle [] then some 0 else none
  | c :: hay =>
    if startsWith needle (c :: hay) then some 0
    else match find needle hay with
      | some i => some (i + 1)
      | none => none

/-! ## The relevance vocabulary and `containsRelevantTerms` -/

/-- The static set `terms` of `containsRelevantTerms`, in the order of the initialiser. -/
def terms : List Str := List.map String.toList [
  "multiple counts", "multiple dead", "multiple homicide", "multiple murder", "multiple shot",
  "murder", "murdered", "murdering", "murderer", "murder suicide", "quadruple homicide",
  "quadruple murder", "rage", "rampage", "retaliation", "revenge", "rifle", "serial killer",
  "serial murder", "shoot", "shooter", "shooting", "shot", "shot dead", "shotgun", "slain",
  "slay", "slayed", "slaying", "slaughter", "slaughtered", "spree", "stand-off", "standoff",
  "suicide", "suspect dead", "tragedy", "tragic", "wound", "wounded", "wounding", "altercation",
  "bullet", "bullets", "casing", "casings", "dead", "deadly", "death", "deaths", "death penalty",
  "death sentence", "domestic", "dispute", "drive-by", "drug related", "erupted", "execution",
  "executed", "family killing", "family murder", "fatal", "fatality", "fatalities", "gun",
  "gunfire", "guns", "gunman", "gunmen", "gunned down", "gunshot", "handgun", "heinous",
  "kill", "killed", "killing", "killer", "life sentence", "mass murder", "mass shooting",
  "massacre", "massacred"]

/-- The function `containsRelevantTerms`: lower-case the text, then return `true` at the
first term that `find` locates in it. The loop visits the set in an unspecified order; the
result is the disjunction over all terms, which no order changes. -/
def containsRelevantTerms (text : Str) : Bool :=
  terms.any (fun term => (find term (lowerText text)).isSome)

/-! ## `std::regex`: pattern syntax -/

/-- The `isdigit` test of the "C" locale (the class `\d`). -/
def isDigit (c : Char) : Bool := 48 ≤ c.toNat && c.toNat ≤ 57

/-- The `isspace` test of the "C" locale (the class `\s`): tab, line feed, vertical tab,
form feed, carriage return and space. -/
def isSpace (c : Char) : Bool := (9 ≤ c.toNat && c.toNat ≤ 13) || c.toNat == 32

/-- The bracket expression `[A-Z]`. -/
def isUpper (c : Char) : Bool := 65 ≤ c.toNat && c.toNat ≤ 90

/-- The bracket expression `[a-z]`. -/
def isLower (c : Char) : Bool := 97 ≤ c.toNat && c.toNat ≤ 122

/-- The word characters that `\b` looks at: letters, digits and the underscore. -/
def isWord (c : Char) : Bool := isUpper c || isLower c || isDigit c || c.toNat == 95

/-- The ECMAScript `.`: every character but line feed and carriage return. -/
def isDot (c : Char) : Bool := !(c.toNat == 10 || c.toNat == 13)

/-- The one-character atoms of the patterns. -/
inductive CharClass where
  | digit
  | space
  | upper
  | lower
  | dot
  | lit (c : Char)
  deriving DecidableEq, Repr

/-- Whether a character belongs to a one-character atom. -/
def CharClass.test : CharClass → Char → Bool
  | .digit, c => isDigit c
  | .space, c => isSpace c
  | .upper, c => isUpper c
  | .lower, c => isLower c
  | .dot, c => isDot c
  | .lit a, c => a == c

/-- The part of the ECMAScript pattern grammar that the program uses. `star true a` is the
greedy `a*`, `star false a` the lazy `a*?`; `group n a` is the `n`-th capturing group. -/
inductive Regex where
  | eps
  | cls (c : CharClass)
  | wordBoundary
  | seq (a b : Regex)
  | alt (a b : Regex)
  | star (greedy : Bool) (a : Regex)
  | group (n : Nat) (a : Regex)
  deriving DecidableEq, Repr

namespace Regex

/-- The pattern `a+`. -/
def plus (a : Regex) : Regex := seq a (star true a)

/-- The pattern `a?`. -/
def opt (a : Regex) : Regex := alt a eps

/-- A run of literal characters. -/
def lit : Str → Regex
  | [] => eps
  | c :: s => seq (cls (.lit c)) (lit s)

/-- A sequence of patterns. -/
def seqs : List Regex → Regex
  | [] => eps
  | a :: as => seq a (seqs as)

/-- An alternation `a|b|...|z` of literal words, tried from left to right. -/
def words : List String → Regex
  | [] => eps
  | [w] => lit w.toList
  | w :: ws => alt (lit w.toList) (words ws)

end Regex

/-! ## `std::regex`: the backtracking matcher -/

/-- The state of a match attempt: the characters already passed (nearest first), the
characters still ahead, and the capture groups closed so far (group, begin, end). -/
structure MState where
  before : Str
  rest : Str
  caps : List (Nat × Nat × Nat)
  deriving DecidableEq, Repr

/-- The assertion `\b`: exactly one of the two neighbouring characters is a word
character (a missing neighbour counts as a non-word character). -/
def atBoundary (before rest : Str) : Bool :=
  (match before with | [] => false | c :: _ => isWord c) !=
  (match rest with | [] => false | c :: _ => isWord c)

/-- The repetition of a pattern whose one-iteration matcher is `step`. An iteration that
consumes nothing is rejected (ECMAScript RepeatMatcher). The first argument bounds the
number of iterations; the length of the remaining input is always enough. -/
def starLoop (greedy : Bool) (step : MState → (MState → Option MState) → Option MState) :
    Nat → MState → (MState → Option MState) → Option MState
  | 0, s, k => k s
  | n + 1, s, k =>
    if greedy then
      match step s (fun s1 =>
          if s1.rest.length < s.rest.length then starLoop greedy step n s1 k else none) with
      | some r => some r
      | none => k s
    else
      match k s with
      | some r => some r
      | none => step s (fun s1 =>
          if s1.rest.length < s.rest.length then starLoop greedy step n s1 k else none)

/-- The backtracking matcher: `run r s k` tries the ways `r` can match at `s` in priority
order and returns the first for which the continuation `k` succeeds. -/
def run : Regex → MState → (MState → Option MState) → Option MState
  | .eps, s, k => k s
  | .cls c, s, k =>
    match s.rest with
    | [] => none
    | x :: t => if c.test x then k { s with before := x :: s.before, rest := t } else none
  | .wordBoundary, s, k => if atBoundary s.before s.rest then k s else none
  | .seq a b, s, k => run a s (fun s1 => run b s1 k)
  | .alt a b, s, k =>
    match run a s k with
    | some r => some r
    | none => run b s k
  | .star g a, s, k => starLoop g (run a) s.rest.length s k
  | .group n a, s, k =>
    run a s (fun s1 => k { s1 with caps := (n, s.before.length, s1.before.length) :: s1.caps })

/-- A `std::smatch` after a successful search: the searched text, the bounds of the whole
match and the capture groups. -/
structure SMatch where
  text : Str
  first : Nat
  last : Nat
  caps : List (Nat × Nat × Nat)
  deriving DecidableEq, Repr

/-- The characters of `text` from index `i` up to (not including) index `j`. -/
def slice (text : Str) (i j : Nat) : Str := (text.drop i).take (j - i)

/-- The member `match.str()`: the whole matched substring. -/
def SMatch.str (m : SMatch) : Str := slice m.text m.first m.last

/-- The sub-match `match[n]` for `n ≥ 1`: the substring captured by group `n`, empty when the group
did not take part in the match. -/
def SMatch.sub (m : SMatch) (n : Nat) : Str :=
  match m.caps.lookup n with
  | some (i, j) => slice m.text i j
  | none => []

/-- The search loop of `regex_search`: try a match at the current position, and move one
character to the right when there is none. -/
def searchFrom (r : Regex) : Str → Str → Option (Nat × MState)
  | before, [] =>
    match run r ⟨before, [], []⟩ some with
    | some f => some (before.length, f)
    | none => none
  | before, c :: rest =>
    match run r ⟨before, c :: rest, []⟩ some with
    | some f => some (before.length, f)
    | none => searchFrom r (c :: before) rest

/-- The call `std::regex_search(text, match, pattern)`; `none` is the result `false`. -/
def regex_search (text : Str) (r : Regex) : Option SMatch :=
  match searchFrom r [] text with
  | some (i, f) => some ⟨text, i, f.before.length, f.caps⟩
  | none => none

/-! ## The four patterns -/

open Regex in
/-- The pattern
`\b(?:January|February|...|December)\s+\d{1,2},\s+\d{4}\b`. -/
def datePattern : Regex :=
  seqs [wordBoundary,
    words ["January", "February", "March", "April", "May", "June", "July", "August",
      "September", "October", "November", "December"],
    plus (cls .space),
    cls .digit, opt (cls .digit),
    cls (.lit ','),
    plus (cls .space),
    cls .digit, cls .digit, cls .digit, cls .digit,
    wordBoundary]

open Regex in
/-- The pattern
`(\d+)\s*(?:people|individuals|persons|victims|killed|dead|fatally shot|injured)`. -/
def victimsPattern : Regex :=
  seqs [group 1 (plus (cls .digit)),
    star true (cls .space),
    words ["people", "individuals", "persons", "victims", "killed", "dead", "fatally shot",
      "injured"]]

open Regex in
/-- The pattern `in\s+((?:[A-Z][a-z]+\s*)+(?:,\s*[A-Z]{2})?)`. -/
def locationPattern : Regex :=
  seqs [lit "in".toList,
    plus (cls .space),
    group 1 (seqs [
      plus (seqs [cls .upper, plus (cls .lower), star true (cls .space)]),
      opt (seqs [cls (.lit ','), star true (cls .space), cls .upper, cls .upper])])]

open Regex in
/-- The pattern `((?:mass\s+shooting|shooting|incident).*?(?:\.|\n))`. -/
def detailsPattern : Regex :=
  group 1 (seqs [
    alt (seqs [lit "mass".toList, plus (cls .space), lit "shooting".toList])
      (alt (lit "shooting".toList) (lit "incident".toList)),
    star false (cls .dot),
    alt (cls (.lit '.')) (cls (.lit '\n'))])

/-! ## `extractDate`, `std::stoi`, `extractShootingInfo` -/

/-- The function `extractDate`: the first match of the date pattern, or the empty string. -/
def extractDate (text : Str) : Str :=
  match regex_search text datePattern with
  | some m => m.str
  | none => []

/-- What the program can raise or die of. -/
inductive Failure where
  | invalid_argument
  | out_of_range
  | division_by_zero
  deriving DecidableEq, Repr

/-- The value of a run of decimal digits. -/
def decimal (ds : Str) : Nat := ds.foldl (fun acc c => 10 * acc + (c.toNat - 48)) 0

/-- The largest `int`. -/
def INT_MAX : Int := 2147483647

/-- The smallest `int`. -/
def INT_MIN : Int := -2147483648

/-- The call `std::stoi(s)`: skip leading white space, read an optional sign and the
longest run of digits; `invalid_argument` when there is no digit, `out_of_range` when the
value is not an `int`. -/
def stoi (s : Str) : Except Failure Int :=
  let s1 := s.dropWhile isSpace
  let neg := match s1 with
    | '-' :: _ => true
    | _ => false
  let s2 := match s1 with
    | '-' :: t => t
    | '+' :: t => t
    | _ => s1
  let ds := s2.takeWhile isDigit
  if ds = [] then .error .invalid_argument
  else
    let v : Int := if neg then -(decimal ds : Int) else (decimal ds : Int)
    if v < INT_MIN ∨ INT_MAX < v then .error .out_of_range else .ok v

/-- The struct `ShootingInfo`. -/
structure ShootingInfo where
  date : Str
  victims : Int
  location : Str
  description : Str
  source : Str
  deriving DecidableEq, Repr

/-- The function `extractShootingInfo` of `incident_extractor.cpp`. `ShootingInfo info;`
leaves `info.victims` uninitialised; `uninit` is the value the field holds at that point,
and it is what the record carries when the victim pattern has no match. -/
def extractShootingInfo (uninit : Int) (text source : Str) : Except Failure ShootingInfo :=
  let date := extractDate text
  match (match regex_search text victimsPattern with
      | some m => stoi (m.sub 1)
      | none => .ok uninit) with
  | .error e => .error e
  | .ok victims =>
    let location := match regex_search text locationPattern with
      | some m => m.sub 1
      | none => []
    let description := match regex_search text detailsPattern with
      | some m => m.sub 1
      | none => text.take 500
    .ok { date := date, victims := victims, location := location,
          description := description, source := source }

/-! ## The batch: `processImagesThread` and `processNewspaperImages` -/

/-- One entry of `imagePaths` together with what `performOCR` returns for it: the file
name of the image and its recognised text. -/
structure Item where
  filename : Str
  ocrText : Str
  deriving DecidableEq, Repr

/-- The body of the loop of `processImagesThread` for one image: the record pushed to
`data`, if any. `uninit` is the value found in the uninitialised `victims` field. -/
def processItem (uninit : Int) (item : Item) : Except Failure (Option ShootingInfo) :=
  if containsRelevantTerms item.ocrText then
    match extractShootingInfo uninit item.ocrText item.filename with
    | .error e => .error e
    | .ok info =>
      if info.victims > 0 ∧ info.location ≠ [] then .ok (some info) else .ok none
  else .ok none

/-- The loop `for (i = start; i < end; ++i)` of `processImagesThread`, with the number of
iterations left as first argument: the records the worker pushes, in its own order. An
exception leaves the loop. The images are `imagePaths[i]`; the shards that
`processNewspaperImages` makes never leave the vector, and the loop stops if one did. -/
def processLoop (uninit : Nat → Int) (items : List Item) :
    Nat → Nat → Except Failure (List ShootingInfo)
  | 0, _ => .ok []
  | n + 1, i =>
    match items[i]? with
    | none => .ok []
    | some item =>
      match processItem (uninit i) item with
      | .error e => .error e
      | .ok r =>
        match processLoop uninit items n (i + 1) with
        | .error e => .error e
        | .ok rs => .ok (r.toList ++ rs)

/-- The function `processImagesThread` on the shard `[start, stop)`. -/
def processImagesThread (uninit : Nat → Int) (items : List Item) (start stop : Nat) :
    Except Failure (List ShootingInfo) :=
  processLoop uninit items (stop - start) start

/-- The order in which the locked `push_back`s of the workers reach `data`. Each worker
pushes its records in its own order; at every step the schedule names the worker whose
next record goes in, and when the schedule is used up the remaining records follow worker
by worker. -/
def interleave {α : Type} : List Nat → List (List α) → List α
  | [], qs => qs.flatten
  | w :: sched, qs =>
    match qs[w]? with
    | some (x :: q) => x :: interleave sched (qs.set w q)
    | _ => interleave sched qs

/-- Run the workers of the given indices; an exception that escapes a thread ends the
program (`std::terminate`), so no collection is returned. -/
def runWorkers (worker : Nat → Except Failure (List ShootingInfo)) :
    List Nat → Except Failure (List (List ShootingInfo))
  | [] => .ok []
  | i :: is =>
    match worker i with
    | .error e => .error e
    | .ok out =>
      match runWorkers worker is with
      | .error e => .error e
      | .ok outs => .ok (out :: outs)

/-- The function `processNewspaperImages` of `incident_extractor.cpp`, from the point
where `imagePaths` is filled. `numThreads` is what `hardware_concurrency()` returned and
`sched` the interleaving of the workers' appends. -/
def processNewspaperImages (numThreads : Nat) (sched : List Nat) (uninit : Nat → Int)
    (items : List Item) : Except Failure (List ShootingInfo) :=
  if numThreads = 0 then .error .division_by_zero
  else
    let imagesPerThread := items.length / numThreads
    match runWorkers (fun i =>
        processImagesThread uninit items (i * imagesPerThread)
          (if i = numThreads - 1 then items.length else (i + 1) * imagesPerThread))
        (List.range numThreads) with
    | .error e => .error e
    | .ok outs => .ok (interleave sched outs)

/-! ## The sequential program `incident_extracter.cpp` -/

namespace Extracter

open Regex in
/-- The pattern
`(\d+)\s+(?:people|individuals|persons)\s+(?:killed|dead|fatally shot)`. -/
def victimsPattern : Regex :=
  seqs [group 1 (plus (cls .digit)),
    plus (cls .space),
    words ["people", "individuals", "persons"],
    plus (cls .space),
    words ["killed", "dead", "fatally shot"]]

open Regex in
/-- The pattern `in\s+([A-Z][a-z]+(?:,\s+[A-Z]{2})?)`. -/
def locationPattern : Regex :=
  seqs [lit "in".toList,
    plus (cls .space),
    group 1 (seqs [cls .upper, plus (cls .lower),
      opt (seqs [cls (.lit ','), plus (cls .space), cls .upper, cls .upper])])]

/-- The function `extractShootingInfo` of `incident_extracter.cpp`: the description is
always the first 500 characters. -/
def extractShootingInfo (uninit : Int) (text source : Str) : Except Failure ShootingInfo :=
  let date := extractDate text
  match (match regex_search text victimsPattern with
      | some m => stoi (m.sub 1)
      | none => .ok uninit) with
  | .error e => .error e
  | .ok victims =>
    let location := match regex_search text locationPattern with
      | some m => m.sub 1
      | none => []
    .ok { date := date, victims := victims, location := location,
          description := text.take 500, source := source }

/-- The loop of the sequential `processNewspaperImages` over the images of the folder;
the first argument is the index of the next image. -/
def processEntries (uninit : Nat → Int) : Nat → List Item → Except Failure (List ShootingInfo)
  | _, [] => .ok []
  | i, item :: items =>
    if containsRelevantTerms item.ocrText then
      match extractShootingInfo (uninit i) item.ocrText item.filename with
      | .error e => .error e
      | .ok info =>
        match processEntries uninit (i + 1) items with
        | .error e => .error e
        | .ok rs =>
          if info.victims > 0 ∧ info.location ≠ [] then .ok (info :: rs) else .ok rs
    else processEntries uninit (i + 1) items

/-- The function `processNewspaperImages` of `incident_extracter.cpp`. -/
def processNewspaperImages (uninit : Nat → Int) (items : List Item) :
    Except Failure (List ShootingInfo) :=
  processEntries uninit 0 items

end Extracter

/-! ## What a pattern matches: the declarative reading -/

/-- The state after passing the character `x`. -/
def MState.step (s : MState) (x : Char) (t : Str) : MState :=
  { s with before := x :: s.before, rest := t }

/-- The state after closing capture group `n`, opened at `s0`. -/
def MState.close (s1 : MState) (n : Nat) (s0 : MState) : MState :=
  { s1 with caps := (n, s0.before.length, s1.before.length) :: s1.caps }

/-- The relation `Matches r s s1`: the pattern `r` can match the input between the
positions of `s` and `s1`, with no regard to priority. -/
inductive Matches : Regex → MState → MState → Prop where
  | eps (s : MState) : Matches .eps s s
  | cls (c : CharClass) (s : MState) (x : Char) (t : Str) :
      s.rest = x :: t → c.test x = true → Matches (.cls c) s (s.step x t)
  | wordBoundary (s : MState) :
      atBoundary s.before s.rest = true → Matches .wordBoundary s s
  | seq {a b : Regex} {s s1 s2 : MState} :
      Matches a s s1 → Matches b s1 s2 → Matches (.seq a b) s s2
  | altL {a b : Regex} {s s1 : MState} : Matches a s s1 → Matches (.alt a b) s s1
  | altR {a b : Regex} {s s1 : MState} : Matches b s s1 → Matches (.alt a b) s s1
  | starNil (g : Bool) (a : Regex) (s : MState) : Matches (.star g a) s s
  | starCons {g : Bool} {a : Regex} {s s1 s2 : MState} :
      Matches a s s1 → s1.rest.length < s.rest.length → Matches (.star g a) s1 s2 →
      Matches (.star g a) s s2
  | group {n : Nat} {a : Regex} {s s1 : MState} :
      Matches a s s1 → Matches (.group n a) s (s1.close n s)

/-- The pattern `r` has a match in `text` that starts right after `pre` and ends in the
state `f`. -/
def MatchAt (r : Regex) (text pre : Str) (f : MState) : Prop :=
  ∃ post, text = pre ++ post ∧ Matches r ⟨pre.reverse, post, []⟩ f

/-- The state `s1` is `s` moved forward over exactly the characters `w`, captures
untouched. -/
def Adv (s : MState) (w : Str) (s1 : MState) : Prop :=
  s.rest = w ++ s1.rest ∧ s1.before = w.reverse ++ s.before ∧ s1.caps = s.caps

/-! ## Auxiliary definitions for the batch -/

/-- Two results put one after the other; the first failure wins. -/
def appendE {α : Type} (x y : Except Failure (List α)) : Except Failure (List α) :=
  match x with
  | .error e => .error e
  | .ok a =>
    match y with
    | .error e => .error e
    | .ok b => .ok (a ++ b)

/-- The concatenation of the workers' outputs, when all of them returned. -/
def flattenE {α : Type} (x : Except Failure (List (List α))) : Except Failure (List α) :=
  match x with
  | .error e => .error e
  | .ok outs => .ok outs.flatten

/-! ## Sample inputs -/

/-- A corpus of five images used to run the batch. -/
def sampleItems : List Item :=
  [⟨"a.png".toList, "A gunman shot 4 people in Chicago.".toList⟩,
   ⟨"b.png".toList, "The weather was nice in Boston; 3 people came.".toList⟩,
   ⟨"c.png".toList, "2 dead after the shooting downtown.".toList⟩,
   ⟨"d.png".toList, "shot in Chicago".toList⟩,
   ⟨"e.png".toList, "7 killed in Austin, TX".toList⟩]

/-! ## The extraction patterns in words -/

/-- The eight words that may follow the number in the victim-count pattern. -/
def victimWords : List String :=
  ["people", "individuals", "persons", "victims", "killed", "dead", "fatally shot", "injured"]

/-- The victim-count phrase occurs in `text` right after `pre`, with digit run `ds`: a
non-empty run of digits, then white space (possibly none), then one of the eight words. -/
def VictimPhraseAt (text pre ds : Str) : Prop :=
  ∃ (ws : Str) (word : String) (post : Str),
    text = pre ++ ds ++ ws ++ word.toList ++ post ∧
    ds ≠ [] ∧ (∀ c ∈ ds, isDigit c = true) ∧ (∀ c ∈ ws, isSpace c = true) ∧
    word ∈ victimWords

/-- The twelve English month names of the date pattern. -/
def monthNames : List String :=
  ["January", "February", "March", "April", "May", "June", "July", "August",
    "September", "October", "November", "December"]

/-- Whether the text before a position ends in a word character. -/
def wordBefore (pre : Str) : Bool :=
  match pre.getLast? with
  | some c => isWord c
  | none => false

/-- Whether the text after a position starts with a word character. -/
def wordAfter (post : Str) : Bool :=
  match post.head? with
  | some c => isWord c
  | none => false

/-- The date form: a month name, white space, a day of one or two digits, a comma, white
space, a year of four digits. -/
def DatePhrase (d : Str) : Prop :=
  ∃ (month : String) (ws1 day ws2 year : Str),
    d = month.toList ++ ws1 ++ day ++ [','] ++ ws2 ++ year ∧
    month ∈ monthNames ∧
    ws1 ≠ [] ∧ (∀ c ∈ ws1, isSpace c = true) ∧
    (day.length = 1 ∨ day.length = 2) ∧ (∀ c ∈ day, isDigit c = true) ∧
    ws2 ≠ [] ∧ (∀ c ∈ ws2, isSpace c = true) ∧
    year.length = 4 ∧ (∀ c ∈ year, isDigit c = true)

/-- The substring `d` of `text` that starts right after `pre` has the date form and is
delimited by word boundaries: no word character right before it or right after it. -/
def DatePhraseAt (text pre d : Str) : Prop :=
  ∃ post, text = pre ++ d ++ post ∧ DatePhrase d ∧
    wordBefore pre = false ∧ wordAfter post = false

/-- A capitalised word together with the white space after it: an upper-case letter, one
or more lower-case letters, then white space (possibly none). -/
def CapWord (w : Str) : Prop :=
  ∃ (u : Char) (ls ws : Str), w = u :: ls ++ ws ∧ isUpper u = true ∧ ls ≠ [] ∧
    (∀ c ∈ ls, isLower c = true) ∧ (∀ c ∈ ws, isSpace c = true)

/-- A region code: a comma, white space (possibly none), two upper-case letters. -/
def RegionCode (r : Str) : Prop :=
  ∃ (ws : Str) (a b : Char), r = ',' :: ws ++ [a, b] ∧ (∀ c ∈ ws, isSpace c = true) ∧
    isUpper a = true ∧ isUpper b = true

/-- What group 1 of the location pattern can capture: one or more capitalised words, then
possibly a region code. -/
def LocationPhrase (c : Str) : Prop :=
  ∃ (ws : List Str) (r : Str), c = ws.flatten ++ r ∧ ws ≠ [] ∧ (∀ w ∈ ws, CapWord w) ∧
    (r = [] ∨ RegionCode r)

/-- The location phrase occurs in `text` right after `pre`, with capture `c`: the letters
"in", white space, and the captured words. -/
def LocationPhraseAt (text pre c : Str) : Prop :=
  ∃ (ws post : Str), text = pre ++ ['i', 'n'] ++ ws ++ c ++ post ∧ ws ≠ [] ∧
    (∀ x ∈ ws, isSpace x = true) ∧ LocationPhrase c

/-- An anchor of the description pattern: "mass", white space, "shooting"; or "shooting";
or "incident". -/
def DescriptionAnchor (a : Str) : Prop :=
  (∃ ws : Str, ws ≠ [] ∧ (∀ x ∈ ws, isSpace x = true) ∧
    a = "mass".toList ++ ws ++ "shooting".toList) ∨
  a = "shooting".toList ∨ a = "incident".toList

/-- The description phrase occurs in `text` right after `pre`, as the substring `d`: an
anchor, then characters other than line feed and carriage return, then a period or a line
feed. -/
def DescriptionPhraseAt (text pre d : Str) : Prop :=
  ∃ (a body : Str) (stop : Char) (post : Str), text = pre ++ d ++ post ∧
    d = a ++ body ++ [stop] ∧ DescriptionAnchor a ∧ (∀ x ∈ body, isDot x = true) ∧
    (stop = '.' ∨ stop = '\n')

/-- A text of 520 characters with no anchor of the description pattern. -/
def longText : Str := List.replicate 520 'x'

/-! ## The batch in words -/

/-- The records the batch is asked to return, from image `i` on: for each image whose text
is relevant and whose extracted record has `victims > 0` and a non-empty location, that
record, and nothing for the other images. -/
def acceptedFrom (uninit : Nat → Int) : Nat → List Item → List ShootingInfo
  | _, [] => []
  | i, item :: items =>
    (if containsRelevantTerms item.ocrText then
      match extractShootingInfo (uninit i) item.ocrText item.filename with
      | .ok info => if info.victims > 0 ∧ info.location ≠ [] then [info] else []
      | .error _ => []
    else []) ++ acceptedFrom uninit (i + 1) items

/-- The records the batch is asked to return for a corpus. -/
def acceptedRecords (uninit : Nat → Int) (items : List Item) : List ShootingInfo :=
  acceptedFrom uninit 0 items

/-- The three images of the end-to-end example: a relevant text with 4 victims in
Chicago, an irrelevant text, and a relevant text with a victim count but no location. -/
def threeItems : List Item :=
  [⟨"a.png".toList, "A gunman shot 4 people in Chicago.".toList⟩,
   ⟨"b.png".toList, "The weather was nice in Boston.".toList⟩,
   ⟨"c.png".toList, "2 dead after the shooting downtown.".toList⟩]

/-! ## Letter case -/

/-- The C function `toupper` in the "C" locale: `a`..`z` go to `A`..`Z`, every other
character is unchanged. -/
def toupper (c : Char) : Char :=
  if 97 ≤ c.toNat ∧ c.toNat ≤ 122 then Char.ofNat (c.toNat - 32) else c

/-- A text with every letter in upper case. -/
def upperText (text : Str) : Str := text.map toupper

/-! ## The shards of `processNewspaperImages` -/

/-- The variable `start` of worker `i`: `i * imagesPerThread`, for `n` images and
`numThreads` workers. -/
def shardStart (n numThreads i : Nat) : Nat := i * (n / numThreads)

/-- The variable `end` of worker `i`: `imagePaths.size()` for the last worker and
`(i + 1) * imagesPerThread` for the others. -/
def shardEnd (n numThreads i : Nat) : Nat :=
  if i = numThreads - 1 then n else (i + 1) * (n / numThreads)

/-- The records pushed for the images of a list, the first of which has index `i`, in the
order of the images; an exception ends the run. -/
def loopFrom (uninit : Nat → Int) : Nat → List Item → Except Failure (List ShootingInfo)
  | _, [] => .ok []
  | i, item :: items =>
    match processItem (uninit i) item with
    | .error e => .error e
    | .ok r =>
      match loopFrom uninit (i + 1) items with
      | .error e => .error e
      | .ok rs => .ok (r.toList ++ rs)

/-! ## `nlohmann::json` and `saveToJson` -/

/-- A `nlohmann::json` value, as far as the program builds one: an object is its
`std::map`, the list of its members in the order of the keys. -/
inductive Json where
  | null
  | int (n : Int)
  | str (s : Str)
  | arr (xs : List Json)
  | obj (members : List (Str × Json))

/-- What a `nlohmann::json` operation can raise. -/
inductive JsonError where
  | type_error
  deriving DecidableEq, Repr

/-- The order `std::less<std::string>` of the keys of an object. -/
def strLt : Str → Str → Bool
  | _, [] => false
  | [], _ :: _ => true
  | a :: s, b :: t => a.toNat < b.toNat || (a == b && strLt s t)

/-- The call `std::map::emplace(key, value)`: the member is put at its place in the order
of the keys, and a key already present keeps its value. -/
def mapEmplace (k : Str) (v : Json) : List (Str × Json) → List (Str × Json)
  | [] => [(k, v)]
  | (k1, v1) :: m =>
    if strLt k k1 then (k, v) :: (k1, v1) :: m
    else if k = k1 then (k1, v1) :: m
    else (k1, v1) :: mapEmplace k v m

/-- Whether a value is an array of two elements whose first is a string. -/
def Json.isPair : Json → Bool
  | .arr [.str _, _] => true
  | _ => false

/-- The constructor `basic_json(initializer_list)`: an object when every element is an
array of two elements whose first is a string, each element giving one member; an array
of the elements otherwise. -/
def Json.ofInit (init : List Json) : Json :=
  if init.all Json.isPair then
    .obj (init.foldl (fun m e =>
      match e with
      | .arr [.str k, v] => mapEmplace k v m
      | _ => m) [])
  else .arr init

/-- The call `j.push_back(value)`: `null` becomes an array of one element, an array gets
the element at its end, anything else raises `type_error`. -/
def Json.push_back (j v : Json) : Except JsonError Json :=
  match j with
  | .null => .ok (.arr [v])
  | .arr xs => .ok (.arr (xs ++ [v]))
  | _ => .error .type_error

/-- The call `j.push_back({...})` with a braced list: on an object, a list of a string and
a value adds a member; in every other case the value built from the list is pushed. -/
def Json.push_back_init (j : Json) (init : List Json) : Except JsonError Json :=
  match j, init with
  | .obj m, [.str k, v] => .ok (.obj (mapEmplace k v m))
  | _, _ => j.push_back (Json.ofInit init)

/-- The braced list that `saveToJson` pushes for one record:
`{{"date", info.date}, {"victims", info.victims}, {"location", info.location},
{"description", info.description}, {"source", info.source}}`. -/
def recordInit (info : ShootingInfo) : List Json :=
  [Json.ofInit [.str "date".toList, .str info.date],
   Json.ofInit [.str "victims".toList, .int info.victims],
   Json.ofInit [.str "location".toList, .str info.location],
   Json.ofInit [.str "description".toList, .str info.description],
   Json.ofInit [.str "source".toList, .str info.source]]

/-- The loop of `saveToJson` over the records, from the value `j` built so far. -/
def buildJson : Json → List ShootingInfo → Except JsonError Json
  | j, [] => .ok j
  | j, info :: rest =>
    match j.push_back_init (recordInit info) with
    | .error e => .error e
    | .ok j1 => buildJson j1 rest

/-- The value `j` that `saveToJson` writes to the file: `json j;` is `null`, and every
record is pushed to it. -/
def saveToJson (data : List ShootingInfo) : Except JsonError Json :=
  buildJson .null data

/-- The object the record sink is asked to hold for a record: the five members `date`,
`description`, `location`, `source`, `victims` with the fields of the record. -/
def recordObject (info : ShootingInfo) : Json :=
  .obj [("date".toList, .str info.date), ("description".toList, .str info.description),
    ("location".toList, .str info.location), ("source".toList, .str info.source),
    ("victims".toList, .int info.victims)]

/-! ## The description in words -/

/-- A period or a line feed, the two characters that end the description sentence. -/
def isStop (c : Char) : Bool := c == '.' || c == '\n'

/-- An anchor of the description pattern occurs in `text` right after `pre`. -/
def AnchorAt (text pre a : Str) : Prop :=
  ∃ post, text = pre ++ a ++ post ∧ DescriptionAnchor a

/-- A sentence of 509 characters: an anchor, 500 letters and a period. -/
def longSentence : Str := "shooting".toList ++ List.replicate 500 'x' ++ ['.']

/-! ## The worker threads as a transition system -/

/-- Where a worker stands in `processImagesThread`: at the loop test, before `performOCR`,
before `containsRelevantTerms`, before `extractShootingInfo`, before the filter, before
the constructor of `lock_guard` (waiting for `mtx`), before `data.push_back(info)` (the
guard is alive), before the destructor of the guard, or after the loop. -/
inductive Pc where
  | loopTest
  | ocr
  | classify (item : Item)
  | extract (item : Item)
  | filter (info : ShootingInfo)
  | acquire (info : ShootingInfo)
  | push (info : ShootingInfo)
  | release
  | done
  deriving DecidableEq, Repr

/-- Whether the `lock_guard` of the worker is alive at this point. -/
def Pc.holdsLock : Pc → Bool
  | .push _ => true
  | .release => true
  | _ => false

/-- A worker thread: its loop variable `i`, its bound `end`, and where it stands. -/
structure Worker where
  i : Nat
  stop : Nat
  pc : Pc
  deriving DecidableEq, Repr

/-- The shared state: the workers, the owner of `mtx` (if it is locked), the vector
`data`, and whether `std::terminate` was called. -/
structure Sys where
  workers : List Worker
  mtx : Option Nat
  data : List ShootingInfo
  terminated : Bool
  deriving DecidableEq, Repr

/-- The worker at the end of an iteration: `++i` and back to the loop test. -/
def Worker.next (k : Worker) : Worker := { k with i := k.i + 1, pc := .loopTest }

/-- One step of worker `w`, `none` when it cannot move (it waits for `mtx`, it has left
the loop, or the program was terminated). -/
def stepWorker (uninit : Nat → Int) (items : List Item) (w : Nat) (s : Sys) : Option Sys :=
  if s.terminated then none
  else
    match s.workers[w]? with
    | none => none
    | some k =>
      match k.pc with
      | .loopTest =>
        let k1 : Worker := if k.i < k.stop then { k with pc := .ocr } else { k with pc := .done }
        some { s with workers := s.workers.set w k1 }
      | .ocr =>
        match items[k.i]? with
        | none => some { s with workers := s.workers.set w { k with pc := .done } }
        | some item => some { s with workers := s.workers.set w { k with pc := .classify item } }
      | .classify item =>
        let k1 : Worker :=
          if containsRelevantTerms item.ocrText then { k with pc := .extract item } else k.next
        some { s with workers := s.workers.set w k1 }
      | .extract item =>
        match extractShootingInfo (uninit k.i) item.ocrText item.filename with
        | .error _ => some { s with terminated := true }
        | .ok info => some { s with workers := s.workers.set w { k with pc := .filter info } }
      | .filter info =>
        let k1 : Worker :=
          if info.victims > 0 ∧ info.location ≠ [] then { k with pc := .acquire info }
          else k.next
        some { s with workers := s.workers.set w k1 }
      | .acquire info =>
        match s.mtx with
        | none =>
          some { s with mtx := some w, workers := s.workers.set w { k with pc := .push info } }
        | some _ => none
      | .push info =>
        some { s with data := s.data ++ [info], workers := s.workers.set w { k with pc := .release } }
      | .release =>
        some { s with mtx := none, workers := s.workers.set w k.next }
      | .done => none

/-- The state when the threads have been created: worker `i` is at the loop test of its
shard, `mtx` is free and `data` is empty. -/
def initSys (numThreads : Nat) (items : List Item) : Sys :=
  { workers := (List.range numThreads).map (fun i =>
      ⟨shardStart items.length numThreads i, shardEnd items.length numThreads i, .loopTest⟩),
    mtx := none, data := [], terminated := false }

/-- Run the workers in the order of a schedule; a worker that cannot move when its turn
comes is passed over. -/
def runSchedule (uninit : Nat → Int) (items : List Item) : List Nat → Sys → Sys
  | [], s => s
  | w :: sched, s =>
    match stepWorker uninit items w s with
    | some s1 => runSchedule uninit items sched s1
    | none => runSchedule uninit items sched s

/-- The lock discipline: a worker's guard is alive exactly when the worker owns `mtx`. -/
def LockInv (s : Sys) : Prop :=
  ∀ w k, s.workers[w]? = some k → (k.pc.holdsLock = true ↔ s.mtx = some w)

/-- A schedule that brings worker 1 to its `push_back` and worker 0 to the constructor of
its guard, over the sample corpus with two workers. -/
def waitingSchedule : List Nat := List.replicate 16 1 ++ List.replicate 6 0

/-- A schedule that lets both workers of the sample corpus finish. -/
def fullSchedule : List Nat :=
  waitingSchedule ++ [1, 1] ++ List.replicate 8 0 ++ [1, 1]

/-! ## What a worker has still to push -/

/-- The record of one image as a list: one record or none. -/
def toListE (x : Except Failure (Option ShootingInfo)) : Except Failure (List ShootingInfo) :=
  match x with
  | .error e => .error e
  | .ok r => .ok r.toList

/-- The records that a worker will still push from where it stands, in its order, or the
failure it will meet. -/
def pending (uninit : Nat → Int) (items : List Item) (k : Worker) :
    Except Failure (List ShootingInfo) :=
  match k.pc with
  | .loopTest => processLoop uninit items (k.stop - k.i) k.i
  | .ocr => processLoop uninit items (k.stop - k.i) k.i
  | .classify item =>
    appendE (toListE (processItem (uninit k.i) item))
      (processLoop uninit items (k.stop - (k.i + 1)) (k.i + 1))
  | .extract item =>
    appendE (toListE
      (match extractShootingInfo (uninit k.i) item.ocrText item.filename with
        | .error e => .error e
        | .ok info =>
          if info.victims > 0 ∧ info.location ≠ [] then .ok (some info) else .ok none))
      (processLoop uninit items (k.stop - (k.i + 1)) (k.i + 1))
  | .filter info =>
    appendE (.ok (if info.victims > 0 ∧ info.location ≠ [] then [info] else []))
      (processLoop uninit items (k.stop - (k.i + 1)) (k.i + 1))
  | .acquire info =>
    appendE (.ok [info]) (processLoop uninit items (k.stop - (k.i + 1)) (k.i + 1))
  | .push info =>
    appendE (.ok [info]) (processLoop uninit items (k.stop - (k.i + 1)) (k.i + 1))
  | .release => processLoop uninit items (k.stop - (k.i + 1)) (k.i + 1)
  | .done => .ok []

/-- The records that the workers will still push, worker after worker. -/
def pendingAll (uninit : Nat → Int) (items : List Item) :
    List Worker → Except Failure (List ShootingInfo)
  | [] => .ok []
  | k :: ks => appendE (pending uninit items k) (pendingAll uninit items ks)

/-- The link between a state of the workers and the sequential loop: the program was not
terminated, a worker at `performOCR` has passed the loop test, and the records in `data`
together with those still to be pushed are the records `all` of the sequential loop. -/
def SimInv (uninit : Nat → Int) (items : List Item) (all : List ShootingInfo) (s : Sys) :
    Prop :=
  s.terminated = false ∧
  (∀ k ∈ s.workers, k.pc = .ocr → k.i < k.stop) ∧
  ∃ ps, pendingAll uninit items s.workers = .ok ps ∧ List.Perm (s.data ++ ps) all

/-! ## Letter case in words -/

/-- Two characters that are the same up to the case of an ASCII letter: equal, or one is
an upper-case letter `A`..`Z` and the other is the lower-case letter 32 places after it. -/
def sameLetter (a b : Char) : Prop :=
  a = b ∨ (65 ≤ a.toNat ∧ a.toNat ≤ 90 ∧ b.toNat = a.toNat + 32) ∨
    (65 ≤ b.toNat ∧ b.toNat ≤ 90 ∧ a.toNat = b.toNat + 32)

/-- The string `w` is the string `v` in some letter case: same length, and the same
letter at every place. -/
def InSomeCase (w v : Str) : Prop := List.Forall₂ sameLetter w v

/-! ## The greedy match of the location pattern -/

/-- No capitalised word starts at the front of `rest`: it does not begin with an
upper-case letter followed by a lower-case letter. -/
def NoWordAt (rest : Str) : Prop :=
  ∀ u l t, rest = u :: l :: t → isUpper u = true → isLower l = false

/-- The capitalised word `w` as the greedy quantifiers take it in front of `rest1`: an
upper-case letter, the whole run of lower-case letters after it (at least one), and the
whole run of white space after these. -/
def GreedyWord (w rest1 : Str) : Prop :=
  ∃ (u : Char) (ls ws : Str), w = u :: ls ++ ws ∧ isUpper u = true ∧ ls ≠ [] ∧
    (∀ c ∈ ls, isLower c = true) ∧ (∀ c ∈ ws, isSpace c = true) ∧
    (∀ x t, ws ++ rest1 = x :: t → isLower x = false) ∧
    (∀ x t, rest1 = x :: t → isSpace x = false)

/-- The words that the greedy repetition takes from the front of a string, and what is
left after them: every word is taken whole, and the repetition stops only where no
capitalised word starts. -/
inductive GreedyWords : Str → List Str → Str → Prop where
  | nil (rest : Str) : NoWordAt rest → GreedyWords rest [] rest
  | cons (w rest1 : Str) (wl : List Str) (rest2 : Str) :
      GreedyWord w rest1 → GreedyWords rest1 wl rest2 → GreedyWords (w ++ rest1) (w :: wl) rest2

/-! ## The uninitialised field when the storage of `info` is reused -/

/-- The content of the storage of `info.victims` after a worker that found `garbage` in it
has gone through `n` images from image `start` on, the object `info` of every iteration
of the worker being given the same storage: an image with a relevant text leaves there
the `victims` of its record (the number it matched, or what the storage held when nothing
matched), every other image leaves the storage as it was. -/
def victimsSlot (items : List Item) (garbage : Int) (start : Nat) : Nat → Int
  | 0 => garbage
  | n + 1 =>
    match items[start + n]? with
    | none => victimsSlot items garbage start n
    | some item =>
      if containsRelevantTerms item.ocrText then
        match extractShootingInfo (victimsSlot items garbage start n) item.ocrText
            item.filename with
        | .ok info => info.victims
        | .error _ => victimsSlot items garbage start n
      else victimsSlot items garbage start n

/-- The value that image `j` finds in the uninitialised field in a run with `numThreads`
workers in which worker `w` starts with `garbage w` in the storage: what the images
before it in the shard of its worker have left there. -/
def reusedVictims (numThreads : Nat) (garbage : Nat → Int) (items : List Item) (j : Nat) :
    Int :=
  match (List.range numThreads).find? (fun w =>
      decide (shardStart items.length numThreads w ≤ j) &&
        decide (j < shardEnd items.length numThreads w)) with
  | some w => victimsSlot items (garbage w) (shardStart items.length numThreads w)
      (j - shardStart items.length numThreads w)
  | none => 0

/-- Two images: a relevant text with 3 victims in Chicago, and a relevant text with a
location and no victim count. -/
def borderItems : List Item :=
  [⟨"a.png".toList, "3 dead in Chicago".toList⟩, ⟨"b.png".toList, "shot in Boston".toList⟩]

/-- The third and the fourth image of the sample corpus: a relevant text with 2 victims
and no location, and a relevant text with a location and no victim count. -/
def staleItems : List Item :=
  [⟨"c.png".toList, "2 dead after the shooting downtown.".toList⟩,
   ⟨"d.png".toList, "shot in Chicago".toList⟩]

/-! ## Lemmas on `find` -/

theorem startsWith_iff (needle hay : Str) :
    startsWith needle hay = true ↔ needle <+: hay := by
  induction needle generalizing hay with
  | nil => simp [startsWith]
  | cons a needle ih =>
    cases hay with
    | nil => simp [startsWith]
    | cons b hay =>
      simp only [startsWith, Bool.and_eq_true, beq_iff_eq, ih, List.cons_prefix_cons]

theorem find_isSome_iff (needle hay : Str) :
    (find needle hay).isSome = true ↔ needle <:+: hay := by
  induction hay with
  | nil =>
    simp only [find]
    split
    · rename_i h
      rw [startsWith_iff] at h
      simpa using h.isInfix
    · rename_i h
      rw [startsWith_iff] at h
      simp only [Option.isSome_none, Bool.false_eq_true, false_iff]
      intro hin
      apply h
      have := List.eq_nil_of_infix_nil hin
      simp [this]
  | cons c hay ih =>
    simp only [find]
    split
    · rename_i h
      rw [startsWith_iff] at h
      simpa using h.isInfix
    · rename_i h
      rw [startsWith_iff] at h
      rw [List.infix_cons_iff]
      constructor
      · intro hs
        right
        apply ih.mp
        revert hs
        cases find needle hay <;> simp
      · rintro (hp | hi)
        · exact absurd hp h
        · have := ih.mpr hi
          revert this
          cases find needle hay <;> simp

theorem containsRelevantTerms_iff (text : Str) :
    containsRelevantTerms text = true ↔ ∃ term ∈ terms, term <:+: lowerText text := by
  simp only [containsRelevantTerms, List.any_eq_true, find_isSome_iff]

theorem infix_map_iff {α β : Type} (f : α → β) (w : List β) (l : List α) :
    w <:+: l.map f ↔ ∃ v, v <:+: l ∧ v.map f = w := by
  constructor
  · rintro ⟨s, t, h⟩
    refine ⟨(l.drop s.length).take w.length, ?_, ?_⟩
    · exact List.IsInfix.trans (List.take_prefix _ _).isInfix (List.drop_suffix _ _).isInfix
    · rw [List.map_take, List.map_drop, ← h]
      simp
  · rintro ⟨v, ⟨s, t, h⟩, rfl⟩
    exact ⟨s.map f, t.map f, by simp [← h]⟩

/-! ## Soundness and completeness of the matcher -/

/-- Every result of the repetition loop is a declarative match of the starred pattern. -/
theorem starLoop_sound (g : Bool) (a : Regex)
    (iha : ∀ s k f, run a s k = some f → ∃ s1, Matches a s s1 ∧ k s1 = some f) :
    ∀ n s k f, starLoop g (run a) n s k = some f →
      ∃ s1, Matches (.star g a) s s1 ∧ k s1 = some f := by
  intro n
  induction n with
  | zero =>
    intro s k f h
    exact ⟨s, Matches.starNil g a s, by simpa [starLoop] using h⟩
  | succ n ih =>
    intro s k f h
    have key : ∀ f, run a s (fun s1 =>
          if s1.rest.length < s.rest.length then starLoop g (run a) n s1 k else none) = some f →
        ∃ s1, Matches (.star g a) s s1 ∧ k s1 = some f := by
      intro f hf
      obtain ⟨s1, hm, hk⟩ := iha _ _ _ hf
      by_cases hlt : s1.rest.length < s.rest.length
      · simp only [hlt, if_true] at hk
        obtain ⟨s2, hm2, hk2⟩ := ih _ _ _ hk
        exact ⟨s2, Matches.starCons hm hlt hm2, hk2⟩
      · simp [hlt] at hk
    simp only [starLoop] at h
    cases g with
    | true =>
      simp only [if_true] at h
      split at h
      · rename_i r hr
        cases h
        exact key _ hr
      · exact ⟨s, Matches.starNil _ a s, h⟩
    | false =>
      simp only [Bool.false_eq_true, if_false] at h
      split at h
      · rename_i r hr
        cases h
        exact ⟨s, Matches.starNil _ a s, hr⟩
      · exact key _ h

/-- Soundness of the matcher: a result comes from a declarative match on which the
continuation gave that result. -/
theorem run_sound (r : Regex) :
    ∀ s k f, run r s k = some f → ∃ s1, Matches r s s1 ∧ k s1 = some f := by
  induction r with
  | eps =>
    intro s k f h
    exact ⟨s, Matches.eps s, by simpa [run] using h⟩
  | cls c =>
    intro s k f h
    simp only [run] at h
    split at h
    · cases h
    · rename_i x t hx
      split at h
      · rename_i hc
        exact ⟨s.step x t, Matches.cls c s x t hx hc, h⟩
      · cases h
  | wordBoundary =>
    intro s k f h
    simp only [run] at h
    split at h
    · rename_i hb
      exact ⟨s, Matches.wordBoundary s hb, h⟩
    · cases h
  | seq a b iha ihb =>
    intro s k f h
    simp only [run] at h
    obtain ⟨s1, hm1, h1⟩ := iha _ _ _ h
    obtain ⟨s2, hm2, h2⟩ := ihb _ _ _ h1
    exact ⟨s2, Matches.seq hm1 hm2, h2⟩
  | alt a b iha ihb =>
    intro s k f h
    simp only [run] at h
    split at h
    · rename_i r hr
      cases h
      obtain ⟨s1, hm1, h1⟩ := iha _ _ _ hr
      exact ⟨s1, Matches.altL hm1, h1⟩
    · obtain ⟨s1, hm1, h1⟩ := ihb _ _ _ h
      exact ⟨s1, Matches.altR hm1, h1⟩
  | star g a iha =>
    intro s k f h
    simp only [run] at h
    exact starLoop_sound g a iha _ _ _ _ h
  | group n a iha =>
    intro s k f h
    simp only [run] at h
    obtain ⟨s1, hm1, h1⟩ := iha _ _ _ h
    exact ⟨s1.close n s, Matches.group hm1, h1⟩

/-- Completeness of the repetition loop, given enough iterations. -/
theorem starLoop_complete (g : Bool) (a : Regex)
    (iha : ∀ s s1 k, Matches a s s1 → (k s1).isSome = true → (run a s k).isSome = true) :
    ∀ n s s1 k, s.rest.length ≤ n → Matches (.star g a) s s1 → (k s1).isSome = true →
      (starLoop g (run a) n s k).isSome = true := by
  intro n
  induction n with
  | zero =>
    intro s s1 k hn hm hk
    cases hm with
    | starNil => simpa [starLoop] using hk
    | starCons hm1 hlt hm2 => omega
  | succ n ih =>
    intro s s1 k hn hm hk
    cases hm with
    | starNil =>
      simp only [starLoop]
      cases g with
      | true =>
        simp only [if_true]
        split
        · rfl
        · exact hk
      | false =>
        simp only [Bool.false_eq_true, if_false]
        split
        · rfl
        · rename_i hnone
          rw [hnone] at hk
          cases hk
    | starCons hm1 hlt hm2 =>
      rename_i s2
      have hiter : (run a s (fun s1 =>
          if s1.rest.length < s.rest.length then starLoop g (run a) n s1 k else none)).isSome
            = true := by
        apply iha s s2 _ hm1
        simp only [hlt, if_true]
        exact ih s2 s1 k (by omega) hm2 hk
      simp only [starLoop]
      cases g with
      | true =>
        simp only [if_true]
        split
        · rfl
        · rename_i hnone
          rw [hnone] at hiter
          cases hiter
      | false =>
        simp only [Bool.false_eq_true, if_false]
        split
        · rfl
        · exact hiter

/-- Completeness of the matcher: when some declarative match lets the continuation
succeed, the matcher returns a result. -/
theorem run_complete (r : Regex) :
    ∀ s s1 k, Matches r s s1 → (k s1).isSome = true → (run r s k).isSome = true := by
  induction r with
  | eps =>
    intro s s1 k hm hk
    cases hm
    simpa [run] using hk
  | cls c =>
    intro s s1 k hm hk
    cases hm with
    | cls _ _ x t hx hc =>
      simp only [run, hx, hc, if_true]
      exact hk
  | wordBoundary =>
    intro s s1 k hm hk
    cases hm with
    | wordBoundary _ hb =>
      simp only [run, hb, if_true]
      exact hk
  | seq a b iha ihb =>
    intro s s1 k hm hk
    cases hm with
    | seq hm1 hm2 =>
      simp only [run]
      exact iha _ _ _ hm1 (ihb _ _ _ hm2 hk)
  | alt a b iha ihb =>
    intro s s1 k hm hk
    simp only [run]
    cases hm with
    | altL hm1 =>
      have := iha _ _ k hm1 hk
      split
      · rfl
      · rename_i hnone
        rw [hnone] at this
        cases this
    | altR hm1 =>
      split
      · rfl
      · exact ihb _ _ k hm1 hk
  | star g a iha =>
    intro s s1 k hm hk
    simp only [run]
    exact starLoop_complete g a iha _ _ _ _ (le_refl _) hm hk
  | group n a iha =>
    intro s s1 k hm hk
    cases hm with
    | group hm1 =>
      simp only [run]
      exact iha _ _ _ hm1 hk

/-- The matcher finds nothing exactly when the pattern has no declarative match. -/
theorem run_eq_none_iff (r : Regex) (s : MState) :
    run r s some = none ↔ ∀ s1, ¬ Matches r s s1 := by
  constructor
  · intro h s1 hm
    have := run_complete r s s1 some hm rfl
    rw [h] at this
    cases this
  · intro h
    cases hr : run r s some with
    | none => rfl
    | some f =>
      obtain ⟨s1, hm, _⟩ := run_sound r s some f hr
      exact absurd hm (h s1)

/-! ## What `regex_search` finds -/

/-- A match only moves forward: the characters passed are taken from the front of the
remaining input. -/
theorem matches_frame {r : Regex} {s s1 : MState} (h : Matches r s s1) :
    ∃ w, s.rest = w ++ s1.rest ∧ s1.before = w.reverse ++ s.before := by
  induction h with
  | eps s => exact ⟨[], rfl, rfl⟩
  | cls c s x t hx _ => exact ⟨[x], by simp [MState.step, hx], by simp [MState.step]⟩
  | wordBoundary s _ => exact ⟨[], rfl, rfl⟩
  | seq _ _ ih1 ih2 =>
    obtain ⟨w1, h1, h1'⟩ := ih1
    obtain ⟨w2, h2, h2'⟩ := ih2
    exact ⟨w1 ++ w2, by simp [h1, h2], by simp [h1', h2']⟩
  | altL _ ih => exact ih
  | altR _ ih => exact ih
  | starNil g a s => exact ⟨[], rfl, rfl⟩
  | starCons _ _ _ ih1 ih2 =>
    obtain ⟨w1, h1, h1'⟩ := ih1
    obtain ⟨w2, h2, h2'⟩ := ih2
    exact ⟨w1 ++ w2, by simp [h1, h2], by simp [h1', h2']⟩
  | group _ ih => exact ih

/-- The search loop fails exactly when no position ahead has a match. -/
theorem searchFrom_eq_none_iff (r : Regex) (rest : Str) : ∀ before : Str,
    searchFrom r before rest = none ↔
      ∀ pre post, rest = pre ++ post → ∀ f, ¬ Matches r ⟨pre.reverse ++ before, post, []⟩ f := by
  induction rest with
  | nil =>
    intro before
    simp only [searchFrom]
    constructor
    · intro h pre post hpp f hm
      have hpre : pre = [] := by
        cases pre with
        | nil => rfl
        | cons a l => simp at hpp
      have hpost : post = [] := by
        subst hpre
        simpa using hpp.symm
      subst hpre hpost
      have hn : run r ⟨before, [], []⟩ some = none := by
        revert h
        cases run r ⟨before, [], []⟩ some <;> simp
      exact (run_eq_none_iff r _).mp hn f (by simpa using hm)
    · intro h
      have hn : run r ⟨before, [], []⟩ some = none :=
        (run_eq_none_iff r _).mpr (fun f hm => h [] [] rfl f (by simpa using hm))
      rw [hn]
  | cons c rest ih =>
    intro before
    simp only [searchFrom]
    constructor
    · intro h pre post hpp f hm
      have hn : run r ⟨before, c :: rest, []⟩ some = none := by
        revert h
        cases run r ⟨before, c :: rest, []⟩ some <;> simp
      rw [hn] at h
      simp only at h
      cases pre with
      | nil =>
        simp only [List.nil_append] at hpp
        subst hpp
        exact (run_eq_none_iff r _).mp hn f (by simpa using hm)
      | cons a pre =>
        simp only [List.cons_append, List.cons.injEq] at hpp
        obtain ⟨rfl, hpp⟩ := hpp
        exact (ih (c :: before)).mp h pre post hpp f (by simpa using hm)
    · intro h
      have hn : run r ⟨before, c :: rest, []⟩ some = none :=
        (run_eq_none_iff r _).mpr (fun f hm => h [] (c :: rest) rfl f (by simpa using hm))
      rw [hn]
      simp only
      apply (ih (c :: before)).mpr
      intro pre post hpp f hm
      exact h (c :: pre) post (by simp [hpp]) f (by simpa using hm)

/-- A result of the search loop is the matcher's result at the leftmost position that has
a match. -/
theorem searchFrom_eq_some (r : Regex) (rest : Str) : ∀ (before : Str) (i : Nat) (f : MState),
    searchFrom r before rest = some (i, f) →
      ∃ pre post, rest = pre ++ post ∧ i = before.length + pre.length ∧
        run r ⟨pre.reverse ++ before, post, []⟩ some = some f ∧
        ∀ pre1 post1, rest = pre1 ++ post1 → pre1.length < pre.length →
          ∀ f1, ¬ Matches r ⟨pre1.reverse ++ before, post1, []⟩ f1 := by
  induction rest with
  | nil =>
    intro before i f h
    simp only [searchFrom] at h
    split at h
    · rename_i g hg
      simp only [Option.some.injEq, Prod.mk.injEq] at h
      obtain ⟨rfl, rfl⟩ := h
      exact ⟨[], [], rfl, rfl, by simpa using hg, by simp⟩
    · cases h
  | cons c rest ih =>
    intro before i f h
    simp only [searchFrom] at h
    split at h
    · rename_i g hg
      simp only [Option.some.injEq, Prod.mk.injEq] at h
      obtain ⟨rfl, rfl⟩ := h
      exact ⟨[], c :: rest, rfl, rfl, by simpa using hg, by simp⟩
    · rename_i hn
      obtain ⟨pre, post, hpp, hi, hrun, hleft⟩ := ih (c :: before) i f h
      refine ⟨c :: pre, post, by simp [hpp], by simp [hi]; omega, by simpa using hrun, ?_⟩
      intro pre1 post1 hpp1 hlt f1 hm
      cases pre1 with
      | nil =>
        simp only [List.nil_append] at hpp1
        subst hpp1
        exact (run_eq_none_iff r _).mp hn f1 (by simpa using hm)
      | cons a pre1 =>
        simp only [List.cons_append, List.cons.injEq] at hpp1
        obtain ⟨rfl, hpp1⟩ := hpp1
        exact hleft pre1 post1 hpp1 (by simpa using hlt) f1 (by simpa using hm)

/-- The call `regex_search` returns `false` exactly when the pattern matches nowhere in the
text. -/
theorem regex_search_eq_none_iff (text : Str) (r : Regex) :
    regex_search text r = none ↔ ∀ pre f, ¬ MatchAt r text pre f := by
  have h := searchFrom_eq_none_iff r text []
  simp only [List.append_nil] at h
  constructor
  · intro hs pre f ⟨post, hpp, hm⟩
    have hn : searchFrom r [] text = none := by
      simp only [regex_search] at hs
      revert hs
      cases searchFrom r [] text <;> simp
    exact h.mp hn pre post hpp f hm
  · intro hs
    have hn : searchFrom r [] text = none :=
      h.mpr (fun pre post hpp f hm => hs pre f ⟨post, hpp, hm⟩)
    simp [regex_search, hn]

/-- A successful `regex_search` reports a match of the pattern at the leftmost position
of the text where the pattern matches at all. -/
theorem regex_search_eq_some (text : Str) (r : Regex) (m : SMatch)
    (h : regex_search text r = some m) :
    ∃ pre f, MatchAt r text pre f ∧
      run r ⟨pre.reverse, text.drop pre.length, []⟩ some = some f ∧
      m = ⟨text, pre.length, f.before.length, f.caps⟩ ∧
      ∀ pre1 f1, MatchAt r text pre1 f1 → pre.length ≤ pre1.length := by
  simp only [regex_search] at h
  split at h
  · rename_i i f hs
    obtain ⟨pre, post, hpp, hi, hrun, hleft⟩ := searchFrom_eq_some r text [] i f hs
    simp only [List.append_nil, List.length_nil, Nat.zero_add] at hrun hi hleft
    obtain ⟨s1, hm, hk⟩ := run_sound r _ _ _ hrun
    cases hk
    cases h
    subst hi
    refine ⟨pre, f, ⟨post, hpp, hm⟩, by simpa [hpp] using hrun, rfl, ?_⟩
    intro pre1 f1 ⟨post1, hpp1, hm1⟩
    by_contra hlt
    exact hleft pre1 post1 hpp1 (by omega) f1 hm1
  · cases h

/-! ## Inversion of the declarative reading -/

theorem Adv.nil_iff (s s1 : MState) : Adv s [] s1 ↔ s1 = s := by
  constructor
  · rintro ⟨h1, h2, h3⟩
    cases s
    cases s1
    simp_all
  · rintro rfl
    exact ⟨rfl, rfl, rfl⟩

theorem Adv.trans {s s1 s2 : MState} {w v : Str} (h1 : Adv s w s1) (h2 : Adv s1 v s2) :
    Adv s (w ++ v) s2 := by
  obtain ⟨a1, a2, a3⟩ := h1
  obtain ⟨b1, b2, b3⟩ := h2
  exact ⟨by simp [a1, b1], by simp [a2, b2], by simp [a3, b3]⟩

/-- Splitting a move over `w ++ v` at the state reached after `w`. -/
theorem Adv.split {s s2 : MState} {w v : Str} (h : Adv s (w ++ v) s2) :
    ∃ s1, Adv s w s1 ∧ Adv s1 v s2 := by
  obtain ⟨a1, a2, a3⟩ := h
  exact ⟨⟨w.reverse ++ s.before, v ++ s2.rest, s.caps⟩,
    ⟨by simp [a1], rfl, rfl⟩, ⟨rfl, by simp [a2], a3⟩⟩

theorem adv_unique {s s1 s2 : MState} {w : Str} (h1 : Adv s w s1) (h2 : Adv s w s2) :
    s1 = s2 := by
  obtain ⟨a1, a2, a3⟩ := h1
  obtain ⟨b1, b2, b3⟩ := h2
  cases s1
  cases s2
  simp only [MState.mk.injEq]
  simp only at a1 a2 a3 b1 b2 b3
  refine ⟨by rw [a2, b2], ?_, by rw [a3, b3]⟩
  rw [a1] at b1
  exact List.append_cancel_left b1

theorem matches_eps_iff (s s1 : MState) : Matches .eps s s1 ↔ s1 = s := by
  constructor
  · intro h
    cases h
    rfl
  · rintro rfl
    exact Matches.eps _

theorem matches_cls_iff (c : CharClass) (s s1 : MState) :
    Matches (.cls c) s s1 ↔ ∃ x, c.test x = true ∧ Adv s [x] s1 := by
  constructor
  · intro h
    cases h with
    | cls _ _ x t hx hc => exact ⟨x, hc, by simp [Adv, MState.step, hx]⟩
  · rintro ⟨x, hc, h1, h2, h3⟩
    have : s1 = s.step x s1.rest := by
      cases s
      cases s1
      simp_all [MState.step]
    rw [this]
    exact Matches.cls c s x s1.rest (by simpa using h1) hc

theorem matches_wordBoundary_iff (s s1 : MState) :
    Matches .wordBoundary s s1 ↔ s1 = s ∧ atBoundary s.before s.rest = true := by
  constructor
  · intro h
    cases h with
    | wordBoundary _ hb => exact ⟨rfl, hb⟩
  · rintro ⟨rfl, hb⟩
    exact Matches.wordBoundary _ hb

theorem matches_seq_iff (a b : Regex) (s s2 : MState) :
    Matches (.seq a b) s s2 ↔ ∃ s1, Matches a s s1 ∧ Matches b s1 s2 := by
  constructor
  · intro h
    cases h with
    | seq h1 h2 => exact ⟨_, h1, h2⟩
  · rintro ⟨s1, h1, h2⟩
    exact Matches.seq h1 h2

theorem matches_alt_iff (a b : Regex) (s s1 : MState) :
    Matches (.alt a b) s s1 ↔ Matches a s s1 ∨ Matches b s s1 := by
  constructor
  · intro h
    cases h with
    | altL h1 => exact Or.inl h1
    | altR h1 => exact Or.inr h1
  · rintro (h | h)
    · exact Matches.altL h
    · exact Matches.altR h

theorem matches_group_iff (n : Nat) (a : Regex) (s s2 : MState) :
    Matches (.group n a) s s2 ↔ ∃ s1, Matches a s s1 ∧ s2 = s1.close n s := by
  constructor
  · intro h
    cases h with
    | group h1 => exact ⟨_, h1, rfl⟩
  · rintro ⟨s1, h1, rfl⟩
    exact Matches.group h1

theorem matches_opt_iff (a : Regex) (s s1 : MState) :
    Matches (.opt a) s s1 ↔ Matches a s s1 ∨ s1 = s := by
  simp only [Regex.opt, matches_alt_iff, matches_eps_iff]

theorem matches_lit_iff (w : Str) : ∀ s s1 : MState, Matches (.lit w) s s1 ↔ Adv s w s1 := by
  induction w with
  | nil =>
    intro s s1
    simp only [Regex.lit, matches_eps_iff, Adv.nil_iff]
  | cons c w ih =>
    intro s s1
    simp only [Regex.lit, matches_seq_iff, matches_cls_iff, ih]
    constructor
    · rintro ⟨s2, ⟨x, hx, h1⟩, h2⟩
      simp only [CharClass.test, beq_iff_eq] at hx
      subst hx
      exact Adv.trans h1 h2
    · intro h
      obtain ⟨s2, h1, h2⟩ := Adv.split (w := [c]) (v := w) (by simpa using h)
      exact ⟨s2, ⟨c, by simp [CharClass.test], h1⟩, h2⟩

theorem matches_star_cls_iff (g : Bool) (c : CharClass) (s s1 : MState) :
    Matches (.star g (.cls c)) s s1 ↔ ∃ w, (∀ x ∈ w, c.test x = true) ∧ Adv s w s1 := by
  constructor
  · intro h
    generalize hr : Regex.star g (.cls c) = r at h
    induction h with
    | starNil g1 a s => exact ⟨[], by simp, (Adv.nil_iff _ _).mpr rfl⟩
    | starCons h1 _ _ _ ih2 =>
      cases hr
      obtain ⟨w, hw, hadv⟩ := ih2 rfl
      obtain ⟨x, hx, hadv1⟩ := (matches_cls_iff _ _ _).mp h1
      exact ⟨x :: w, by simpa [hx] using hw, Adv.trans hadv1 hadv⟩
    | _ => cases hr
  · rintro ⟨w, hw, hadv⟩
    induction w generalizing s with
    | nil =>
      rw [(Adv.nil_iff _ _).mp hadv]
      exact Matches.starNil _ _ _
    | cons x w ih =>
      obtain ⟨s2, h1, h2⟩ := Adv.split (w := [x]) (v := w) (by simpa using hadv)
      refine Matches.starCons ((matches_cls_iff _ _ _).mpr ⟨x, hw x (by simp), h1⟩) ?_
        (ih s2 (fun y hy => hw y (by simp [hy])) h2)
      have := h1.1
      simp [this]

theorem matches_plus_cls_iff (c : CharClass) (s s1 : MState) :
    Matches (.plus (.cls c)) s s1 ↔
      ∃ w, w ≠ [] ∧ (∀ x ∈ w, c.test x = true) ∧ Adv s w s1 := by
  simp only [Regex.plus, matches_seq_iff, matches_cls_iff, matches_star_cls_iff]
  constructor
  · rintro ⟨s2, ⟨x, hx, h1⟩, w, hw, h2⟩
    exact ⟨x :: w, by simp, by simpa [hx] using hw, Adv.trans h1 h2⟩
  · rintro ⟨w, hne, hw, hadv⟩
    cases w with
    | nil => exact absurd rfl hne
    | cons x w =>
      obtain ⟨s2, h1, h2⟩ := Adv.split (w := [x]) (v := w) (by simpa using hadv)
      exact ⟨s2, ⟨x, hw x (by simp), h1⟩, w, fun y hy => hw y (by simp [hy]), h2⟩

theorem matches_words_iff (ws : List String) (hne : ws ≠ []) : ∀ s s1 : MState,
    Matches (.words ws) s s1 ↔ ∃ w ∈ ws, Adv s w.toList s1 := by
  induction ws with
  | nil => exact absurd rfl hne
  | cons w ws ih =>
    intro s s1
    cases ws with
    | nil => simp only [Regex.words, matches_lit_iff, List.mem_singleton, exists_eq_left]
    | cons v ws =>
      simp only [Regex.words, matches_alt_iff, matches_lit_iff]
      rw [ih (by simp)]
      simp only [List.mem_cons, exists_eq_or_imp]

/-! ## Lemmas on the batch -/

theorem flatten_perm_of_get? {α : Type} (qs : List (List α)) : ∀ (w : Nat) (x : α)
    (q : List α), qs[w]? = some (x :: q) → qs.flatten.Perm (x :: (qs.set w q).flatten) := by
  induction qs with
  | nil => intro w x q h; simp at h
  | cons p qs ih =>
    intro w x q h
    cases w with
    | zero =>
      simp only [List.getElem?_cons_zero, Option.some.injEq] at h
      subst h
      simp
    | succ w =>
      simp only [List.getElem?_cons_succ] at h
      have := ih w x q h
      simp only [List.set_cons_succ, List.flatten_cons]
      exact (List.Perm.append_left p this).trans List.perm_middle

/-- Whatever the schedule, the collection holds exactly the records the workers pushed. -/
theorem interleave_perm {α : Type} (sched : List Nat) : ∀ qs : List (List α),
    (interleave sched qs).Perm qs.flatten := by
  induction sched with
  | nil => intro qs; simp [interleave]
  | cons w sched ih =>
    intro qs
    simp only [interleave]
    split
    · rename_i x q h
      exact ((ih _).cons x).trans (flatten_perm_of_get? qs w x q h).symm
    · exact ih qs

theorem processItem_accepts {uninit : Int} {item : Item} {info : ShootingInfo}
    (h : processItem uninit item = .ok (some info)) :
    containsRelevantTerms item.ocrText = true ∧
      extractShootingInfo uninit item.ocrText item.filename = .ok info ∧
      info.victims > 0 ∧ info.location ≠ [] := by
  simp only [processItem] at h
  split at h
  · rename_i hrel
    split at h
    · cases h
    · rename_i info1 hex
      split at h
      · rename_i hf
        cases h
        exact ⟨hrel, hex, hf⟩
      · cases h
  · cases h

theorem processLoop_filter (uninit : Nat → Int) (items : List Item) :
    ∀ (n i : Nat) (rs : List ShootingInfo), processLoop uninit items n i = .ok rs →
      ∀ r ∈ rs, r.victims > 0 ∧ r.location ≠ [] := by
  intro n
  induction n with
  | zero =>
    intro i rs h r hr
    simp only [processLoop, Except.ok.injEq] at h
    subst h
    simp at hr
  | succ n ih =>
    intro i rs h r hr
    simp only [processLoop] at h
    split at h
    · simp only [Except.ok.injEq] at h
      subst h
      simp at hr
    · rename_i item _
      split at h
      · cases h
      · rename_i o ho
        split at h
        · cases h
        · rename_i rs1 hrs1
          simp only [Except.ok.injEq] at h
          subst h
          rw [List.mem_append] at hr
          rcases hr with hr | hr
          · cases o with
            | none => simp at hr
            | some info =>
              simp only [Option.toList, List.mem_singleton] at hr
              subst hr
              exact (processItem_accepts ho).2.2
          · exact ih _ _ hrs1 r hr

theorem runWorkers_mem (worker : Nat → Except Failure (List ShootingInfo)) :
    ∀ (l : List Nat) (outs : List (List ShootingInfo)), runWorkers worker l = .ok outs →
      ∀ o ∈ outs, ∃ i, worker i = .ok o := by
  intro l
  induction l with
  | nil =>
    intro outs h o ho
    simp only [runWorkers, Except.ok.injEq] at h
    subst h
    simp at ho
  | cons i l ih =>
    intro outs h o ho
    simp only [runWorkers] at h
    split at h
    · cases h
    · rename_i out hout
      split at h
      · cases h
      · rename_i outs1 houts1
        simp only [Except.ok.injEq] at h
        subst h
        rcases List.mem_cons.mp ho with rfl | ho
        · exact ⟨i, hout⟩
        · exact ih _ houts1 o ho

theorem processEntries_filter (uninit : Nat → Int) (items : List Item) :
    ∀ (i : Nat) (rs : List ShootingInfo), Extracter.processEntries uninit i items = .ok rs →
      ∀ r ∈ rs, r.victims > 0 ∧ r.location ≠ [] := by
  induction items with
  | nil =>
    intro i rs h r hr
    simp only [Extracter.processEntries, Except.ok.injEq] at h
    subst h
    simp at hr
  | cons item items ih =>
    intro i rs h r hr
    simp only [Extracter.processEntries] at h
    split at h
    · split at h
      · cases h
      · rename_i info hinfo
        split at h
        · cases h
        · rename_i rs1 hrs1
          split at h
          · rename_i hf
            simp only [Except.ok.injEq] at h
            subst h
            rcases List.mem_cons.mp hr with rfl | hr
            · exact hf
            · exact ih _ _ hrs1 r hr
          · simp only [Except.ok.injEq] at h
            subst h
            exact ih _ _ hrs1 r hr
    · exact ih _ _ h r hr

/-! ## The shards together are the whole loop -/

theorem appendE_ok_nil {α : Type} (y : Except Failure (List α)) : appendE (.ok []) y = y := by
  cases y <;> rfl

theorem appendE_assoc {α : Type} (x y z : Except Failure (List α)) :
    appendE (appendE x y) z = appendE x (appendE y z) := by
  cases x <;> cases y <;> cases z <;> simp [appendE]

theorem processLoop_out_of_range (uninit : Nat → Int) (items : List Item) (n i : Nat)
    (h : items.length ≤ i) : processLoop uninit items n i = .ok [] := by
  cases n with
  | zero => rfl
  | succ n =>
    have : items[i]? = none := by simpa using h
    simp [processLoop, this]

/-- The loop over `a + b` images is the loop over the first `a` followed by the loop over
the next `b`. -/
theorem processLoop_add (uninit : Nat → Int) (items : List Item) (b : Nat) :
    ∀ a i, processLoop uninit items (a + b) i =
      appendE (processLoop uninit items a i) (processLoop uninit items b (i + a)) := by
  intro a
  induction a with
  | zero =>
    intro i
    simp [processLoop, appendE_ok_nil]
  | succ a ih =>
    intro i
    rw [show a + 1 + b = (a + b) + 1 by omega]
    simp only [processLoop]
    cases hget : items[i]? with
    | none =>
      have hlen : items.length ≤ i + (a + 1) := by
        have : items.length ≤ i := by simpa using hget
        omega
      simp [appendE, processLoop_out_of_range uninit items b _ hlen]
    | some item =>
      simp only
      cases hitem : processItem (uninit i) item with
      | error e => simp [appendE]
      | ok r =>
        simp only
        rw [ih (i + 1), show i + 1 + a = i + (a + 1) by omega]
        cases processLoop uninit items a (i + 1) with
        | error e => simp [appendE]
        | ok rs =>
          cases processLoop uninit items b (i + (a + 1)) with
          | error e => simp [appendE]
          | ok rs2 => simp [appendE]

theorem runWorkers_congr (f g : Nat → Except Failure (List ShootingInfo)) :
    ∀ l : List Nat, (∀ i ∈ l, f i = g i) → runWorkers f l = runWorkers g l := by
  intro l
  induction l with
  | nil => intro _; rfl
  | cons i l ih =>
    intro h
    simp only [runWorkers, h i (by simp), ih (fun j hj => h j (by simp [hj]))]

theorem flattenE_runWorkers_snoc (f : Nat → Except Failure (List ShootingInfo)) (i : Nat) :
    ∀ l : List Nat, flattenE (runWorkers f (l ++ [i])) =
      appendE (flattenE (runWorkers f l)) (f i) := by
  intro l
  induction l with
  | nil =>
    simp only [List.nil_append, runWorkers, flattenE]
    cases f i <;> simp [appendE]
  | cons j l ih =>
    simp only [List.cons_append, runWorkers]
    cases hj : f j with
    | error e => simp [flattenE, appendE]
    | ok out =>
      simp only
      cases hl : runWorkers f l with
      | error e =>
        rw [hl] at ih
        cases hli : runWorkers f (l ++ [i]) with
        | error e1 =>
          rw [hli] at ih
          simp only [flattenE, appendE] at ih
          cases ih
          simp [flattenE, appendE]
        | ok outs =>
          rw [hli] at ih
          simp [flattenE, appendE] at ih
      | ok outs =>
        rw [hl] at ih
        cases hli : runWorkers f (l ++ [i]) with
        | error e1 =>
          rw [hli] at ih
          cases hi : f i with
          | error e2 =>
            rw [hi] at ih
            simp only [flattenE, appendE] at ih
            cases ih
            simp [flattenE, appendE]
          | ok o =>
            rw [hi] at ih
            simp [flattenE, appendE] at ih
        | ok outs1 =>
          rw [hli] at ih
          cases hi : f i with
          | error e2 =>
            rw [hi] at ih
            simp [flattenE, appendE] at ih
          | ok o =>
            rw [hi] at ih
            simp only [flattenE, appendE, Except.ok.injEq] at ih
            simp [flattenE, appendE, ih]

/-- The first `k` equal shards, one after the other, are the loop over the first
`k * per` images. -/
theorem workers_first_shards (uninit : Nat → Int) (items : List Item) (per : Nat) :
    ∀ k, flattenE (runWorkers (fun i => processLoop uninit items per (i * per))
        (List.range k)) = processLoop uninit items (k * per) 0 := by
  intro k
  induction k with
  | zero => simp [runWorkers, flattenE, processLoop]
  | succ k ih =>
    rw [List.range_succ, flattenE_runWorkers_snoc, ih,
      show (k + 1) * per = k * per + per by ring, processLoop_add]
    simp

/-- The workers' outputs, shard after shard, are the output of one loop over all images. -/
theorem workers_all (uninit : Nat → Int) (items : List Item) (W : Nat) (hW : 1 ≤ W) :
    flattenE (runWorkers (fun i =>
        processImagesThread uninit items (i * (items.length / W))
          (if i = W - 1 then items.length else (i + 1) * (items.length / W)))
        (List.range W)) = processLoop uninit items items.length 0 := by
  obtain ⟨k, rfl⟩ : ∃ k, W = k + 1 := ⟨W - 1, by omega⟩
  have hle : k * (items.length / (k + 1)) ≤ items.length := by
    calc k * (items.length / (k + 1)) ≤ (k + 1) * (items.length / (k + 1)) :=
          Nat.mul_le_mul_right _ (by omega)
      _ ≤ items.length := Nat.mul_div_le _ _
  rw [List.range_succ, flattenE_runWorkers_snoc]
  rw [runWorkers_congr _ (fun i => processLoop uninit items (items.length / (k + 1))
      (i * (items.length / (k + 1))))]
  · rw [workers_first_shards]
    simp only [Nat.add_sub_cancel, if_true, processImagesThread]
    have := processLoop_add uninit items (items.length - k * (items.length / (k + 1)))
      (k * (items.length / (k + 1))) 0
    rw [show k * (items.length / (k + 1)) + (items.length - k * (items.length / (k + 1)))
      = items.length by omega] at this
    rw [this]
    simp
  · intro i hi
    have hik : i < k := by simpa using hi
    have hne : i ≠ k + 1 - 1 := by omega
    simp only [processImagesThread, hne, if_false]
    congr 1
    rw [Nat.add_mul]
    omega

/-- For at least one worker, the threaded batch fails exactly when the single loop over
all images fails, and otherwise returns a rearrangement of that loop's records. -/
theorem processNewspaperImages_loop (W : Nat) (sched : List Nat) (uninit : Nat → Int)
    (items : List Item) (hW : 1 ≤ W) :
    (∀ e, processLoop uninit items items.length 0 = .error e →
      processNewspaperImages W sched uninit items = .error e) ∧
    (∀ all, processLoop uninit items items.length 0 = .ok all →
      ∃ data, processNewspaperImages W sched uninit items = .ok data ∧ data.Perm all) := by
  have hall := workers_all uninit items W hW
  have hW0 : W ≠ 0 := by omega
  constructor
  · intro e he
    rw [he] at hall
    simp only [processNewspaperImages, hW0, if_false]
    revert hall
    cases runWorkers _ (List.range W) with
    | error e1 =>
      intro hall
      simp only [flattenE] at hall
      cases hall
      rfl
    | ok outs => intro hall; simp [flattenE] at hall
  · intro all he
    rw [he] at hall
    simp only [processNewspaperImages, hW0, if_false]
    revert hall
    cases runWorkers _ (List.range W) with
    | error e1 => intro hall; simp [flattenE] at hall
    | ok outs =>
      intro hall
      simp only [flattenE, Except.ok.injEq] at hall
      subst hall
      exact ⟨_, rfl, interleave_perm sched outs⟩

/-! ## Lemmas on `slice` and `std::stoi` -/

theorem slice_append (pre w post : Str) :
    slice (pre ++ w ++ post) pre.length (pre.length + w.length) = w := by
  simp [slice]

theorem isDigit_not_space {c : Char} (h : isDigit c = true) : isSpace c = false := by
  simp only [isDigit, Bool.and_eq_true, decide_eq_true_eq] at h
  simp only [isSpace, Bool.or_eq_false_iff, Bool.and_eq_false_iff, decide_eq_false_iff_not,
    beq_eq_false_iff_ne]
  omega

theorem isDigit_ne_sign {c : Char} (h : isDigit c = true) : c ≠ '-' ∧ c ≠ '+' := by
  simp only [isDigit, Bool.and_eq_true, decide_eq_true_eq] at h
  constructor
  · rintro rfl
    revert h
    decide
  · rintro rfl
    revert h
    decide

theorem takeWhile_eq_self_of_all {p : Char → Bool} (l : Str) (h : ∀ c ∈ l, p c = true) :
    l.takeWhile p = l := by
  rw [List.takeWhile_eq_self_iff]
  exact h

/-- On a non-empty run of digits `std::stoi` returns its value, or raises `out_of_range`
when the value is above `INT_MAX`. -/
theorem stoi_digits (ds : Str) (hne : ds ≠ []) (hd : ∀ c ∈ ds, isDigit c = true) :
    stoi ds = if (decimal ds : Int) ≤ INT_MAX then .ok (decimal ds : Int)
      else .error .out_of_range := by
  cases ds with
  | nil => exact absurd rfl hne
  | cons d ds =>
    have hd0 : isDigit d = true := hd d (by simp)
    have hsp : isSpace d = false := isDigit_not_space hd0
    have hsign := isDigit_ne_sign hd0
    have h1 : List.dropWhile isSpace (d :: ds) = d :: ds := by
      simp [List.dropWhile, hsp]
    have h2 : List.takeWhile isDigit (d :: ds) = d :: ds := takeWhile_eq_self_of_all _ hd
    have hneg : (match d :: ds with
        | '-' :: _ => true
        | _ => false) = false := by
      split
      · rename_i heq
        simp only [List.cons.injEq] at heq
        exact absurd heq.1 hsign.1
      · rfl
    have hs2 : (match d :: ds with
        | '-' :: t => t
        | '+' :: t => t
        | _ => d :: ds) = d :: ds := by
      split
      · rename_i heq
        simp only [List.cons.injEq] at heq
        exact absurd heq.1 hsign.1
      · rename_i heq
        simp only [List.cons.injEq] at heq
        exact absurd heq.1 hsign.2
      · rfl
    have hnonneg : ¬ ((decimal (d :: ds) : Int) < INT_MIN) := by
      simp only [INT_MIN]
      omega
    simp only [stoi, h1, hneg, hs2, h2, Bool.false_eq_true, if_false, reduceCtorEq, hnonneg,
      false_or, not_lt]
    by_cases hle : (decimal (d :: ds) : Int) ≤ INT_MAX
    · simp [hle, not_lt.mpr hle]
    · simp [hle, not_le.mp hle]

/-! ## The victim-count pattern -/

theorem matches_victimsPattern_iff (s f : MState) :
    Matches victimsPattern s f ↔
      ∃ s1 s2, (∃ ds, ds ≠ [] ∧ (∀ c ∈ ds, isDigit c = true) ∧ Adv s ds s1) ∧
        (∃ ws, (∀ c ∈ ws, isSpace c = true) ∧ Adv (s1.close 1 s) ws s2) ∧
        ∃ word ∈ victimWords, Adv s2 word.toList f := by
  have hw := matches_words_iff victimWords (by simp [victimWords])
  simp only [victimsPattern, Regex.seqs, matches_seq_iff, matches_group_iff,
    matches_plus_cls_iff, matches_star_cls_iff, matches_eps_iff, CharClass.test]
  rw [show (["people", "individuals", "persons", "victims", "killed", "dead", "fatally shot",
      "injured"] : List String) = victimWords from rfl]
  simp only [hw]
  constructor
  · rintro ⟨s1c, ⟨s1, hds, rfl⟩, s2, hws, s3, hword, rfl⟩
    exact ⟨s1, s2, hds, hws, hword⟩
  · rintro ⟨s1, s2, hds, hws, hword⟩
    exact ⟨_, ⟨s1, hds, rfl⟩, s2, hws, f, hword, rfl⟩

/-- A match of the victim-count pattern is an occurrence of the victim-count phrase, and
group 1 spans its digit run. -/
theorem victimPhraseAt_of_matchAt {text pre : Str} {f : MState}
    (h : MatchAt victimsPattern text pre f) :
    ∃ ds, VictimPhraseAt text pre ds ∧ f.caps = [(1, pre.length, pre.length + ds.length)] := by
  obtain ⟨post, htext, hm⟩ := h
  obtain ⟨s1, s2, ⟨ds, hne, hds, a1⟩, ⟨ws, hws, a2⟩, word, hword, a3⟩ :=
    (matches_victimsPattern_iff _ _).mp hm
  obtain ⟨r1, b1, c1⟩ := a1
  obtain ⟨r2, b2, c2⟩ := a2
  obtain ⟨r3, b3, c3⟩ := a3
  simp only [MState.close] at r2 b2 c2
  simp only at r1 b1 c1
  refine ⟨ds, ⟨ws, word, f.rest, ?_, hne, hds, hws, hword⟩, ?_⟩
  · rw [htext, r1, r2, r3]
    simp
  · rw [c3, c2, c1, b1]
    simp [Nat.add_comm]

/-- An occurrence of the victim-count phrase is a match of the victim-count pattern. -/
theorem matchAt_of_victimPhraseAt {text pre ds : Str} (h : VictimPhraseAt text pre ds) :
    ∃ f, MatchAt victimsPattern text pre f := by
  obtain ⟨ws, word, post, htext, hne, hds, hws, hword⟩ := h
  refine ⟨⟨word.toList.reverse ++ (ws.reverse ++ (ds.reverse ++ pre.reverse)), post,
    [(1, pre.reverse.length, (ds.reverse ++ pre.reverse).length)]⟩,
    ds ++ ws ++ word.toList ++ post, by simp [htext], ?_⟩
  rw [matches_victimsPattern_iff]
  refine ⟨⟨ds.reverse ++ pre.reverse, ws ++ word.toList ++ post, []⟩,
    ⟨ws.reverse ++ (ds.reverse ++ pre.reverse), word.toList ++ post,
      [(1, pre.reverse.length, (ds.reverse ++ pre.reverse).length)]⟩,
    ⟨ds, hne, hds, by simp [Adv]⟩, ⟨ws, hws, by simp [Adv, MState.close]⟩,
    word, hword, by simp [Adv]⟩

theorem victimWords_head : ∀ w ∈ victimWords, ∃ c t, w.toList = c :: t ∧
    isDigit c = false ∧ isSpace c = false := by
  intro w hw
  simp only [victimWords, List.mem_cons, List.mem_singleton, List.not_mem_nil, or_false] at hw
  rcases hw with rfl | rfl | rfl | rfl | rfl | rfl | rfl | rfl <;>
    exact ⟨_, _, rfl, by decide, by decide⟩

/-- At a given position the digit run of the victim-count phrase is determined: it is the
whole run of digits found there. -/
theorem victimPhraseAt_unique {text pre ds ds1 : Str} (h : VictimPhraseAt text pre ds)
    (h1 : VictimPhraseAt text pre ds1) : ds = ds1 := by
  have key : ∀ {a b : Str}, VictimPhraseAt text pre a → VictimPhraseAt text pre b →
      a.length ≤ b.length → a = b := by
    intro a b ha hb hlen
    obtain ⟨ws, word, post, htext, _, _, hws, hword⟩ := ha
    obtain ⟨ws1, word1, post1, htext1, _, hdb, _, _⟩ := hb
    rw [htext] at htext1
    simp only [List.append_assoc, List.append_cancel_left_eq] at htext1
    obtain ⟨t, ht⟩ : a <+: b := by
      have hp1 : a <+: a ++ (ws ++ (word.toList ++ post)) := List.prefix_append _ _
      have hp2 : b <+: a ++ (ws ++ (word.toList ++ post)) := by
        rw [htext1]
        exact List.prefix_append _ _
      exact List.prefix_of_prefix_length_le hp1 hp2 hlen
    cases t with
    | nil => simpa using ht
    | cons x t =>
      exfalso
      have hx : isDigit x = true := hdb x (by simp [← ht])
      rw [← ht] at htext1
      simp only [List.append_assoc, List.append_cancel_left_eq, List.cons_append] at htext1
      cases ws with
      | nil =>
        obtain ⟨c, u, hc, hcd, _⟩ := victimWords_head word hword
        rw [hc] at htext1
        simp only [List.nil_append, List.cons_append, List.cons.injEq] at htext1
        rw [htext1.1] at hcd
        rw [hcd] at hx
        cases hx
      | cons y ws =>
        simp only [List.cons_append, List.cons.injEq] at htext1
        have hy := hws y (by simp)
        rw [htext1.1, isDigit_not_space hx] at hy
        cases hy
  rcases Nat.le_total ds.length ds1.length with hle | hle
  · exact key h h1 hle
  · exact (key h1 h hle).symm

/-- What a successful search for the victim-count pattern captures: the digit run of the
leftmost occurrence of the victim-count phrase. -/
theorem victims_search_some {text : Str} {m : SMatch}
    (h : regex_search text victimsPattern = some m) :
    ∃ pre ds, VictimPhraseAt text pre ds ∧ m.sub 1 = ds ∧
      ∀ pre1 ds1, VictimPhraseAt text pre1 ds1 → pre.length ≤ pre1.length := by
  obtain ⟨pre, f, hmatch, _, rfl, hleft⟩ := regex_search_eq_some text victimsPattern m h
  obtain ⟨ds, hphrase, hcaps⟩ := victimPhraseAt_of_matchAt hmatch
  refine ⟨pre, ds, hphrase, ?_, ?_⟩
  · obtain ⟨ws, word, post, htext, _⟩ := hphrase
    simp only [SMatch.sub, hcaps, List.lookup, beq_self_eq_true]
    rw [htext, List.append_assoc, List.append_assoc]
    exact slice_append pre ds _
  · intro pre1 ds1 h1
    obtain ⟨f1, hf1⟩ := matchAt_of_victimPhraseAt h1
    exact hleft pre1 f1 hf1

/-- The search for the victim-count pattern fails exactly when the victim-count phrase
occurs nowhere in the text. -/
theorem victims_search_none_iff (text : Str) :
    regex_search text victimsPattern = none ↔ ∀ pre ds, ¬ VictimPhraseAt text pre ds := by
  rw [regex_search_eq_none_iff]
  constructor
  · intro h pre ds hp
    obtain ⟨f, hf⟩ := matchAt_of_victimPhraseAt hp
    exact h pre f hf
  · intro h pre f hm
    obtain ⟨ds, hp, _⟩ := victimPhraseAt_of_matchAt hm
    exact h pre ds hp

/-! ## The victim count of `extractShootingInfo` -/

/-- Without a match of the victim-count pattern the record is returned and carries the
uninitialised value. -/
theorem extractShootingInfo_no_victims (uninit : Int) (text source : Str)
    (h : regex_search text victimsPattern = none) :
    ∃ info, extractShootingInfo uninit text source = .ok info ∧ info.victims = uninit := by
  simp only [extractShootingInfo, h]
  exact ⟨_, rfl, rfl⟩

/-- With a match of the victim-count pattern the outcome is that of `std::stoi` on the
digit run of the leftmost occurrence of the victim-count phrase. -/
theorem extractShootingInfo_victims (uninit : Int) (text source pre ds : Str)
    (h : VictimPhraseAt text pre ds)
    (hleft : ∀ pre1 ds1, VictimPhraseAt text pre1 ds1 → pre.length ≤ pre1.length) :
    ((decimal ds : Int) ≤ INT_MAX →
      ∃ info, extractShootingInfo uninit text source = .ok info ∧
        info.victims = (decimal ds : Int)) ∧
    (INT_MAX < (decimal ds : Int) →
      extractShootingInfo uninit text source = .error .out_of_range) := by
  cases hs : regex_search text victimsPattern with
  | none => exact absurd h ((victims_search_none_iff text).mp hs pre ds)
  | some m =>
    obtain ⟨pre0, ds0, h0, hsub, hleft0⟩ := victims_search_some hs
    have hlen : pre0.length = pre.length :=
      Nat.le_antisymm (hleft0 pre ds h) (hleft pre0 ds0 h0)
    have hpre : pre0 = pre := by
      obtain ⟨_, _, _, e0, _⟩ := h0
      obtain ⟨_, _, _, e1, _⟩ := h
      rw [e1] at e0
      simp only [List.append_assoc] at e0
      exact (List.append_inj e0 hlen.symm).1.symm
    subst hpre
    have hds : ds0 = ds := victimPhraseAt_unique h0 h
    subst hds
    have hstoi := stoi_digits ds0 h.choose_spec.choose_spec.choose_spec.2.1
      h.choose_spec.choose_spec.choose_spec.2.2.1
    constructor
    · intro hfit
      simp only [extractShootingInfo, hs, hsub, hstoi, hfit, if_true]
      exact ⟨_, rfl, rfl⟩
    · intro hbig
      simp only [extractShootingInfo, hs, hsub, hstoi, not_le.mpr hbig, if_false]

/-! ## The date pattern -/

theorem atBoundary_eq (before rest : Str) :
    atBoundary before rest = (wordBefore before.reverse != wordAfter rest) := by
  cases before <;> cases rest <;> simp [atBoundary, wordBefore, wordAfter]

theorem isDigit_isWord {c : Char} (h : isDigit c = true) : isWord c = true := by
  simp [isWord, h]

theorem monthNames_head : ∀ w ∈ monthNames, ∃ c t, w.toList = c :: t ∧ isWord c = true := by
  intro w hw
  simp only [monthNames, List.mem_cons, List.mem_singleton, List.not_mem_nil, or_false] at hw
  rcases hw with rfl | rfl | rfl | rfl | rfl | rfl | rfl | rfl | rfl | rfl | rfl | rfl <;>
    exact ⟨_, _, rfl, by decide⟩

theorem matches_datePattern_iff (s f : MState) :
    Matches datePattern s f ↔
      atBoundary s.before s.rest = true ∧ atBoundary f.before f.rest = true ∧
      ∃ s2 s3 s4 s5 s6 s7,
        (∃ month ∈ monthNames, Adv s month.toList s2) ∧
        (∃ ws1, ws1 ≠ [] ∧ (∀ c ∈ ws1, isSpace c = true) ∧ Adv s2 ws1 s3) ∧
        (∃ x, isDigit x = true ∧ Adv s3 [x] s4) ∧
        ((∃ x, isDigit x = true ∧ Adv s4 [x] s5) ∨ s5 = s4) ∧
        Adv s5 [','] s6 ∧
        (∃ ws2, ws2 ≠ [] ∧ (∀ c ∈ ws2, isSpace c = true) ∧ Adv s6 ws2 s7) ∧
        (∃ a b c d, isDigit a = true ∧ isDigit b = true ∧ isDigit c = true ∧
          isDigit d = true ∧ Adv s7 [a, b, c, d] f) := by
  have hw := matches_words_iff monthNames (by simp [monthNames])
  simp only [datePattern, Regex.seqs, matches_seq_iff, matches_opt_iff,
    matches_plus_cls_iff, matches_cls_iff, matches_eps_iff, matches_wordBoundary_iff,
    CharClass.test]
  rw [show (["January", "February", "March", "April", "May", "June", "July", "August",
      "September", "October", "November", "December"] : List String) = monthNames from rfl]
  simp only [hw]
  constructor
  · rintro ⟨s1, ⟨rfl, hb1⟩, s2, hmonth, s3, hws1, s4, hd1, s5, hd2, s6, ⟨x, hx, hcomma⟩, s7,
      hws2, s8, ⟨a, ha, a1⟩, s9, ⟨b, hb, a2⟩, s10, ⟨c, hc, a3⟩, s11, ⟨d, hd, a4⟩, s12,
      ⟨rfl, hb2⟩, rfl⟩
    simp only [beq_iff_eq] at hx
    subst hx
    refine ⟨hb1, hb2, s2, s3, s4, s5, s6, s7, hmonth, hws1, hd1, hd2, hcomma, hws2,
      a, b, c, d, ha, hb, hc, hd, ?_⟩
    simpa using (a1.trans a2).trans (a3.trans a4)
  · rintro ⟨hb1, hb2, s2, s3, s4, s5, s6, s7, hmonth, hws1, hd1, hd2, hcomma, hws2,
      a, b, c, d, ha, hb, hc, hd, hadv⟩
    obtain ⟨s8, a1, hadv⟩ := Adv.split (w := [a]) (v := [b, c, d]) (by simpa using hadv)
    obtain ⟨s9, a2, hadv⟩ := Adv.split (w := [b]) (v := [c, d]) (by simpa using hadv)
    obtain ⟨s10, a3, a4⟩ := Adv.split (w := [c]) (v := [d]) (by simpa using hadv)
    exact ⟨s, ⟨rfl, hb1⟩, s2, hmonth, s3, hws1, s4, hd1, s5, hd2, s6, ⟨',', by simp, hcomma⟩,
      s7, hws2, s8, ⟨a, ha, a1⟩, s9, ⟨b, hb, a2⟩, s10, ⟨c, hc, a3⟩, f, ⟨d, hd, a4⟩, f,
      ⟨rfl, hb2⟩, rfl⟩

theorem wordBefore_append_singleton (l : Str) (c : Char) :
    wordBefore (l ++ [c]) = isWord c := by
  simp [wordBefore]

theorem wordAfter_cons (c : Char) (l : Str) : wordAfter (c :: l) = isWord c := by
  simp [wordAfter]

/-- A match of the date pattern is an occurrence of the date form between word
boundaries, and the match ends where the date ends. -/
theorem datePhraseAt_of_matchAt {text pre : Str} {f : MState}
    (h : MatchAt datePattern text pre f) :
    ∃ d, DatePhraseAt text pre d ∧ f.before.length = pre.length + d.length := by
  obtain ⟨post, htext, hm⟩ := h
  obtain ⟨hb1, hb2, s2, s3, s4, s5, s6, s7, ⟨month, hmonth, a1⟩, ⟨ws1, hne1, hws1, a2⟩,
    ⟨x, hx, a3⟩, hopt, a5, ⟨ws2, hne2, hws2, a6⟩, a, b, c, dd, ha, hb, hc, hdd, a7⟩ :=
    (matches_datePattern_iff _ _).mp hm
  obtain ⟨day, hday, hdaylen, hdigits⟩ :
      ∃ day, Adv s3 day s5 ∧ (day.length = 1 ∨ day.length = 2) ∧
        ∀ c ∈ day, isDigit c = true := by
    rcases hopt with ⟨y, hy, a4⟩ | rfl
    · exact ⟨[x, y], by simpa using a3.trans a4, by simp, by simp [hx, hy]⟩
    · exact ⟨[x], a3, by simp, by simp [hx]⟩
  have hadv := (((((a1.trans a2).trans hday).trans a5).trans a6).trans a7)
  obtain ⟨hrest, hbefore, _⟩ := hadv
  simp only at hrest hbefore
  have hyear : ∀ y ∈ [a, b, c, dd], isDigit y = true := by
    simp [ha, hb, hc, hdd]
  refine ⟨month.toList ++ ws1 ++ day ++ [','] ++ ws2 ++ [a, b, c, dd],
    ⟨f.rest, by rw [htext, hrest]; simp, ⟨month, ws1, day, ws2, [a, b, c, dd], rfl, hmonth,
      hne1, hws1, hdaylen, hdigits, hne2, hws2, rfl, hyear⟩, ?_, ?_⟩, ?_⟩
  · obtain ⟨c0, t0, hc0, hw0⟩ := monthNames_head month hmonth
    rw [atBoundary_eq, hrest, hc0] at hb1
    simp only [List.reverse_reverse, List.cons_append, wordAfter_cons, hw0] at hb1
    revert hb1
    cases wordBefore pre <;> simp
  · rw [atBoundary_eq, hbefore] at hb2
    have : (List.reverse (month.toList ++ ws1 ++ day ++ [','] ++ ws2 ++ [a, b, c, dd]) ++
        List.reverse pre).reverse =
        (pre ++ (month.toList ++ ws1 ++ day ++ [','] ++ ws2 ++ [a, b, c])) ++ [dd] := by
      simp
    rw [this, wordBefore_append_singleton, isDigit_isWord hdd] at hb2
    revert hb2
    cases wordAfter f.rest <;> simp
  · rw [hbefore]
    simp only [List.length_append, List.length_reverse]
    omega

/-- An occurrence of the date form between word boundaries is a match of the date
pattern. -/
theorem matchAt_of_datePhraseAt {text pre d : Str} (h : DatePhraseAt text pre d) :
    ∃ f, MatchAt datePattern text pre f := by
  obtain ⟨post, htext, ⟨month, ws1, day, ws2, year, hd, hmonth, hne1, hws1, hdaylen, hdigits,
    hne2, hws2, hylen, hyear⟩, hwb, hwa⟩ := h
  obtain ⟨a, b, c, dd, rfl⟩ : ∃ a b c dd, year = [a, b, c, dd] := by
    match year, hylen with
    | [a, b, c, dd], _ => exact ⟨a, b, c, dd, rfl⟩
  obtain ⟨c0, t0, hc0, hw0⟩ := monthNames_head month hmonth
  have hd' : d = month.toList ++ (ws1 ++ (day ++ ([','] ++ (ws2 ++ [a, b, c, dd])))) := by
    simp [hd]
  have hb1 : atBoundary pre.reverse (d ++ post) = true := by
    rw [atBoundary_eq]
    simp only [List.reverse_reverse, hwb, hd', hc0, List.cons_append, wordAfter_cons, hw0]
    rfl
  have hb2 : atBoundary (d.reverse ++ pre.reverse) post = true := by
    rw [atBoundary_eq]
    have : (d.reverse ++ pre.reverse).reverse =
        (pre ++ (month.toList ++ ws1 ++ day ++ [','] ++ ws2 ++ [a, b, c])) ++ [dd] := by
      simp [hd]
    simp only [this, wordBefore_append_singleton, isDigit_isWord (hyear dd (by simp)), hwa]
    rfl
  have hadv : Adv ⟨pre.reverse, d ++ post, []⟩ d ⟨d.reverse ++ pre.reverse, post, []⟩ :=
    ⟨rfl, rfl, rfl⟩
  refine ⟨⟨d.reverse ++ pre.reverse, post, []⟩, d ++ post, by simp [htext], ?_⟩
  rw [matches_datePattern_iff]
  refine ⟨hb1, hb2, ?_⟩
  generalize (⟨pre.reverse, d ++ post, []⟩ : MState) = s0 at hadv ⊢
  generalize (⟨d.reverse ++ pre.reverse, post, []⟩ : MState) = f at hadv ⊢
  rw [hd'] at hadv
  obtain ⟨s2, a1, hadv⟩ := Adv.split hadv
  obtain ⟨s3, a2, hadv⟩ := Adv.split hadv
  obtain ⟨s5, a3, hadv⟩ := Adv.split hadv
  obtain ⟨s6, a5, hadv⟩ := Adv.split hadv
  obtain ⟨s7, a6, a7⟩ := Adv.split hadv
  match day, hdaylen, hdigits, a3 with
  | [x], _, hdig, a3 =>
    exact ⟨s2, s3, s5, s5, s6, s7, ⟨month, hmonth, a1⟩, ⟨ws1, hne1, hws1, a2⟩,
      ⟨x, hdig x (by simp), a3⟩, Or.inr rfl, a5, ⟨ws2, hne2, hws2, a6⟩,
      a, b, c, dd, hyear a (by simp), hyear b (by simp), hyear c (by simp),
      hyear dd (by simp), a7⟩
  | [x, y], _, hdig, a3 =>
    obtain ⟨s4, a3, a4⟩ := Adv.split (w := [x]) (v := [y]) a3
    exact ⟨s2, s3, s4, s5, s6, s7, ⟨month, hmonth, a1⟩, ⟨ws1, hne1, hws1, a2⟩,
      ⟨x, hdig x (by simp), a3⟩, Or.inl ⟨y, hdig y (by simp), a4⟩, a5,
      ⟨ws2, hne2, hws2, a6⟩, a, b, c, dd, hyear a (by simp), hyear b (by simp),
      hyear c (by simp), hyear dd (by simp), a7⟩

/-- A run of characters of one kind that stops before a character of another kind is
determined by the text it starts. -/
theorem run_unique (p : Char → Bool) : ∀ (a a1 r r1 : Str),
    (∀ c ∈ a, p c = true) → (∀ c ∈ a1, p c = true) →
    (∀ c, r.head? = some c → p c = false) → (∀ c, r1.head? = some c → p c = false) →
    a ++ r = a1 ++ r1 → a = a1 ∧ r = r1 := by
  intro a
  induction a with
  | nil =>
    intro a1 r r1 _ ha1 hr _ h
    cases a1 with
    | nil => exact ⟨rfl, by simpa using h⟩
    | cons x a1 =>
      exfalso
      simp only [List.nil_append, List.cons_append] at h
      have := hr x (by simp [h])
      rw [ha1 x (by simp)] at this
      cases this
  | cons x a ih =>
    intro a1 r r1 ha ha1 hr hr1 h
    cases a1 with
    | nil =>
      exfalso
      simp only [List.nil_append, List.cons_append] at h
      have := hr1 x (by simp [← h])
      rw [ha x (by simp)] at this
      cases this
    | cons y a1 =>
      simp only [List.cons_append, List.cons.injEq] at h
      obtain ⟨rfl, h⟩ := h
      obtain ⟨rfl, rfl⟩ := ih a1 r r1 (fun c hc => ha c (by simp [hc]))
        (fun c hc => ha1 c (by simp [hc])) hr hr1 h
      exact ⟨rfl, rfl⟩

theorem monthNames_length : ∀ m ∈ monthNames, 3 ≤ m.toList.length := by
  decide

theorem monthNames_key : ∀ m ∈ monthNames, ∀ m1 ∈ monthNames,
    m.toList.take 3 = m1.toList.take 3 → m = m1 := by
  decide

theorem monthNames_cancel {m m1 : String} (hm : m ∈ monthNames) (hm1 : m1 ∈ monthNames)
    {r r1 : Str} (h : m.toList ++ r = m1.toList ++ r1) : m = m1 ∧ r = r1 := by
  have h3 := congrArg (List.take 3) h
  rw [List.take_append_of_le_length (monthNames_length m hm),
    List.take_append_of_le_length (monthNames_length m1 hm1)] at h3
  have := monthNames_key m hm m1 hm1 h3
  subst this
  exact ⟨rfl, List.append_cancel_left h⟩

/-- At a given position the substring of the date form is determined. -/
theorem datePhraseAt_unique {text pre d d1 : Str} (h : DatePhraseAt text pre d)
    (h1 : DatePhraseAt text pre d1) : d = d1 := by
  obtain ⟨post, htext, ⟨month, ws1, day, ws2, year, hd, hmonth, hne1, hws1, hdaylen, hdigits,
    hne2, hws2, hylen, hyear⟩, _, _⟩ := h
  obtain ⟨post1, htext1, ⟨month1, ws11, day1, ws21, year1, hd1, hmonth1, hne11, hws11,
    hdaylen1, hdigits1, hne21, hws21, hylen1, hyear1⟩, _, _⟩ := h1
  subst hd hd1
  rw [htext] at htext1
  simp only [List.append_assoc, List.append_cancel_left_eq] at htext1
  obtain ⟨rfl, e1⟩ := monthNames_cancel hmonth hmonth1 htext1
  have hday_head : ∀ {day : Str} {r : Str}, (day.length = 1 ∨ day.length = 2) →
      (∀ c ∈ day, isDigit c = true) → ∀ c, (day ++ r).head? = some c → isSpace c = false := by
    intro day r hlen hdig c hc
    cases day with
    | nil => simp at hlen
    | cons x day =>
      simp only [List.cons_append, List.head?_cons, Option.some.injEq] at hc
      subst hc
      exact isDigit_not_space (hdig x (by simp))
  obtain ⟨rfl, e2⟩ := run_unique isSpace ws1 ws11 _ _ hws1 hws11
    (hday_head hdaylen hdigits) (hday_head hdaylen1 hdigits1) e1
  obtain ⟨rfl, e3⟩ := run_unique isDigit day day1 _ _ hdigits hdigits1
    (by intro c hc; simp at hc; subst hc; decide)
    (by intro c hc; simp at hc; subst hc; decide) e2
  simp only [List.singleton_append, List.cons.injEq, true_and] at e3
  have hyear_head : ∀ {year : Str} {r : Str}, year.length = 4 →
      (∀ c ∈ year, isDigit c = true) → ∀ c, (year ++ r).head? = some c → isSpace c = false := by
    intro year r hlen hdig c hc
    cases year with
    | nil => simp at hlen
    | cons x year =>
      simp only [List.cons_append, List.head?_cons, Option.some.injEq] at hc
      subst hc
      exact isDigit_not_space (hdig x (by simp))
  obtain ⟨rfl, e4⟩ := run_unique isSpace ws2 ws21 _ _ hws2 hws21
    (hyear_head hylen hyear) (hyear_head hylen1 hyear1) e3
  obtain ⟨rfl, _⟩ := List.append_inj e4 (by rw [hylen, hylen1])
  rfl

/-- What a successful search for the date pattern reports: the leftmost substring of the
date form between word boundaries. -/
theorem date_search_some {text : Str} {m : SMatch}
    (h : regex_search text datePattern = some m) :
    ∃ pre d, DatePhraseAt text pre d ∧ m.str = d ∧
      ∀ pre1 d1, DatePhraseAt text pre1 d1 → pre.length ≤ pre1.length := by
  obtain ⟨pre, f, hmatch, _, rfl, hleft⟩ := regex_search_eq_some text datePattern m h
  obtain ⟨d, hphrase, hlen⟩ := datePhraseAt_of_matchAt hmatch
  refine ⟨pre, d, hphrase, ?_, ?_⟩
  · obtain ⟨post, htext, _⟩ := hphrase
    simp only [SMatch.str, hlen]
    rw [htext]
    exact slice_append pre d post
  · intro pre1 d1 h1
    obtain ⟨f1, hf1⟩ := matchAt_of_datePhraseAt h1
    exact hleft pre1 f1 hf1

/-- The search for the date pattern fails exactly when the date form occurs nowhere in
the text between word boundaries. -/
theorem date_search_none_iff (text : Str) :
    regex_search text datePattern = none ↔ ∀ pre d, ¬ DatePhraseAt text pre d := by
  rw [regex_search_eq_none_iff]
  constructor
  · intro h pre d hp
    obtain ⟨f, hf⟩ := matchAt_of_datePhraseAt hp
    exact h pre f hf
  · intro h pre f hm
    obtain ⟨d, hp, _⟩ := datePhraseAt_of_matchAt hm
    exact h pre d hp

theorem append_inj_of_length {α : Type} {a b c d : List α} (h : a ++ b = c ++ d)
    (hlen : a.length = c.length) : a = c :=
  (List.append_inj h hlen).1

/-! ## The location pattern -/

/-- The repetition of a pattern whose matches are the non-empty strings of a set matches
the concatenations of such strings. -/
theorem matches_star_lang_iff (g : Bool) (a : Regex) (P : Str → Prop)
    (hP : ∀ s s1, Matches a s s1 ↔ ∃ w, P w ∧ Adv s w s1) (hne : ∀ w, P w → w ≠ [])
    (s s1 : MState) :
    Matches (.star g a) s s1 ↔ ∃ wl : List Str, (∀ w ∈ wl, P w) ∧ Adv s wl.flatten s1 := by
  constructor
  · intro h
    generalize hr : Regex.star g a = r at h
    induction h with
    | starNil g1 a1 s => exact ⟨[], by simp, (Adv.nil_iff _ _).mpr rfl⟩
    | starCons h1 _ _ _ ih2 =>
      cases hr
      obtain ⟨wl, hwl, hadv⟩ := ih2 rfl
      obtain ⟨w, hw, hadv1⟩ := (hP _ _).mp h1
      exact ⟨w :: wl, by simpa [hw] using hwl, by simpa using Adv.trans hadv1 hadv⟩
    | _ => cases hr
  · rintro ⟨wl, hwl, hadv⟩
    induction wl generalizing s with
    | nil =>
      have hs : s1 = s := (Adv.nil_iff s s1).mp (by simpa using hadv)
      rw [hs]
      exact Matches.starNil _ _ _
    | cons w wl ih =>
      obtain ⟨s2, h1, h2⟩ := Adv.split (w := w) (v := wl.flatten) (by simpa using hadv)
      refine Matches.starCons ((hP _ _).mpr ⟨w, hwl w (by simp), h1⟩) ?_
        (ih s2 (fun y hy => hwl y (by simp [hy])) h2)
      have hlen := congrArg List.length h1.1
      have hpos : 0 < w.length := List.length_pos.mpr (hne w (hwl w (by simp)))
      simp only [List.length_append] at hlen
      omega

theorem matches_plus_lang_iff (a : Regex) (P : Str → Prop)
    (hP : ∀ s s1, Matches a s s1 ↔ ∃ w, P w ∧ Adv s w s1) (hne : ∀ w, P w → w ≠ [])
    (s s1 : MState) :
    Matches (.plus a) s s1 ↔
      ∃ wl : List Str, wl ≠ [] ∧ (∀ w ∈ wl, P w) ∧ Adv s wl.flatten s1 := by
  simp only [Regex.plus, matches_seq_iff, matches_star_lang_iff true a P hP hne, hP]
  constructor
  · rintro ⟨s2, ⟨w, hw, h1⟩, wl, hwl, h2⟩
    exact ⟨w :: wl, by simp, by simpa [hw] using hwl, by simpa using Adv.trans h1 h2⟩
  · rintro ⟨wl, hne1, hwl, hadv⟩
    cases wl with
    | nil => exact absurd rfl hne1
    | cons w wl =>
      obtain ⟨s2, h1, h2⟩ := Adv.split (w := w) (v := wl.flatten) (by simpa using hadv)
      exact ⟨s2, ⟨w, hwl w (by simp), h1⟩, wl, fun y hy => hwl y (by simp [hy]), h2⟩

theorem capWord_ne_nil {w : Str} (h : CapWord w) : w ≠ [] := by
  obtain ⟨u, ls, ws, rfl, _⟩ := h
  simp

theorem matches_capWord_iff (s s1 : MState) :
    Matches (Regex.seqs [.cls .upper, .plus (.cls .lower), .star true (.cls .space)]) s s1 ↔
      ∃ w, CapWord w ∧ Adv s w s1 := by
  simp only [Regex.seqs, matches_seq_iff, matches_plus_cls_iff, matches_star_cls_iff,
    matches_cls_iff, matches_eps_iff, CharClass.test]
  constructor
  · rintro ⟨s2, ⟨u, hu, a1⟩, s3, ⟨ls, hne, hls, a2⟩, s4, ⟨ws, hws, a3⟩, rfl⟩
    exact ⟨u :: ls ++ ws, ⟨u, ls, ws, rfl, hu, hne, hls, hws⟩,
      by simpa using (a1.trans a2).trans a3⟩
  · rintro ⟨w, ⟨u, ls, ws, rfl, hu, hne, hls, hws⟩, hadv⟩
    obtain ⟨s2, a1, hadv⟩ := Adv.split (w := [u]) (v := ls ++ ws) (by simpa using hadv)
    obtain ⟨s3, a2, a3⟩ := Adv.split hadv
    exact ⟨s2, ⟨u, hu, a1⟩, s3, ⟨ls, hne, hls, a2⟩, s1, ⟨ws, hws, a3⟩, rfl⟩

theorem matches_regionCode_iff (s s1 : MState) :
    Matches (Regex.seqs [.cls (.lit ','), .star true (.cls .space), .cls .upper,
        .cls .upper]) s s1 ↔
      ∃ r, RegionCode r ∧ Adv s r s1 := by
  simp only [Regex.seqs, matches_seq_iff, matches_star_cls_iff, matches_cls_iff,
    matches_eps_iff, CharClass.test]
  constructor
  · rintro ⟨s2, ⟨x, hx, a1⟩, s3, ⟨ws, hws, a2⟩, s4, ⟨a, ha, a3⟩, s5, ⟨b, hb, a4⟩, rfl⟩
    simp only [beq_iff_eq] at hx
    subst hx
    exact ⟨',' :: ws ++ [a, b], ⟨ws, a, b, rfl, hws, ha, hb⟩,
      by simpa using (a1.trans a2).trans (a3.trans a4)⟩
  · rintro ⟨r, ⟨ws, a, b, rfl, hws, ha, hb⟩, hadv⟩
    obtain ⟨s2, a1, hadv⟩ := Adv.split (w := [',']) (v := ws ++ [a, b]) (by simpa using hadv)
    obtain ⟨s3, a2, hadv⟩ := Adv.split hadv
    obtain ⟨s4, a3, a4⟩ := Adv.split (w := [a]) (v := [b]) (by simpa using hadv)
    exact ⟨s2, ⟨',', by simp, a1⟩, s3, ⟨ws, hws, a2⟩, s4, ⟨a, ha, a3⟩, s1, ⟨b, hb, a4⟩, rfl⟩

theorem matches_locationPattern_iff (s f : MState) :
    Matches locationPattern s f ↔
      ∃ s1 s2 s3, Adv s ['i', 'n'] s1 ∧
        (∃ ws, ws ≠ [] ∧ (∀ x ∈ ws, isSpace x = true) ∧ Adv s1 ws s2) ∧
        (∃ c, LocationPhrase c ∧ Adv s2 c s3) ∧ f = s3.close 1 s2 := by
  have hplus := matches_plus_lang_iff _ CapWord matches_capWord_iff (fun _ h => capWord_ne_nil h)
  have hlit : ("in".toList : Str) = ['i', 'n'] := rfl
  rw [locationPattern, hlit]
  rw [show Regex.seqs [Regex.lit ['i', 'n'], (Regex.cls CharClass.space).plus,
      Regex.group 1 (Regex.seqs [(Regex.seqs [Regex.cls CharClass.upper,
        (Regex.cls CharClass.lower).plus, Regex.star true (Regex.cls CharClass.space)]).plus,
        (Regex.seqs [Regex.cls (CharClass.lit ','), Regex.star true (Regex.cls CharClass.space),
          Regex.cls CharClass.upper, Regex.cls CharClass.upper]).opt])] =
    Regex.seq (Regex.lit ['i', 'n']) (Regex.seq (Regex.cls CharClass.space).plus
      (Regex.seq (Regex.group 1 (Regex.seq (Regex.seqs [Regex.cls CharClass.upper,
        (Regex.cls CharClass.lower).plus, Regex.star true (Regex.cls CharClass.space)]).plus
        (Regex.seq (Regex.seqs [Regex.cls (CharClass.lit ','),
          Regex.star true (Regex.cls CharClass.space),
          Regex.cls CharClass.upper, Regex.cls CharClass.upper]).opt Regex.eps))) Regex.eps))
    from rfl]
  simp only [matches_seq_iff, matches_group_iff, matches_opt_iff, matches_lit_iff,
    matches_plus_cls_iff, matches_eps_iff, hplus, matches_regionCode_iff, CharClass.test]
  constructor
  · rintro ⟨s1, a1, s2, hws, s3c, ⟨s3, ⟨s4, ⟨wl, hne, hwl, a3⟩, s5, hopt, rfl⟩, rfl⟩, rfl⟩
    refine ⟨s1, s2, s3, a1, hws, ?_, rfl⟩
    rcases hopt with ⟨r, hr, a4⟩ | rfl
    · exact ⟨wl.flatten ++ r, ⟨wl, r, rfl, hne, hwl, Or.inr hr⟩, a3.trans a4⟩
    · exact ⟨wl.flatten ++ [], ⟨wl, [], rfl, hne, hwl, Or.inl rfl⟩, by simpa using a3⟩
  · rintro ⟨s1, s2, s3, a1, hws, ⟨c, ⟨wl, r, rfl, hne, hwl, hr⟩, hadv⟩, rfl⟩
    obtain ⟨s4, a3, a4⟩ := Adv.split hadv
    refine ⟨s1, a1, s2, hws, _, ⟨s3, ⟨s4, ⟨wl, hne, hwl, a3⟩, s3, ?_, rfl⟩, rfl⟩, rfl⟩
    rcases hr with rfl | hr
    · exact Or.inr ((Adv.nil_iff _ _).mp a4)
    · exact Or.inl ⟨r, hr, a4⟩

/-- A match of the location pattern is an occurrence of the location phrase, and group 1
spans the captured words. -/
theorem locationPhraseAt_of_matchAt {text pre : Str} {f : MState}
    (h : MatchAt locationPattern text pre f) :
    ∃ c, LocationPhraseAt text pre c ∧
      ∃ k, f.caps = [(1, k, k + c.length)] ∧ slice text k (k + c.length) = c := by
  obtain ⟨post, htext, hm⟩ := h
  obtain ⟨s1, s2, s3, a1, ⟨ws, hne, hws, a2⟩, ⟨c, hc, a3⟩, rfl⟩ :=
    (matches_locationPattern_iff _ _).mp hm
  obtain ⟨r1, b1, c1⟩ := a1
  obtain ⟨r2, b2, c2⟩ := a2
  obtain ⟨r3, b3, c3⟩ := a3
  simp only at r1 b1 c1
  have htext' : text = (pre ++ ['i', 'n'] ++ ws) ++ c ++ s3.rest := by
    rw [htext, r1, r2, r3]
    simp
  refine ⟨c, ⟨ws, s3.rest, htext', hne, hws, hc⟩, (pre ++ ['i', 'n'] ++ ws).length, ?_, ?_⟩
  · simp only [MState.close, c3, c2, c1, b3, b2, b1]
    simp [Nat.add_comm, Nat.add_left_comm]
  · rw [htext']
    exact slice_append _ c _

/-- An occurrence of the location phrase is a match of the location pattern. -/
theorem matchAt_of_locationPhraseAt {text pre c : Str} (h : LocationPhraseAt text pre c) :
    ∃ f, MatchAt locationPattern text pre f := by
  obtain ⟨ws, post, htext, hne, hws, hc⟩ := h
  refine ⟨MState.close ⟨c.reverse ++ (ws.reverse ++ (['n', 'i'] ++ pre.reverse)), post, []⟩ 1
      ⟨ws.reverse ++ (['n', 'i'] ++ pre.reverse), c ++ post, []⟩,
    ['i', 'n'] ++ ws ++ c ++ post, by simp [htext], ?_⟩
  rw [matches_locationPattern_iff]
  exact ⟨⟨['n', 'i'] ++ pre.reverse, ws ++ c ++ post, []⟩,
    ⟨ws.reverse ++ (['n', 'i'] ++ pre.reverse), c ++ post, []⟩,
    ⟨c.reverse ++ (ws.reverse ++ (['n', 'i'] ++ pre.reverse)), post, []⟩,
    by simp [Adv], ⟨ws, hne, hws, by simp [Adv]⟩, ⟨c, hc, by simp [Adv]⟩, rfl⟩

/-- What a successful search for the location pattern captures: the words of an
occurrence of the location phrase at the leftmost position where the phrase occurs. -/
theorem location_search_some {text : Str} {m : SMatch}
    (h : regex_search text locationPattern = some m) :
    ∃ pre c, LocationPhraseAt text pre c ∧ m.sub 1 = c ∧
      ∀ pre1 c1, LocationPhraseAt text pre1 c1 → pre.length ≤ pre1.length := by
  obtain ⟨pre, f, hmatch, _, rfl, hleft⟩ := regex_search_eq_some text locationPattern m h
  obtain ⟨c, hphrase, k, hcaps, hslice⟩ := locationPhraseAt_of_matchAt hmatch
  refine ⟨pre, c, hphrase, ?_, ?_⟩
  · simp only [SMatch.sub, hcaps, List.lookup, beq_self_eq_true]
    exact hslice
  · intro pre1 c1 h1
    obtain ⟨f1, hf1⟩ := matchAt_of_locationPhraseAt h1
    exact hleft pre1 f1 hf1

/-- The search for the location pattern fails exactly when the location phrase occurs
nowhere in the text. -/
theorem location_search_none_iff (text : Str) :
    regex_search text locationPattern = none ↔ ∀ pre c, ¬ LocationPhraseAt text pre c := by
  rw [regex_search_eq_none_iff]
  constructor
  · intro h pre c hp
    obtain ⟨f, hf⟩ := matchAt_of_locationPhraseAt hp
    exact h pre f hf
  · intro h pre f hm
    obtain ⟨c, hp, _⟩ := locationPhraseAt_of_matchAt hm
    exact h pre c hp

theorem locationPhrase_ne_nil {c : Str} (h : LocationPhrase c) : c ≠ [] := by
  obtain ⟨wl, r, rfl, hne, hwl, _⟩ := h
  cases wl with
  | nil => exact absurd rfl hne
  | cons w wl =>
    have := capWord_ne_nil (hwl w (by simp))
    cases w with
    | nil => exact absurd rfl this
    | cons x w => simp

/-! ## The description pattern -/

theorem matches_detailsPattern_iff (s f : MState) :
    Matches detailsPattern s f ↔
      ∃ s1 s2 s3, (∃ a, DescriptionAnchor a ∧ Adv s a s1) ∧
        (∃ body, (∀ x ∈ body, isDot x = true) ∧ Adv s1 body s2) ∧
        (∃ stop, (stop = '.' ∨ stop = '\n') ∧ Adv s2 [stop] s3) ∧ f = s3.close 1 s := by
  simp only [detailsPattern, Regex.seqs, matches_seq_iff, matches_group_iff, matches_alt_iff,
    matches_lit_iff, matches_plus_cls_iff, matches_star_cls_iff, matches_cls_iff,
    matches_eps_iff, CharClass.test]
  constructor
  · rintro ⟨s3, ⟨s1, hanchor, s2, hbody, s4, hstop, rfl⟩, rfl⟩
    refine ⟨s1, s2, s3, ?_, hbody, ?_, rfl⟩
    · rcases hanchor with ⟨t1, a1, t2, ⟨ws, hne, hws, a2⟩, t3, a3, rfl⟩ | a1 | a1
      · exact ⟨_, Or.inl ⟨ws, hne, hws, rfl⟩, (a1.trans a2).trans a3⟩
      · exact ⟨_, Or.inr (Or.inl rfl), a1⟩
      · exact ⟨_, Or.inr (Or.inr rfl), a1⟩
    · rcases hstop with ⟨x, hx, a1⟩ | ⟨x, hx, a1⟩
      · simp only [beq_iff_eq] at hx
        exact ⟨x, Or.inl hx.symm, a1⟩
      · simp only [beq_iff_eq] at hx
        exact ⟨x, Or.inr hx.symm, a1⟩
  · rintro ⟨s1, s2, s3, ⟨a, ha, a1⟩, hbody, ⟨stop, hstop, a3⟩, rfl⟩
    refine ⟨s3, ⟨s1, ?_, s2, hbody, s3, ?_, rfl⟩, rfl⟩
    · rcases ha with ⟨ws, hne, hws, rfl⟩ | rfl | rfl
      · obtain ⟨t2, b1, b3⟩ := Adv.split a1
        obtain ⟨t1, b1, b2⟩ := Adv.split b1
        exact Or.inl ⟨t1, b1, t2, ⟨ws, hne, hws, b2⟩, s1, b3, rfl⟩
      · exact Or.inr (Or.inl a1)
      · exact Or.inr (Or.inr a1)
    · rcases hstop with rfl | rfl
      · exact Or.inl ⟨'.', by simp, a3⟩
      · exact Or.inr ⟨'\n', by simp, a3⟩

/-- A match of the description pattern is an occurrence of the description phrase, and
group 1 spans it. -/
theorem descriptionPhraseAt_of_matchAt {text pre : Str} {f : MState}
    (h : MatchAt detailsPattern text pre f) :
    ∃ d, DescriptionPhraseAt text pre d ∧
      f.caps = [(1, pre.length, pre.length + d.length)] := by
  obtain ⟨post, htext, hm⟩ := h
  obtain ⟨s1, s2, s3, ⟨a, ha, a1⟩, ⟨body, hbody, a2⟩, ⟨stop, hstop, a3⟩, rfl⟩ :=
    (matches_detailsPattern_iff _ _).mp hm
  obtain ⟨r1, b1, c1⟩ := a1
  obtain ⟨r2, b2, c2⟩ := a2
  obtain ⟨r3, b3, c3⟩ := a3
  simp only at r1 b1 c1
  refine ⟨a ++ body ++ [stop], ⟨a, body, stop, s3.rest, ?_, rfl, ha, hbody, hstop⟩, ?_⟩
  · rw [htext, r1, r2, r3]
    simp
  · simp only [MState.close, c3, c2, c1, b3, b2, b1]
    simp only [List.length_append, List.length_reverse, List.length_cons, List.length_nil,
      List.cons.injEq, Prod.mk.injEq, and_true, true_and]
    omega

/-- An occurrence of the description phrase is a match of the description pattern. -/
theorem matchAt_of_descriptionPhraseAt {text pre d : Str}
    (h : DescriptionPhraseAt text pre d) : ∃ f, MatchAt detailsPattern text pre f := by
  obtain ⟨a, body, stop, post, htext, rfl, ha, hbody, hstop⟩ := h
  refine ⟨MState.close ⟨[stop] ++ (body.reverse ++ (a.reverse ++ pre.reverse)), post, []⟩ 1
      ⟨pre.reverse, a ++ body ++ [stop] ++ post, []⟩,
    a ++ body ++ [stop] ++ post, by simp [htext], ?_⟩
  rw [matches_detailsPattern_iff]
  exact ⟨⟨a.reverse ++ pre.reverse, body ++ [stop] ++ post, []⟩,
    ⟨body.reverse ++ (a.reverse ++ pre.reverse), [stop] ++ post, []⟩,
    ⟨[stop] ++ (body.reverse ++ (a.reverse ++ pre.reverse)), post, []⟩,
    ⟨a, ha, by simp [Adv]⟩, ⟨body, hbody, by simp [Adv]⟩, ⟨stop, hstop, by simp [Adv]⟩, rfl⟩

/-- The search for the description pattern fails exactly when the description phrase
occurs nowhere in the text. -/
theorem details_search_none_iff (text : Str) :
    regex_search text detailsPattern = none ↔
      ∀ pre d, ¬ DescriptionPhraseAt text pre d := by
  rw [regex_search_eq_none_iff]
  constructor
  · intro h pre d hp
    obtain ⟨f, hf⟩ := matchAt_of_descriptionPhraseAt hp
    exact h pre f hf
  · intro h pre f hm
    obtain ⟨d, hp, _⟩ := descriptionPhraseAt_of_matchAt hm
    exact h pre d hp

/-- Every occurrence of the description phrase contains "shooting" or "incident". -/
theorem descriptionPhraseAt_has_anchor {text pre d : Str}
    (h : DescriptionPhraseAt text pre d) :
    "shooting".toList <:+: text ∨ "incident".toList <:+: text := by
  obtain ⟨a, body, stop, post, htext, rfl, ha, _, _⟩ := h
  rcases ha with ⟨ws, _, _, rfl⟩ | rfl | rfl
  · exact Or.inl ⟨pre ++ "mass".toList ++ ws, body ++ [stop] ++ post, by simp [htext]⟩
  · exact Or.inl ⟨pre, body ++ [stop] ++ post, by simp [htext]⟩
  · exact Or.inr ⟨pre, body ++ [stop] ++ post, by simp [htext]⟩

/-! ## The fields of the record -/

/-- The fields of a returned record other than `victims`. -/
theorem extractShootingInfo_fields {uninit : Int} {text source : Str} {info : ShootingInfo}
    (h : extractShootingInfo uninit text source = .ok info) :
    info.date = extractDate text ∧
    info.location = (match regex_search text locationPattern with
      | some m => m.sub 1
      | none => []) ∧
    info.description = (match regex_search text detailsPattern with
      | some m => m.sub 1
      | none => text.take 500) ∧
    info.source = source := by
  simp only [extractShootingInfo] at h
  split at h
  · cases h
  · simp only [Except.ok.injEq] at h
    subst h
    exact ⟨rfl, rfl, rfl, rfl⟩

/-! ## The loop over all images and the accepted records -/

theorem interleave_singleton {α : Type} (sched : List Nat) : ∀ q : List α,
    interleave sched [q] = q := by
  induction sched with
  | nil => intro q; simp [interleave]
  | cons w sched ih =>
    intro q
    simp only [interleave]
    cases w with
    | zero =>
      cases q with
      | nil => simpa using ih []
      | cons x q => simpa using ih q
    | succ w => simpa using ih q

theorem processItem_toList (u : Int) (item : Item) (r : Option ShootingInfo)
    (h : processItem u item = .ok r) :
    r.toList = (if containsRelevantTerms item.ocrText then
      match extractShootingInfo u item.ocrText item.filename with
      | .ok info => if info.victims > 0 ∧ info.location ≠ [] then [info] else []
      | .error _ => []
    else []) := by
  simp only [processItem] at h
  split at h
  · rename_i hrel
    simp only [hrel, if_true]
    split at h
    · cases h
    · rename_i info hinfo
      simp only [hinfo]
      split at h
      · rename_i hf
        cases h
        simp [hf]
      · rename_i hf
        cases h
        simp [hf]
  · rename_i hrel
    cases h
    simp [hrel]

/-- The loop from image `i` to the end returns the accepted records of these images. -/
theorem processLoop_eq_accepted (uninit : Nat → Int) (items : List Item) :
    ∀ (n i : Nat) (all : List ShootingInfo), n = (items.drop i).length →
      processLoop uninit items n i = .ok all → all = acceptedFrom uninit i (items.drop i) := by
  intro n
  induction n with
  | zero =>
    intro i all hn h
    have : items.drop i = [] := List.length_eq_zero.mp hn.symm
    simp only [processLoop, Except.ok.injEq] at h
    simp [this, acceptedFrom, ← h]
  | succ n ih =>
    intro i all hn h
    have hi : i < items.length := by
      simp only [List.length_drop] at hn
      omega
    have hdrop : items.drop i = items[i] :: items.drop (i + 1) := List.drop_eq_getElem_cons hi
    have hget : items[i]? = some items[i] := List.getElem?_eq_getElem hi
    simp only [processLoop, hget] at h
    split at h
    · cases h
    · rename_i r hr
      split at h
      · cases h
      · rename_i rs hrs
        simp only [Except.ok.injEq] at h
        subst h
        have hn1 : n = (items.drop (i + 1)).length := by
          simp only [List.length_drop] at hn ⊢
          omega
        rw [hdrop, acceptedFrom, ← ih (i + 1) rs hn1 hrs, processItem_toList _ _ _ hr]

/-- The loop returns when no relevant image makes the extraction raise. -/
theorem processLoop_returns (uninit : Nat → Int) (items : List Item)
    (hok : ∀ i item, items[i]? = some item → containsRelevantTerms item.ocrText = true →
      ∃ info, extractShootingInfo (uninit i) item.ocrText item.filename = .ok info) :
    ∀ n i, ∃ all, processLoop uninit items n i = .ok all := by
  intro n
  induction n with
  | zero => intro i; exact ⟨[], rfl⟩
  | succ n ih =>
    intro i
    simp only [processLoop]
    cases hget : items[i]? with
    | none => exact ⟨[], rfl⟩
    | some item =>
      simp only
      obtain ⟨rs, hrs⟩ := ih (i + 1)
      have hitem : ∃ r, processItem (uninit i) item = .ok r := by
        simp only [processItem]
        split
        · rename_i hrel
          obtain ⟨info, hinfo⟩ := hok i item hget hrel
          rw [hinfo]
          simp only
          split
          · exact ⟨_, rfl⟩
          · exact ⟨_, rfl⟩
        · exact ⟨_, rfl⟩
      obtain ⟨r, hr⟩ := hitem
      exact ⟨r.toList ++ rs, by simp only [hr, hrs]⟩

/-! ## Letter case and the classifier -/

set_option maxRecDepth 100000

theorem toNat_ofNat_small : ∀ n < 256, (Char.ofNat n).toNat = n := by
  decide

theorem tolower_tolower (c : Char) : tolower (tolower c) = tolower c := by
  by_cases h : 65 ≤ c.toNat ∧ c.toNat ≤ 90
  · have h1 : (Char.ofNat (c.toNat + 32)).toNat = c.toNat + 32 :=
      toNat_ofNat_small _ (by omega)
    have h2 : ¬ (65 ≤ c.toNat + 32 ∧ c.toNat + 32 ≤ 90) := by omega
    simp only [tolower, h, and_self, if_true, h1, h2, if_false]
  · simp only [tolower, h, if_false]

theorem tolower_toupper (c : Char) : tolower (toupper c) = tolower c := by
  by_cases h : 97 ≤ c.toNat ∧ c.toNat ≤ 122
  · have h1 : (Char.ofNat (c.toNat - 32)).toNat = c.toNat - 32 :=
      toNat_ofNat_small _ (by omega)
    have h2 : 65 ≤ c.toNat - 32 ∧ c.toNat - 32 ≤ 90 := by omega
    have h3 : ¬ (65 ≤ c.toNat ∧ c.toNat ≤ 90) := by omega
    have h4 : c.toNat - 32 + 32 = c.toNat := by omega
    simp only [tolower, toupper, h, and_self, if_true, h1, h2, h3, if_false, h4,
      Char.ofNat_toNat]
  · simp only [toupper, h, if_false]

theorem lowerText_lowerText (text : Str) : lowerText (lowerText text) = lowerText text := by
  simp only [lowerText, List.map_map]
  apply List.map_congr_left
  intro c _
  exact tolower_tolower c

theorem lowerText_upperText (text : Str) : lowerText (upperText text) = lowerText text := by
  simp only [lowerText, upperText, List.map_map]
  apply List.map_congr_left
  intro c _
  exact tolower_toupper c

theorem lowerText_append (a b : Str) : lowerText (a ++ b) = lowerText a ++ lowerText b := by
  simp [lowerText]

/-! ## Substrings of the text -/

theorem slice_isInfix (text : Str) (i j : Nat) : slice text i j <:+: text :=
  List.IsInfix.trans (List.take_prefix _ _).isInfix (List.drop_suffix _ _).isInfix

theorem regex_search_text {text : Str} {r : Regex} {m : SMatch}
    (h : regex_search text r = some m) : m.text = text := by
  simp only [regex_search] at h
  split at h
  · cases h
    rfl
  · cases h

theorem smatch_sub_isInfix (m : SMatch) (n : Nat) : m.sub n <:+: m.text := by
  simp only [SMatch.sub]
  split
  · exact slice_isInfix _ _ _
  · exact List.nil_infix

/-! ## The shards and the loop over a list -/

theorem processNewspaperImages_shards (numThreads : Nat) (sched : List Nat)
    (uninit : Nat → Int) (items : List Item) (h : numThreads ≠ 0) :
    processNewspaperImages numThreads sched uninit items =
      match runWorkers (fun i => processImagesThread uninit items
          (shardStart items.length numThreads i) (shardEnd items.length numThreads i))
        (List.range numThreads) with
      | .error e => .error e
      | .ok outs => .ok (interleave sched outs) := by
  simp only [processNewspaperImages, h, if_false, shardStart, shardEnd]

theorem shard_mul_le (n W : Nat) (_hW : 1 ≤ W) (i : Nat) (hi : i ≤ W) : i * (n / W) ≤ n :=
  calc i * (n / W) ≤ W * (n / W) := Nat.mul_le_mul_right _ hi
    _ ≤ n := Nat.mul_div_le _ _

/-- The loop of `processImagesThread` from image `i` to the end is the loop over the list
of the remaining images. -/
theorem processLoop_eq_loopFrom (uninit : Nat → Int) (items : List Item) :
    ∀ (n i : Nat), n = (items.drop i).length →
      processLoop uninit items n i = loopFrom uninit i (items.drop i) := by
  intro n
  induction n with
  | zero =>
    intro i hn
    have : items.drop i = [] := List.length_eq_zero.mp hn.symm
    simp [this, processLoop, loopFrom]
  | succ n ih =>
    intro i hn
    have hi : i < items.length := by
      simp only [List.length_drop] at hn
      omega
    have hdrop : items.drop i = items[i] :: items.drop (i + 1) := List.drop_eq_getElem_cons hi
    have hget : items[i]? = some items[i] := List.getElem?_eq_getElem hi
    have hn1 : n = (items.drop (i + 1)).length := by
      simp only [List.length_drop] at hn ⊢
      omega
    rw [hdrop]
    simp only [processLoop, hget, loopFrom, ih (i + 1) hn1]

theorem processItem_empty (u : Int) (filename : Str) :
    processItem u ⟨filename, []⟩ = .ok none := by
  rfl

/-! ## The value built by `saveToJson` -/

theorem ofInit_recordInit (info : ShootingInfo) :
    Json.ofInit (recordInit info) = recordObject info := by
  rfl

theorem buildJson_arr : ∀ (data : List ShootingInfo) (xs : List Json),
    buildJson (.arr xs) data = .ok (.arr (xs ++ data.map recordObject)) := by
  intro data
  induction data with
  | nil => intro xs; simp [buildJson]
  | cons info rest ih =>
    intro xs
    simp only [buildJson, Json.push_back_init, Json.push_back, ofInit_recordInit, ih,
      List.map_cons, List.append_assoc, List.singleton_append]

theorem locationPhrase_head {c : Str} (h : LocationPhrase c) :
    ∃ u t, c = u :: t ∧ isUpper u = true := by
  obtain ⟨wl, r, rfl, hne, hwl, _⟩ := h
  cases wl with
  | nil => exact absurd rfl hne
  | cons w wl =>
    obtain ⟨u, ls, ws, rfl, hu, _⟩ := hwl w (by simp)
    exact ⟨u, ls ++ ws ++ (wl.flatten ++ r), by simp, hu⟩

/-! ## The lazy repetition of the description pattern -/

/-- The lazy repetition of a one-character atom stops at the first position where the
rest of the pattern succeeds. -/
theorem starLoop_lazy_first (c : CharClass) (k : MState → Option MState) :
    ∀ (n : Nat) (s f : MState), starLoop false (run (.cls c)) n s k = some f →
      ∃ body s1, Adv s body s1 ∧ (∀ x ∈ body, c.test x = true) ∧ k s1 = some f ∧
        ∀ b1 x b2 s2, body = b1 ++ x :: b2 → Adv s b1 s2 → k s2 = none := by
  intro n
  induction n with
  | zero =>
    intro s f h
    simp only [starLoop] at h
    exact ⟨[], s, (Adv.nil_iff _ _).mpr rfl, by simp, h, by simp⟩
  | succ n ih =>
    intro s f h
    simp only [starLoop, Bool.false_eq_true, if_false] at h
    split at h
    · rename_i r hr
      cases h
      exact ⟨[], s, (Adv.nil_iff _ _).mpr rfl, by simp, hr, by simp⟩
    · rename_i hnone
      simp only [run] at h
      split at h
      · cases h
      · rename_i x t hx
        split at h
        · rename_i hc
          have hlt : t.length < s.rest.length := by simp [hx]
          simp only [hlt, if_true] at h
          obtain ⟨body, s1, hadv, hbody, hk, hfirst⟩ := ih _ _ h
          have hstep : Adv s [x] ⟨x :: s.before, t, s.caps⟩ := ⟨by simp [hx], rfl, rfl⟩
          refine ⟨x :: body, s1, by simpa using hstep.trans hadv,
            by simpa [hc] using hbody, hk, ?_⟩
          intro b1 y b2 s2 hb hadv2
          cases b1 with
          | nil =>
            rw [(Adv.nil_iff _ _).mp hadv2]
            exact hnone
          | cons z b1 =>
            simp only [List.cons_append, List.cons.injEq] at hb
            obtain ⟨rfl, hb⟩ := hb
            obtain ⟨s3, a1, a2⟩ := Adv.split (w := [x]) (v := b1) (by simpa using hadv2)
            have : s3 = ⟨x :: s.before, t, s.caps⟩ := adv_unique a1 hstep
            subst this
            exact hfirst b1 y b2 s2 hb a2
        · cases h

theorem matches_anchor_iff (s s1 : MState) :
    Matches (Regex.alt (Regex.seqs [Regex.lit "mass".toList, (Regex.cls .space).plus,
        Regex.lit "shooting".toList])
      (Regex.alt (Regex.lit "shooting".toList) (Regex.lit "incident".toList))) s s1 ↔
      ∃ a, DescriptionAnchor a ∧ Adv s a s1 := by
  simp only [Regex.seqs, matches_seq_iff, matches_alt_iff, matches_lit_iff,
    matches_plus_cls_iff, matches_eps_iff, CharClass.test]
  constructor
  · rintro (⟨t1, a1, t2, ⟨ws, hne, hws, a2⟩, t3, a3, rfl⟩ | a1 | a1)
    · exact ⟨_, Or.inl ⟨ws, hne, hws, rfl⟩, (a1.trans a2).trans a3⟩
    · exact ⟨_, Or.inr (Or.inl rfl), a1⟩
    · exact ⟨_, Or.inr (Or.inr rfl), a1⟩
  · rintro ⟨a, ha, a1⟩
    rcases ha with ⟨ws, hne, hws, rfl⟩ | rfl | rfl
    · obtain ⟨t2, b1, b3⟩ := Adv.split a1
      obtain ⟨t1, b1, b2⟩ := Adv.split b1
      exact Or.inl ⟨t1, b1, t2, ⟨ws, hne, hws, b2⟩, s1, b3, rfl⟩
    · exact Or.inr (Or.inl a1)
    · exact Or.inr (Or.inr a1)

theorem matches_stop_iff (s s1 : MState) :
    Matches (Regex.seq (Regex.alt (Regex.cls (.lit '.')) (Regex.cls (.lit '\n'))) Regex.eps)
      s s1 ↔ ∃ stop, isStop stop = true ∧ Adv s [stop] s1 := by
  simp only [matches_seq_iff, matches_alt_iff, matches_cls_iff, matches_eps_iff,
    CharClass.test, beq_iff_eq]
  constructor
  · rintro ⟨s2, (⟨x, hx, a1⟩ | ⟨x, hx, a1⟩), rfl⟩
    · exact ⟨x, by simp [isStop, ← hx], a1⟩
    · exact ⟨x, by simp [isStop, ← hx], a1⟩
  · rintro ⟨stop, hstop, a1⟩
    simp only [isStop, Bool.or_eq_true, beq_iff_eq] at hstop
    rcases hstop with rfl | rfl
    · exact ⟨s1, Or.inl ⟨'.', rfl, a1⟩, rfl⟩
    · exact ⟨s1, Or.inr ⟨'\n', rfl, a1⟩, rfl⟩

/-- What the matcher returns for the description pattern at a position: an anchor, then
the characters up to the first period or line feed, none of them a carriage return, then
that period or line feed. -/
theorem details_run_some {s f : MState} (h : run detailsPattern s some = some f) :
    ∃ a body stop s1 s2 s3, DescriptionAnchor a ∧ Adv s a s1 ∧ Adv s1 body s2 ∧
      (∀ x ∈ body, isDot x = true ∧ isStop x = false) ∧ isStop stop = true ∧
      Adv s2 [stop] s3 ∧ f = s3.close 1 s := by
  have h1 : run (Regex.alt (Regex.seqs [Regex.lit "mass".toList, (Regex.cls .space).plus,
        Regex.lit "shooting".toList])
      (Regex.alt (Regex.lit "shooting".toList) (Regex.lit "incident".toList))) s
      (fun s1 => starLoop false (run (.cls .dot)) s1.rest.length s1
        (fun s2 => run (Regex.seq (Regex.alt (Regex.cls (.lit '.')) (Regex.cls (.lit '\n')))
          Regex.eps) s2 (fun s3 => some (s3.close 1 s)))) = some f := h
  obtain ⟨s1, hm1, hk1⟩ := run_sound _ _ _ _ h1
  obtain ⟨a, ha, a1⟩ := (matches_anchor_iff _ _).mp hm1
  obtain ⟨body, s2, a2, hbody, hk2, hfirst⟩ := starLoop_lazy_first _ _ _ _ _ hk1
  obtain ⟨s3, hm3, hk3⟩ := run_sound _ _ _ _ hk2
  obtain ⟨stop, hstop, a3⟩ := (matches_stop_iff _ _).mp hm3
  simp only [Option.some.injEq] at hk3
  refine ⟨a, body, stop, s1, s2, s3, ha, a1, a2, ?_, hstop, a3, hk3.symm⟩
  intro x hx
  refine ⟨hbody x hx, ?_⟩
  obtain ⟨b1, b2, rfl⟩ := List.append_of_mem hx
  obtain ⟨t1, c1, c2⟩ := Adv.split a2
  have hnone := hfirst b1 x b2 t1 rfl c1
  by_contra hxs
  have hxs : isStop x = true := by simpa using hxs
  have hm : Matches (Regex.seq (Regex.alt (Regex.cls (.lit '.')) (Regex.cls (.lit '\n')))
      Regex.eps) t1 ⟨x :: t1.before, b2 ++ s2.rest, t1.caps⟩ :=
    (matches_stop_iff _ _).mpr ⟨x, hxs, ⟨by simpa using c2.1, rfl, rfl⟩⟩
  have := run_complete _ _ _ (fun s3 => some (s3.close 1 s)) hm rfl
  rw [hnone] at this
  cases this

theorem isDot_of_not_stop {x : Char} (h : isStop x = false) (hcr : x ≠ '\r') :
    isDot x = true := by
  have hnl : x ≠ '\n' := by
    rintro rfl
    revert h
    decide
  have h10 : x.toNat ≠ 10 := by
    intro hx
    apply hnl
    rw [← Char.ofNat_toNat x, hx]
  have h13 : x.toNat ≠ 13 := by
    intro hx
    apply hcr
    rw [← Char.ofNat_toNat x, hx]
  simp [isDot, h10, h13]

/-- At a given position the anchor of the description pattern is determined. -/
theorem descriptionAnchor_unique {a a1 r r1 : Str} (ha : DescriptionAnchor a)
    (ha1 : DescriptionAnchor a1) (h : a ++ r = a1 ++ r1) : a = a1 := by
  have hmass : "mass".toList = ['m', 'a', 's', 's'] := rfl
  have hshoot : "shooting".toList = ['s', 'h', 'o', 'o', 't', 'i', 'n', 'g'] := rfl
  have hinc : "incident".toList = ['i', 'n', 'c', 'i', 'd', 'e', 'n', 't'] := rfl
  rcases ha with ⟨ws, hne, hws, rfl⟩ | rfl | rfl <;>
    rcases ha1 with ⟨ws1, hne1, hws1, rfl⟩ | rfl | rfl
  · simp only [hmass, List.append_assoc, List.cons_append, List.nil_append, List.cons.injEq,
      true_and] at h
    have hhead : ∀ (t : Str) (c : Char), ("shooting".toList ++ t).head? = some c →
        (fun x => isSpace x) c = false := by
      intro t c hc
      simp only [hshoot, List.cons_append, List.head?_cons, Option.some.injEq] at hc
      subst hc
      decide
    obtain ⟨rfl, _⟩ := run_unique (fun x => isSpace x) ws ws1 _ _ hws hws1 (hhead r)
      (hhead r1) h
    rfl
  · have := congrArg List.head? h
    simp [hmass, hshoot] at this
  · have := congrArg List.head? h
    simp [hmass, hinc] at this
  · have := congrArg List.head? h
    simp [hmass, hshoot] at this
  · rfl
  · have := congrArg List.head? h
    simp [hinc, hshoot] at this
  · have := congrArg List.head? h
    simp [hmass, hinc] at this
  · have := congrArg List.head? h
    simp [hinc, hshoot] at this
  · rfl

theorem filter_isStop_body (body : Str) (stop : Char) (hbody : ∀ x ∈ body, isStop x = false)
    (hstop : isStop stop = true) : List.filter isStop (body ++ [stop]) = [stop] := by
  rw [List.filter_append]
  have : List.filter isStop body = [] := by
    rw [List.filter_eq_nil_iff]
    intro x hx
    simp [hbody x hx]
  simp [this, hstop]

/-- The description found by the search: at the leftmost anchor that a period or a line
feed follows with no carriage return in between, the substring from the anchor to the
first such character. -/
theorem details_search_first_sentence {text pre a body post : Str} {stop : Char}
    (htext : text = pre ++ a ++ body ++ [stop] ++ post)
    (ha : DescriptionAnchor a)
    (hleft : ∀ pre1 a1, AnchorAt text pre1 a1 → pre.length ≤ pre1.length)
    (hbody : ∀ x ∈ body, isStop x = false) (hstop : isStop stop = true)
    (hcr : ∀ x ∈ body, x ≠ '\r') :
    ∃ m, regex_search text detailsPattern = some m ∧ m.sub 1 = a ++ body ++ [stop] := by
  have hstop' : stop = '.' ∨ stop = '\n' := by
    simpa [isStop] using hstop
  have hphr : DescriptionPhraseAt text pre (a ++ body ++ [stop]) :=
    ⟨a, body, stop, post, by simp [htext], rfl, ha,
      fun x hx => isDot_of_not_stop (hbody x hx) (hcr x hx), hstop'⟩
  obtain ⟨fm, hfm⟩ := matchAt_of_descriptionPhraseAt hphr
  cases hs : regex_search text detailsPattern with
  | none => exact absurd hfm ((regex_search_eq_none_iff text detailsPattern).mp hs pre fm)
  | some m =>
    refine ⟨m, rfl, ?_⟩
    obtain ⟨pre0, f, hmatch, hrun, rfl, hleft0⟩ := regex_search_eq_some text detailsPattern m hs
    obtain ⟨post0, htext0, _⟩ := hmatch
    have hdrop : text.drop pre0.length = post0 := by simp [htext0]
    rw [hdrop] at hrun
    obtain ⟨a0, body0, stop0, s1, s2, s3, ha0, a1, a2, hbody0, hstop0, a3, rfl⟩ :=
      details_run_some hrun
    obtain ⟨r1, b1, _⟩ := a1
    obtain ⟨r2, b2, _⟩ := a2
    obtain ⟨r3, b3, _⟩ := a3
    simp only at r1 b1
    have htext1 : text = pre0 ++ a0 ++ body0 ++ [stop0] ++ s3.rest := by
      rw [htext0, r1, r2, r3]
      simp
    have hlen : pre0.length = pre.length :=
      Nat.le_antisymm (hleft0 pre fm hfm)
        (hleft pre0 a0 ⟨body0 ++ [stop0] ++ s3.rest, by simp [htext1], ha0⟩)
    have heq : pre0 ++ (a0 ++ (body0 ++ (stop0 :: s3.rest))) =
        pre ++ (a ++ (body ++ (stop :: post))) := by
      have := htext1.symm.trans htext
      simpa using this
    obtain ⟨hpre, heq1⟩ := List.append_inj heq hlen
    have haa : a0 = a := descriptionAnchor_unique ha0 ha heq1
    subst haa
    have heq2 := List.append_cancel_left heq1
    have hh : ∀ (c0 : Char) (t : Str), isStop c0 = true → ∀ c, (c0 :: t).head? = some c →
        (fun x => !isStop x) c = false := by
      intro c0 t hc0 c hc
      simp only [List.head?_cons, Option.some.injEq] at hc
      subst hc
      simp [hc0]
    obtain ⟨hb, hrest⟩ := run_unique (fun x => !isStop x) body0 body _ _
      (fun x hx => by simp [(hbody0 x hx).2]) (fun x hx => by simp [hbody x hx])
      (hh stop0 _ hstop0) (hh stop _ hstop) heq2
    simp only [List.cons.injEq] at hrest
    obtain ⟨hst, _⟩ := hrest
    subst hb hst hpre
    simp only [SMatch.sub, MState.close, List.lookup, beq_self_eq_true, b3, b2, b1]
    have hl : (List.reverse [stop0] ++ (List.reverse body0 ++
        (List.reverse a0 ++ List.reverse pre0))).length =
        pre0.length + (a0 ++ body0 ++ [stop0]).length := by
      simp only [List.length_append, List.length_reverse, List.length_cons, List.length_nil]
      omega
    rw [hl, List.length_reverse, htext, List.append_assoc pre0, List.append_assoc pre0]
    exact slice_append pre0 (a0 ++ body0 ++ [stop0]) post

theorem descriptionAnchor_head {a : Str} (h : DescriptionAnchor a) :
    ∃ c t, a = c :: t ∧ (c = 'm' ∨ c = 's' ∨ c = 'i') := by
  rcases h with ⟨ws, _, _, rfl⟩ | rfl | rfl
  · exact ⟨'m', "ass".toList ++ ws ++ "shooting".toList, rfl, Or.inl rfl⟩
  · exact ⟨'s', "hooting".toList, rfl, Or.inr (Or.inl rfl)⟩
  · exact ⟨'i', "ncident".toList, rfl, Or.inr (Or.inr rfl)⟩

/-! ## The lock discipline is an invariant -/

theorem lockInv_init (numThreads : Nat) (items : List Item) :
    LockInv (initSys numThreads items) := by
  intro w k hk
  simp only [initSys, List.getElem?_map] at hk
  cases hr : (List.range numThreads)[w]? with
  | none => simp [hr] at hk
  | some i =>
    simp only [hr, Option.map_some', Option.some.injEq] at hk
    subst hk
    simp [Pc.holdsLock, initSys]

/-- Replacing worker `w` and the owner of `mtx` keeps the lock discipline when the new
worker agrees with the new owner and no other worker's ownership changes. -/
theorem lockInv_update {s : Sys} (hinv : LockInv s) (w : Nat) (k1 : Worker)
    (m1 : Option Nat) (d1 : List ShootingInfo) (t1 : Bool)
    (hw : k1.pc.holdsLock = true ↔ m1 = some w)
    (hother : ∀ v, v ≠ w → (m1 = some v ↔ s.mtx = some v)) :
    LockInv { workers := s.workers.set w k1, mtx := m1, data := d1, terminated := t1 } := by
  intro v k hk
  simp only at hk ⊢
  by_cases hv : w = v
  · subst hv
    rw [List.getElem?_set] at hk
    simp only [if_true] at hk
    split at hk
    · cases hk
      exact hw
    · cases hk
  · rw [List.getElem?_set_ne hv] at hk
    rw [hother v (Ne.symm hv)]
    exact hinv v k hk

/-- A step of a worker keeps the lock discipline. -/
theorem lockInv_step (uninit : Nat → Int) (items : List Item) (w : Nat) (s s1 : Sys)
    (hinv : LockInv s) (h : stepWorker uninit items w s = some s1) : LockInv s1 := by
  simp only [stepWorker] at h
  split at h
  · cases h
  · split at h
    · cases h
    · rename_i k hk
      have hkinv := hinv w k hk
      have hsame : ∀ v, v ≠ w → (s.mtx = some v ↔ s.mtx = some v) := fun _ _ => Iff.rfl
      split at h
      · rename_i hpc
        cases h
        rw [hpc] at hkinv
        refine lockInv_update hinv w _ _ _ _ ?_ hsame
        rw [← hkinv]
        split <;> simp [Pc.holdsLock]
      · rename_i hpc
        rw [hpc] at hkinv
        split at h
        · cases h
          refine lockInv_update hinv w _ _ _ _ ?_ hsame
          rw [← hkinv]
          simp [Pc.holdsLock]
        · cases h
          refine lockInv_update hinv w _ _ _ _ ?_ hsame
          rw [← hkinv]
          simp [Pc.holdsLock]
      · rename_i item hpc
        cases h
        rw [hpc] at hkinv
        refine lockInv_update hinv w _ _ _ _ ?_ hsame
        rw [← hkinv]
        split <;> simp [Pc.holdsLock, Worker.next]
      · rename_i item hpc
        rw [hpc] at hkinv
        split at h
        · cases h
          intro v kv hv
          exact hinv v kv hv
        · cases h
          refine lockInv_update hinv w _ _ _ _ ?_ hsame
          rw [← hkinv]
          simp [Pc.holdsLock]
      · rename_i info hpc
        cases h
        rw [hpc] at hkinv
        refine lockInv_update hinv w _ _ _ _ ?_ hsame
        rw [← hkinv]
        split <;> simp [Pc.holdsLock, Worker.next]
      · rename_i info hpc
        split at h
        · rename_i hfree
          cases h
          refine lockInv_update hinv w _ _ _ _ (by simp [Pc.holdsLock]) ?_
          intro v hv
          rw [hfree]
          simp only [Option.some.injEq, reduceCtorEq, iff_false]
          exact fun h => hv h.symm
        · cases h
      · rename_i info hpc
        cases h
        rw [hpc] at hkinv
        refine lockInv_update hinv w _ _ _ _ ?_ hsame
        rw [← hkinv]
        simp [Pc.holdsLock]
      · rename_i hpc
        cases h
        rw [hpc] at hkinv
        have hown : s.mtx = some w := hkinv.mp rfl
        refine lockInv_update hinv w _ _ _ _ (by simp [Pc.holdsLock, Worker.next]) ?_
        intro v hv
        rw [hown]
        simp only [reduceCtorEq, Option.some.injEq, false_iff]
        exact fun h => hv h.symm
      · cases h

/-- The lock discipline holds in every state reached under a schedule. -/
theorem lockInv_runSchedule (uninit : Nat → Int) (items : List Item) :
    ∀ (sched : List Nat) (s : Sys), LockInv s → LockInv (runSchedule uninit items sched s) := by
  intro sched
  induction sched with
  | nil => intro s h; exact h
  | cons w sched ih =>
    intro s h
    simp only [runSchedule]
    split
    · rename_i s1 hs1
      exact ih s1 (lockInv_step uninit items w s s1 h hs1)
    · exact ih s h

/-- A step changes `data` only by the `push_back` of a worker whose guard is alive. -/
theorem stepWorker_data (uninit : Nat → Int) (items : List Item) (w : Nat) (s s1 : Sys)
    (h : stepWorker uninit items w s = some s1) (hd : s1.data ≠ s.data) :
    ∃ k info, s.workers[w]? = some k ∧ k.pc = .push info ∧ s1.data = s.data ++ [info] ∧
      s1.mtx = s.mtx := by
  simp only [stepWorker] at h
  split at h
  · cases h
  · split at h
    · cases h
    · rename_i k hk
      split at h
      · cases h; exact absurd rfl hd
      · split at h <;> (cases h; exact absurd rfl hd)
      · cases h; exact absurd rfl hd
      · split at h <;> (cases h; exact absurd rfl hd)
      · cases h; exact absurd rfl hd
      · split at h
        · cases h; exact absurd rfl hd
        · cases h
      · rename_i info hpc
        cases h
        exact ⟨k, info, hk, hpc, rfl, rfl⟩
      · cases h; exact absurd rfl hd
      · cases h

/-! ## The transition system returns what the batch function returns -/

theorem processLoop_succ_eq (uninit : Nat → Int) (items : List Item) (n i : Nat)
    (item : Item) (h : items[i]? = some item) :
    processLoop uninit items (n + 1) i =
      appendE (toListE (processItem (uninit i) item)) (processLoop uninit items n (i + 1)) := by
  simp only [processLoop, h]
  cases processItem (uninit i) item with
  | error e => rfl
  | ok r =>
    cases processLoop uninit items n (i + 1) with
    | error e => rfl
    | ok rs => rfl

theorem pendingAll_set_same (uninit : Nat → Int) (items : List Item) (k k1 : Worker)
    (hp : pending uninit items k1 = pending uninit items k) :
    ∀ (ws : List Worker) (w : Nat), ws[w]? = some k →
      pendingAll uninit items (ws.set w k1) = pendingAll uninit items ws := by
  intro ws
  induction ws with
  | nil => intro w h; simp at h
  | cons x ws ih =>
    intro w h
    cases w with
    | zero =>
      simp only [List.getElem?_cons_zero, Option.some.injEq] at h
      subst h
      simp only [List.set_cons_zero, pendingAll, hp]
    | succ w =>
      simp only [List.getElem?_cons_succ] at h
      simp only [List.set_cons_succ, pendingAll, ih w h]

theorem pendingAll_ok_at (uninit : Nat → Int) (items : List Item) (k : Worker) :
    ∀ (ws : List Worker) (w : Nat) (ps : List ShootingInfo), ws[w]? = some k →
      pendingAll uninit items ws = .ok ps → ∃ p, pending uninit items k = .ok p := by
  intro ws
  induction ws with
  | nil => intro w ps h; simp at h
  | cons x ws ih =>
    intro w ps h hall
    simp only [pendingAll] at hall
    cases hx : pending uninit items x with
    | error e => simp [hx, appendE] at hall
    | ok px =>
      cases hr : pendingAll uninit items ws with
      | error e => simp [hx, hr, appendE] at hall
      | ok pr =>
        cases w with
        | zero =>
          simp only [List.getElem?_cons_zero, Option.some.injEq] at h
          subst h
          exact ⟨px, hx⟩
        | succ w =>
          simp only [List.getElem?_cons_succ] at h
          exact ih w pr h hr

theorem pendingAll_set_push (uninit : Nat → Int) (items : List Item) (k k1 : Worker)
    (info : ShootingInfo) (p1 : List ShootingInfo)
    (hk : pending uninit items k = .ok (info :: p1))
    (hk1 : pending uninit items k1 = .ok p1) :
    ∀ (ws : List Worker) (w : Nat) (ps : List ShootingInfo), ws[w]? = some k →
      pendingAll uninit items ws = .ok ps →
      ∃ ps1, pendingAll uninit items (ws.set w k1) = .ok ps1 ∧ List.Perm ps (info :: ps1) := by
  intro ws
  induction ws with
  | nil => intro w ps h; simp at h
  | cons x ws ih =>
    intro w ps h hall
    simp only [pendingAll] at hall
    cases hx : pending uninit items x with
    | error e => simp [hx, appendE] at hall
    | ok px =>
      cases hr : pendingAll uninit items ws with
      | error e => simp [hx, hr, appendE] at hall
      | ok pr =>
        simp only [hx, hr, appendE, Except.ok.injEq] at hall
        subst hall
        cases w with
        | zero =>
          simp only [List.getElem?_cons_zero, Option.some.injEq] at h
          subst h
          rw [hk] at hx
          cases hx
          exact ⟨p1 ++ pr, by simp [pendingAll, hk1, hr, appendE], by simp⟩
        | succ w =>
          simp only [List.getElem?_cons_succ] at h
          obtain ⟨pr1, hpr1, hperm⟩ := ih w pr h hr
          refine ⟨px ++ pr1, by simp [pendingAll, hx, hpr1, appendE], ?_⟩
          exact (List.Perm.append_left px hperm).trans List.perm_middle

theorem mem_set_cases {α : Type} (ws : List α) (w : Nat) (k1 x : α)
    (h : x ∈ ws.set w k1) : x = k1 ∨ x ∈ ws := by
  rcases List.mem_or_eq_of_mem_set h with h | h
  · exact Or.inr h
  · exact Or.inl h

/-- A step that pushes nothing and leaves the worker with the same records to push keeps
the link with the sequential loop. -/
theorem simInv_silent {uninit : Nat → Int} {items : List Item} {all : List ShootingInfo}
    {s : Sys} (hinv : SimInv uninit items all s) (w : Nat) (k k1 : Worker) (m : Option Nat)
    (hk : s.workers[w]? = some k)
    (hp : pending uninit items k1 = pending uninit items k)
    (hwf : k1.pc = .ocr → k1.i < k1.stop) :
    SimInv uninit items all
      { workers := s.workers.set w k1, mtx := m, data := s.data,
        terminated := s.terminated } := by
  obtain ⟨ht, hocr, ps, hps, hperm⟩ := hinv
  refine ⟨ht, ?_, ps, ?_, hperm⟩
  · intro x hx
    rcases mem_set_cases _ _ _ _ hx with rfl | hx
    · exact hwf
    · exact hocr x hx
  · simp only
    rw [pendingAll_set_same uninit items k k1 hp _ _ hk]
    exact hps

/-- The `push_back` of a worker keeps the link with the sequential loop. -/
theorem simInv_push {uninit : Nat → Int} {items : List Item} {all : List ShootingInfo}
    {s : Sys} (hinv : SimInv uninit items all s) (w : Nat) (k k1 : Worker)
    (info : ShootingInfo) (hk : s.workers[w]? = some k)
    (hp : pending uninit items k =
      appendE (.ok [info]) (pending uninit items k1))
    (hwf : k1.pc ≠ .ocr) :
    SimInv uninit items all
      { workers := s.workers.set w k1, mtx := s.mtx, data := s.data ++ [info],
        terminated := s.terminated } := by
  obtain ⟨ht, hocr, ps, hps, hperm⟩ := hinv
  obtain ⟨p, hpk⟩ := pendingAll_ok_at uninit items k _ w ps hk hps
  rw [hpk] at hp
  cases hk1 : pending uninit items k1 with
  | error e => simp [hk1, appendE] at hp
  | ok p1 =>
    simp only [hk1, appendE, Except.ok.injEq, List.singleton_append] at hp
    subst hp
    obtain ⟨ps1, hps1, hperm1⟩ := pendingAll_set_push uninit items k k1 info p1 hpk hk1 _ w ps
      hk hps
    refine ⟨ht, ?_, ps1, hps1, ?_⟩
    · intro x hx
      rcases mem_set_cases _ _ _ _ hx with rfl | hx
      · intro h
        exact absurd h hwf
      · exact hocr x hx
    · simp only [List.append_assoc, List.singleton_append]
      exact (List.Perm.append_left s.data hperm1).symm.trans hperm

/-- A step of a worker keeps the link with the sequential loop. -/
theorem simInv_step (uninit : Nat → Int) (items : List Item) (all : List ShootingInfo)
    (w : Nat) (s s1 : Sys) (hinv : SimInv uninit items all s)
    (h : stepWorker uninit items w s = some s1) : SimInv uninit items all s1 := by
  simp only [stepWorker] at h
  split at h
  · cases h
  split at h
  · cases h
  · rename_i k hk
    have hmem : k ∈ s.workers := List.getElem?_mem hk
    obtain ⟨p, hpk⟩ := pendingAll_ok_at uninit items k _ w _ hk hinv.2.2.choose_spec.1
    split at h
    · rename_i hpc
      cases h
      by_cases hlt : k.i < k.stop
      · simp only [hlt, if_true]
        refine simInv_silent hinv w k _ _ hk ?_ (fun _ => hlt)
        simp only [pending, hpc]
      · simp only [hlt, if_false]
        refine simInv_silent hinv w k _ _ hk ?_ (fun h => by cases h)
        have h0 : k.stop - k.i = 0 := by omega
        simp only [pending, hpc, h0, processLoop]
    · rename_i hpc
      have hlt : k.i < k.stop := hinv.2.1 k hmem hpc
      obtain ⟨n, hn⟩ : ∃ n, k.stop - k.i = n + 1 := ⟨k.stop - k.i - 1, by omega⟩
      have hn1 : k.stop - (k.i + 1) = n := by omega
      split at h
      · rename_i hnone
        cases h
        refine simInv_silent hinv w k _ _ hk ?_ (fun h => by cases h)
        simp only [pending, hpc, hn, processLoop, hnone]
      · rename_i item hsome
        cases h
        refine simInv_silent hinv w k _ _ hk ?_ (fun h => by cases h)
        simp only [pending, hpc, hn, hn1]
        exact (processLoop_succ_eq uninit items n k.i item hsome).symm
    · rename_i item hpc
      cases h
      by_cases hrel : containsRelevantTerms item.ocrText = true
      · simp only [hrel, if_true]
        refine simInv_silent hinv w k _ _ hk ?_ (fun h => by cases h)
        simp only [pending, hpc, processItem, hrel, if_true]
      · simp only [hrel, if_false]
        refine simInv_silent hinv w k _ _ hk ?_ (fun h => by cases h)
        simp only [pending, hpc, processItem, hrel, if_false, Worker.next, toListE,
          Option.toList, appendE_ok_nil, Bool.false_eq_true]
    · rename_i item hpc
      split at h
      · rename_i e he
        exfalso
        simp only [pending, hpc, he, toListE, appendE] at hpk
        cases hpk
      · rename_i info hinfo
        cases h
        refine simInv_silent hinv w k _ _ hk ?_ (fun h => by cases h)
        simp only [pending, hpc, hinfo]
        split <;> simp [toListE, Option.toList]
    · rename_i info hpc
      cases h
      by_cases hacc : info.victims > 0 ∧ info.location ≠ []
      · rw [if_pos hacc]
        refine simInv_silent hinv w k _ _ hk ?_ (fun h => by cases h)
        simp only [pending, hpc]
        rw [if_pos hacc]
      · rw [if_neg hacc]
        refine simInv_silent hinv w k _ _ hk ?_ (fun h => by cases h)
        simp only [pending, hpc, Worker.next]
        rw [if_neg hacc, appendE_ok_nil]
    · rename_i info hpc
      split at h
      · cases h
        have := simInv_silent hinv w k { k with pc := .push info } (some w) hk
          (by simp only [pending, hpc]) (fun h => by cases h)
        exact this
      · cases h
    · rename_i info hpc
      cases h
      refine simInv_push hinv w k _ info hk ?_ (fun h => by cases h)
      simp only [pending, hpc]
    · rename_i hpc
      cases h
      refine simInv_silent hinv w k _ _ hk ?_ (fun h => by cases h)
      simp only [pending, hpc, Worker.next]
    · cases h

theorem flattenE_runWorkers_cons (f : Nat → Except Failure (List ShootingInfo)) (i : Nat)
    (l : List Nat) :
    flattenE (runWorkers f (i :: l)) = appendE (f i) (flattenE (runWorkers f l)) := by
  simp only [runWorkers]
  cases f i with
  | error e => rfl
  | ok out =>
    cases runWorkers f l with
    | error e => rfl
    | ok outs => rfl

theorem pendingAll_map (uninit : Nat → Int) (items : List Item) (mk : Nat → Worker) :
    ∀ l : List Nat, pendingAll uninit items (l.map mk) =
      flattenE (runWorkers (fun i => pending uninit items (mk i)) l) := by
  intro l
  induction l with
  | nil => rfl
  | cons i l ih =>
    rw [flattenE_runWorkers_cons, List.map_cons, pendingAll, ih]

theorem pendingAll_done (uninit : Nat → Int) (items : List Item) :
    ∀ ws : List Worker, (∀ k ∈ ws, k.pc = .done) → pendingAll uninit items ws = .ok [] := by
  intro ws
  induction ws with
  | nil => intro _; rfl
  | cons k ws ih =>
    intro h
    have hk : pending uninit items k = .ok [] := by
      simp only [pending, h k (by simp)]
    rw [pendingAll, hk, ih (fun x hx => h x (by simp [hx]))]
    rfl

/-- When the threads have been created, the records still to be pushed are those of the
sequential loop. -/
theorem simInv_init (uninit : Nat → Int) (items : List Item) (all : List ShootingInfo)
    (W : Nat) (hW : 1 ≤ W) (hall : processLoop uninit items items.length 0 = .ok all) :
    SimInv uninit items all (initSys W items) := by
  refine ⟨rfl, ?_, all, ?_, by simp [initSys]⟩
  · intro k hk hpc
    simp only [initSys, List.mem_map] at hk
    obtain ⟨i, _, rfl⟩ := hk
    cases hpc
  · simp only [initSys]
    rw [pendingAll_map, ← hall, ← workers_all uninit items W hW]
    rfl

/-- The link with the sequential loop holds in every state reached under a schedule. -/
theorem simInv_runSchedule (uninit : Nat → Int) (items : List Item)
    (all : List ShootingInfo) : ∀ (sched : List Nat) (s : Sys),
    SimInv uninit items all s → SimInv uninit items all (runSchedule uninit items sched s) := by
  intro sched
  induction sched with
  | nil => intro s h; exact h
  | cons w sched ih =>
    intro s h
    simp only [runSchedule]
    split
    · rename_i s1 hs1
      exact ih s1 (simInv_step uninit items all w s s1 h hs1)
    · exact ih s h

/-- The transition system agrees with the batch function: when `processNewspaperImages`
returns a collection, no schedule of the workers terminates the program, and once all
workers have left their loops `data` is a rearrangement of that collection. -/
theorem runSchedule_refines_batch (W : Nat) (sched sched1 : List Nat) (uninit : Nat → Int)
    (items : List Item) (result : List ShootingInfo) (hW : 1 ≤ W)
    (hok : processNewspaperImages W sched1 uninit items = .ok result) :
    (runSchedule uninit items sched (initSys W items)).terminated = false ∧
    ((∀ k ∈ (runSchedule uninit items sched (initSys W items)).workers, k.pc = .done) →
      List.Perm (runSchedule uninit items sched (initSys W items)).data result) := by
  obtain ⟨e1, o1⟩ := processNewspaperImages_loop W sched1 uninit items hW
  cases hl : processLoop uninit items items.length 0 with
  | error e => rw [e1 e hl] at hok; cases hok
  | ok all =>
    obtain ⟨d, hd, hperm⟩ := o1 all hl
    rw [hok] at hd
    cases hd
    obtain ⟨ht, _, ps, hps, hp⟩ :=
      simInv_runSchedule uninit items all sched _ (simInv_init uninit items all W hW hl)
    refine ⟨ht, ?_⟩
    intro hdone
    rw [pendingAll_done uninit items _ hdone] at hps
    cases hps
    simp only [List.append_nil] at hp
    exact hp.trans hperm.symm

/-! ## Occurrences of a term in any letter case -/

theorem terms_lower_case : ∀ term ∈ terms, ∀ c ∈ term, ¬ (65 ≤ c.toNat ∧ c.toNat ≤ 90) := by
  decide

theorem tolower_eq_iff (a b : Char) (hb : ¬ (65 ≤ b.toNat ∧ b.toNat ≤ 90)) :
    tolower a = b ↔ sameLetter a b := by
  constructor
  · intro h
    by_cases ha : 65 ≤ a.toNat ∧ a.toNat ≤ 90
    · simp only [tolower, ha, and_self, if_true] at h
      have h1 : (Char.ofNat (a.toNat + 32)).toNat = a.toNat + 32 :=
        toNat_ofNat_small _ (by omega)
      rw [h] at h1
      exact Or.inr (Or.inl ⟨ha.1, ha.2, h1⟩)
    · simp only [tolower, ha, if_false] at h
      exact Or.inl h
  · rintro (rfl | ⟨h1, h2, h3⟩ | ⟨h1, h2, _⟩)
    · simp only [tolower, hb, if_false]
    · have : tolower a = Char.ofNat (a.toNat + 32) := by
        simp only [tolower, h1, h2, and_self, if_true]
      rw [this, ← h3, Char.ofNat_toNat]
    · exact absurd ⟨h1, h2⟩ hb

theorem lowerText_eq_iff : ∀ (w term : Str), (∀ c ∈ term, ¬ (65 ≤ c.toNat ∧ c.toNat ≤ 90)) →
    (lowerText w = term ↔ InSomeCase w term) := by
  intro w
  induction w with
  | nil =>
    intro term _
    cases term with
    | nil => simp [lowerText, InSomeCase]
    | cons b term => simp [lowerText, InSomeCase]
  | cons a w ih =>
    intro term hterm
    cases term with
    | nil => simp [lowerText, InSomeCase]
    | cons b term =>
      have hb := hterm b (by simp)
      have hrec := ih term (fun c hc => hterm c (by simp [hc]))
      simp only [lowerText, InSomeCase, List.map_cons, List.cons.injEq,
        List.forall₂_cons] at hrec ⊢
      rw [tolower_eq_iff a b hb, hrec]

/-- The classifier in terms of the text itself: some substring of the text is a term of
the vocabulary in some letter case. -/
theorem containsRelevantTerms_iff_occurrence (text : Str) :
    containsRelevantTerms text = true ↔
      ∃ term ∈ terms, ∃ w, w <:+: text ∧ InSomeCase w term := by
  rw [containsRelevantTerms_iff]
  constructor
  · rintro ⟨term, hterm, hin⟩
    obtain ⟨w, hw, hmap⟩ := (infix_map_iff tolower term text).mp hin
    exact ⟨term, hterm, w, hw, (lowerText_eq_iff w term (terms_lower_case term hterm)).mp hmap⟩
  · rintro ⟨term, hterm, w, hw, hcase⟩
    exact ⟨term, hterm, (infix_map_iff tolower term text).mpr
      ⟨w, hw, (lowerText_eq_iff w term (terms_lower_case term hterm)).mpr hcase⟩⟩

/-! ## The greedy choice of the location pattern -/

theorem starLoop_greedy_isSome (step : MState → (MState → Option MState) → Option MState)
    (k : MState → Option MState) (hk : ∀ s, (k s).isSome = true) :
    ∀ (n : Nat) (s : MState), (starLoop true step n s k).isSome = true := by
  intro n s
  cases n with
  | zero => simpa [starLoop] using hk s
  | succ n =>
    simp only [starLoop, if_true]
    split
    · rfl
    · exact hk s

theorem run_cls_nil (c : CharClass) (s : MState) (k : MState → Option MState)
    (hs : s.rest = []) : run (.cls c) s k = none := by
  rw [run]
  simp only [hs]

theorem run_cls_cons (c : CharClass) (s : MState) (k : MState → Option MState) (x : Char)
    (t : Str) (hs : s.rest = x :: t) :
    run (.cls c) s k = if c.test x = true then k ⟨x :: s.before, t, s.caps⟩ else none := by
  rw [run]
  simp only [hs]

/-- A greedy repetition of a one-character atom, before a continuation that succeeds
wherever it is entered, passes the whole run of characters of the atom. -/
theorem starLoop_greedy_cls (c : CharClass) (k : MState → Option MState) :
    ∀ (n : Nat) (s : MState), s.rest.length ≤ n →
      (∀ s1 : MState, s1.rest.length ≤ s.rest.length → (k s1).isSome = true) →
      ∃ body s1, Adv s body s1 ∧ (∀ x ∈ body, c.test x = true) ∧
        (∀ x t, s1.rest = x :: t → c.test x = false) ∧
        starLoop true (run (.cls c)) n s k = k s1 := by
  intro n
  induction n with
  | zero =>
    intro s hn _
    have hs : s.rest = [] := List.length_eq_zero.mp (by omega)
    refine ⟨[], s, (Adv.nil_iff _ _).mpr rfl, by simp, ?_, rfl⟩
    intro x t h
    rw [hs] at h
    cases h
  | succ n ih =>
    intro s hn hk
    cases hs : s.rest with
    | nil =>
      refine ⟨[], s, (Adv.nil_iff _ _).mpr rfl, by simp, ?_, ?_⟩
      · intro x t h
        rw [hs] at h
        cases h
      · simp only [starLoop, if_true]
        rw [run_cls_nil c s _ hs]
    | cons x t =>
      by_cases hc : c.test x = true
      · have hlen : t.length ≤ n := by
          rw [hs] at hn
          simpa using hn
        obtain ⟨body, s1, hadv, hbody, hstop, heq⟩ := ih ⟨x :: s.before, t, s.caps⟩ hlen
          (fun s1 h1 => hk s1 (by
            rw [hs]
            simp only [List.length_cons] at h1 ⊢
            omega))
        have hs1 : s1.rest.length ≤ s.rest.length := by
          have := congrArg List.length hadv.1
          simp only [List.length_append] at this
          rw [hs]
          simp only [List.length_cons]
          omega
        have hsome := hk s1 hs1
        refine ⟨x :: body, s1, ?_, ?_, hstop, ?_⟩
        · have hstep : Adv s [x] ⟨x :: s.before, t, s.caps⟩ := ⟨by simp [hs], rfl, rfl⟩
          simpa using hstep.trans hadv
        · simpa [hc] using hbody
        · simp only [starLoop, if_true]
          rw [run_cls_cons c s _ x t hs]
          simp only [hc, if_true, hs, List.length_cons, Nat.lt_succ_self]
          rw [heq]
          cases hk1 : k s1 with
          | none =>
            rw [hk1] at hsome
            cases hsome
          | some r => rfl
      · refine ⟨[], s, (Adv.nil_iff _ _).mpr rfl, by simp, ?_, ?_⟩
        · intro y t1 h
          rw [hs] at h
          cases h
          simpa using hc
        · simp only [starLoop, if_true]
          rw [run_cls_cons c s _ x t hs]
          simp only [hc]
          simp

theorem adv_length {s s1 : MState} {w : Str} (h : Adv s w s1) :
    s.rest.length = w.length + s1.rest.length := by
  have := congrArg List.length h.1
  simpa using this

/-- The capitalised-word part of the location pattern, before a continuation that
succeeds wherever it is entered further on: either no word starts here and the part
fails, or the part passes the greedy word and hands over to the continuation. -/
theorem run_capWord_greedy (s : MState) (kk : MState → Option MState)
    (hkk : ∀ s1 : MState, s1.rest.length < s.rest.length → (kk s1).isSome = true) :
    (∃ w s1, GreedyWord w s1.rest ∧ Adv s w s1 ∧
      run (Regex.seqs [.cls .upper, .plus (.cls .lower), .star true (.cls .space)]) s kk =
        kk s1) ∨
    (NoWordAt s.rest ∧
      run (Regex.seqs [.cls .upper, .plus (.cls .lower), .star true (.cls .space)]) s kk =
        none) := by
  have hrun : run (Regex.seqs [.cls .upper, .plus (.cls .lower), .star true (.cls .space)])
      s kk =
      run (.cls .upper) s (fun s1 => run (.cls .lower) s1 (fun s2 =>
        starLoop true (run (.cls .lower)) s2.rest.length s2 (fun s3 =>
          starLoop true (run (.cls .space)) s3.rest.length s3 kk))) := rfl
  cases hs : s.rest with
  | nil =>
    right
    refine ⟨?_, ?_⟩
    · intro u l t h
      cases h
    · rw [hrun]
      exact run_cls_nil _ _ _ hs
  | cons u t0 =>
    by_cases hu : isUpper u = true
    · cases t0 with
      | nil =>
        right
        refine ⟨?_, ?_⟩
        · intro u1 l t h
          cases h
        · rw [hrun, run_cls_cons _ s _ u [] hs]
          simp only [CharClass.test, hu, if_true]
          exact run_cls_nil _ _ _ rfl
      | cons l t1 =>
        by_cases hl : isLower l = true
        · left
          have hspace : ∀ s3 : MState, s3.rest.length ≤ t1.length →
              ∃ ws s4, Adv s3 ws s4 ∧ (∀ x ∈ ws, isSpace x = true) ∧
                (∀ x t, s4.rest = x :: t → isSpace x = false) ∧
                starLoop true (run (.cls .space)) s3.rest.length s3 kk = kk s4 ∧
                (kk s4).isSome = true := by
            intro s3 h3
            obtain ⟨ws, s4, a, hws, hstop, e⟩ := starLoop_greedy_cls .space kk
              s3.rest.length s3 (Nat.le_refl _)
              (fun s1 h1 => hkk s1 (by
                rw [hs]
                simp only [List.length_cons]
                omega))
            refine ⟨ws, s4, a, hws, hstop, e, hkk s4 ?_⟩
            have := adv_length a
            rw [hs]
            simp only [List.length_cons]
            omega
          obtain ⟨ls, s3, a2, hls, hstop2, e2⟩ := starLoop_greedy_cls .lower
            (fun s3 => starLoop true (run (.cls .space)) s3.rest.length s3 kk) t1.length
            ⟨l :: u :: s.before, t1, s.caps⟩ (Nat.le_refl _)
            (fun s1 h1 => by
              obtain ⟨_, s4, _, _, _, e, hsome⟩ := hspace s1 h1
              show (starLoop true (run (.cls .space)) s1.rest.length s1 kk).isSome = true
              rw [e]
              exact hsome)
          have h3 : s3.rest.length ≤ t1.length := by
            have := adv_length a2
            simp only at this
            omega
          obtain ⟨ws, s4, a3, hws, hstop3, e3, _⟩ := hspace s3 h3
          refine ⟨u :: (l :: ls) ++ ws, s4, ?_, ?_, ?_⟩
          · refine ⟨u, l :: ls, ws, rfl, hu, by simp, ?_, hws, ?_, hstop3⟩
            · intro c hc
              rcases List.mem_cons.mp hc with rfl | hc
              · exact hl
              · exact hls c hc
            · intro x t hx
              rw [← a3.1] at hx
              exact hstop2 x t hx
          · have a1 : Adv s [u, l] ⟨l :: u :: s.before, t1, s.caps⟩ :=
              ⟨by simp [hs], rfl, rfl⟩
            simpa using (a1.trans a2).trans a3
          · rw [hrun, run_cls_cons _ s _ u (l :: t1) hs]
            simp only [CharClass.test, hu, if_true]
            rw [run_cls_cons _ _ _ l t1 rfl]
            simp only [CharClass.test, hl, if_true]
            exact e2.trans e3
        · right
          refine ⟨?_, ?_⟩
          · intro u1 l1 t h _
            cases h
            simpa using hl
          · rw [hrun, run_cls_cons _ s _ u (l :: t1) hs]
            simp only [CharClass.test, hu, if_true]
            rw [run_cls_cons _ _ _ l t1 rfl]
            simp only [CharClass.test, hl]
            simp
    · right
      refine ⟨?_, ?_⟩
      · intro u1 l1 t h hu1
        cases h
        exact absurd hu1 hu
      · rw [hrun, run_cls_cons _ s _ u t0 hs]
        simp only [CharClass.test, hu]
        simp

/-- The greedy repetition of the capitalised-word part, before a continuation that always
succeeds, takes the greedy words and stops where no word starts. -/
theorem starLoop_capWord_greedy (K : MState → Option MState)
    (hK : ∀ s, (K s).isSome = true) :
    ∀ (n : Nat) (s : MState), s.rest.length ≤ n →
      ∃ wl s1, GreedyWords s.rest wl s1.rest ∧ Adv s wl.flatten s1 ∧
        starLoop true
          (run (Regex.seqs [.cls .upper, .plus (.cls .lower), .star true (.cls .space)]))
          n s K = K s1 := by
  intro n
  induction n with
  | zero =>
    intro s hn
    have hs : s.rest = [] := List.length_eq_zero.mp (by omega)
    refine ⟨[], s, ?_, (Adv.nil_iff _ _).mpr rfl, rfl⟩
    apply GreedyWords.nil
    intro u l t h
    rw [hs] at h
    cases h
  | succ n ih =>
    intro s hn
    have hstar : ∀ s1 : MState, (starLoop true
        (run (Regex.seqs [.cls .upper, .plus (.cls .lower), .star true (.cls .space)]))
        n s1 K).isSome = true := starLoop_greedy_isSome _ K hK n
    rcases run_capWord_greedy s (fun s1 => if s1.rest.length < s.rest.length then
        starLoop true
          (run (Regex.seqs [.cls .upper, .plus (.cls .lower), .star true (.cls .space)]))
          n s1 K else none)
        (fun s1 h1 => by simp only [h1, if_true]; exact hstar s1) with
      ⟨w, s1, hw, a1, e1⟩ | ⟨hno, e1⟩
    · have hwlen : 0 < w.length := by
        obtain ⟨u, ls, ws, rfl, _⟩ := hw
        simp
      have hlt : s1.rest.length < s.rest.length := by
        have := adv_length a1
        omega
      obtain ⟨wl, s2, hwl, a2, e2⟩ := ih s1 (by omega)
      refine ⟨w :: wl, s2, ?_, ?_, ?_⟩
      · rw [a1.1]
        exact GreedyWords.cons w s1.rest wl s2.rest hw hwl
      · simpa using a1.trans a2
      · simp only [starLoop, if_true]
        rw [e1]
        simp only [hlt, if_true]
        rw [e2]
        cases hk : K s2 with
        | none =>
          have := hK s2
          rw [hk] at this
          cases this
        | some r => rfl
    · refine ⟨[], s, GreedyWords.nil _ hno, (Adv.nil_iff _ _).mpr rfl, ?_⟩
      simp only [starLoop, if_true]
      rw [e1]

/-- What the matcher returns for the location pattern at a position: "in", white space,
the greedy words, and the region code if one follows them. -/
theorem location_run_greedy {s f : MState} (h : run locationPattern s some = some f) :
    ∃ ws wl r s1 s2 s4 s5, Adv s ['i', 'n'] s1 ∧ ws ≠ [] ∧ (∀ x ∈ ws, isSpace x = true) ∧
      Adv s1 ws s2 ∧ wl ≠ [] ∧ GreedyWords s2.rest wl s4.rest ∧ Adv s2 wl.flatten s4 ∧
      Adv s4 r s5 ∧ (RegionCode r ∨ (r = [] ∧ ∀ r1 p, RegionCode r1 → s4.rest ≠ r1 ++ p)) ∧
      f = s5.close 1 s2 := by
  have h1 : run (Regex.lit ['i', 'n']) s (fun s1 =>
      run (Regex.plus (.cls .space)) s1 (fun s2 =>
        run (Regex.seqs [.cls .upper, .plus (.cls .lower), .star true (.cls .space)]) s2
          (fun s3 => starLoop true
            (run (Regex.seqs [.cls .upper, .plus (.cls .lower), .star true (.cls .space)]))
            s3.rest.length s3 (fun s4 =>
              match run (Regex.seqs [.cls (.lit ','), .star true (.cls .space), .cls .upper,
                  .cls .upper]) s4 (fun s5 => some (s5.close 1 s2)) with
              | some r => some r
              | none => some (s4.close 1 s2))))) = some f := h
  obtain ⟨s1, hm1, hk1⟩ := run_sound _ _ _ _ h1
  have a1 := (matches_lit_iff _ _ _).mp hm1
  obtain ⟨s2, hm2, hk2⟩ := run_sound _ _ _ _ hk1
  obtain ⟨ws, hne, hws, a2⟩ := (matches_plus_cls_iff _ _ _).mp hm2
  have hK : ∀ s4 : MState, (match run (Regex.seqs [.cls (.lit ','),
      .star true (.cls .space), .cls .upper, .cls .upper]) s4
        (fun s5 => some (s5.close 1 s2)) with
      | some r => some r
      | none => some (s4.close 1 s2)).isSome = true := by
    intro s4
    split <;> rfl
  rcases run_capWord_greedy s2 (fun s3 => starLoop true
      (run (Regex.seqs [.cls .upper, .plus (.cls .lower), .star true (.cls .space)]))
      s3.rest.length s3 (fun s4 =>
        match run (Regex.seqs [.cls (.lit ','), .star true (.cls .space), .cls .upper,
            .cls .upper]) s4 (fun s5 => some (s5.close 1 s2)) with
        | some r => some r
        | none => some (s4.close 1 s2)))
      (fun s3 _ => starLoop_greedy_isSome _ _ hK _ _) with ⟨w, s3, hw, a3, e3⟩ | ⟨_, e3⟩
  · obtain ⟨wl, s4, hwl, a4, e4⟩ := starLoop_capWord_greedy _ hK s3.rest.length s3
      (Nat.le_refl _)
    have hk3 : (match run (Regex.seqs [.cls (.lit ','), .star true (.cls .space), .cls .upper,
        .cls .upper]) s4 (fun s5 => some (s5.close 1 s2)) with
      | some r => some r
      | none => some (s4.close 1 s2)) = some f := by
      rw [← e4, ← e3]
      exact hk2
    have hgw : GreedyWords s2.rest (w :: wl) s4.rest := by
      rw [a3.1]
      exact GreedyWords.cons w s3.rest wl s4.rest hw hwl
    have a34 : Adv s2 (w :: wl).flatten s4 := by simpa using a3.trans a4
    cases hr : run (Regex.seqs [.cls (.lit ','), .star true (.cls .space), .cls .upper,
        .cls .upper]) s4 (fun s5 => some (s5.close 1 s2)) with
    | some r0 =>
      rw [hr] at hk3
      simp only [Option.some.injEq] at hk3
      subst hk3
      obtain ⟨s5, hm5, hk5⟩ := run_sound _ _ _ _ hr
      obtain ⟨r, hrc, a5⟩ := (matches_regionCode_iff _ _).mp hm5
      simp only [Option.some.injEq] at hk5
      exact ⟨ws, w :: wl, r, s1, s2, s4, s5, a1, hne, hws, a2, by simp, hgw, a34, a5,
        Or.inl hrc, hk5.symm⟩
    | none =>
      rw [hr] at hk3
      simp only [Option.some.injEq] at hk3
      refine ⟨ws, w :: wl, [], s1, s2, s4, s4, a1, hne, hws, a2, by simp, hgw, a34,
        (Adv.nil_iff _ _).mpr rfl, Or.inr ⟨rfl, ?_⟩, hk3.symm⟩
      intro r1 p hrc hp
      have hm : Matches (Regex.seqs [.cls (.lit ','), .star true (.cls .space), .cls .upper,
          .cls .upper]) s4 ⟨r1.reverse ++ s4.before, p, s4.caps⟩ :=
        (matches_regionCode_iff _ _).mpr ⟨r1, hrc, ⟨hp, rfl, rfl⟩⟩
      have := run_complete _ _ _ (fun s5 => some (s5.close 1 s2)) hm rfl
      rw [hr] at this
      cases this
  · have hk2' : run (Regex.seqs [.cls .upper, .plus (.cls .lower),
        .star true (.cls .space)]) s2 (fun s3 => starLoop true
        (run (Regex.seqs [.cls .upper, .plus (.cls .lower), .star true (.cls .space)]))
        s3.rest.length s3 (fun s4 =>
          match run (Regex.seqs [.cls (.lit ','), .star true (.cls .space), .cls .upper,
              .cls .upper]) s4 (fun s5 => some (s5.close 1 s2)) with
          | some r => some r
          | none => some (s4.close 1 s2))) = some f := hk2
    rw [e3] at hk2'
    cases hk2'

theorem isLower_not_space {c : Char} (h : isLower c = true) : isSpace c = false := by
  simp only [isLower, Bool.and_eq_true, decide_eq_true_eq] at h
  simp only [isSpace, Bool.or_eq_false_iff, Bool.and_eq_false_iff, decide_eq_false_iff_not,
    beq_eq_false_iff_ne]
  omega

theorem isUpper_not_space {c : Char} (h : isUpper c = true) : isSpace c = false := by
  simp only [isUpper, Bool.and_eq_true, decide_eq_true_eq] at h
  simp only [isSpace, Bool.or_eq_false_iff, Bool.and_eq_false_iff, decide_eq_false_iff_not,
    beq_eq_false_iff_ne]
  omega

theorem isUpper_not_lower {c : Char} (h : isUpper c = true) : isLower c = false := by
  simp only [isUpper, Bool.and_eq_true, decide_eq_true_eq] at h
  simp only [isLower, Bool.and_eq_false_iff, decide_eq_false_iff_not]
  omega

theorem ne_comma_of_class {c : Char}
    (h : isUpper c = true ∨ isLower c = true ∨ isSpace c = true) : c ≠ ',' := by
  rintro rfl
  revert h
  decide

/-- A run of characters of a class at the front of a string is a prefix of the whole run
of such characters there. -/
theorem run_isPrefix (p : Char → Bool) : ∀ (a1 a r r1 : Str),
    (∀ c ∈ a1, p c = true) → (∀ x t, r = x :: t → p x = false) → a ++ r = a1 ++ r1 →
    ∃ t, a = a1 ++ t ∧ r1 = t ++ r := by
  intro a1
  induction a1 with
  | nil =>
    intro a r r1 _ _ h
    exact ⟨a, rfl, by simpa using h.symm⟩
  | cons y a1 ih =>
    intro a r r1 ha1 hr h
    cases a with
    | nil =>
      exfalso
      simp only [List.nil_append, List.cons_append] at h
      have := hr y _ h
      rw [ha1 y (by simp)] at this
      cases this
    | cons x a =>
      simp only [List.cons_append, List.cons.injEq] at h
      obtain ⟨rfl, h⟩ := h
      obtain ⟨t, rfl, rfl⟩ := ih a r r1 (fun c hc => ha1 c (by simp [hc])) hr h
      exact ⟨t, rfl, rfl⟩

theorem greedyWords_flatten {rest : Str} {wl : List Str} {rest1 : Str}
    (h : GreedyWords rest wl rest1) : (∀ w ∈ wl, CapWord w) ∧ rest = wl.flatten ++ rest1 := by
  induction h with
  | nil rest _ => exact ⟨by simp, by simp⟩
  | cons w rest1 wl rest2 hw _ ih =>
    obtain ⟨u, ls, ws, rfl, hu, hne, hls, hws, _, _⟩ := hw
    refine ⟨?_, by simp [ih.2]⟩
    intro w1 hw1
    rcases List.mem_cons.mp hw1 with rfl | hw1
    · exact ⟨u, ls, ws, rfl, hu, hne, hls, hws⟩
    · exact ih.1 w1 hw1

/-- Capitalised words read from the front of a string never go past the greedy words: they
end where the greedy words end, or earlier and then in front of a letter or a white-space
character. -/
theorem greedyWords_longest {rest : Str} {wl : List Str} {rest1 : Str}
    (h : GreedyWords rest wl rest1) :
    ∀ (wl1 : List Str) (rest2 : Str), (∀ w ∈ wl1, CapWord w) → rest = wl1.flatten ++ rest2 →
      (wl1.flatten = wl.flatten ∧ rest2 = rest1) ∨
      ∃ t x t1, wl.flatten = wl1.flatten ++ t ∧ rest2 = x :: t1 ∧ x ≠ ',' := by
  induction h with
  | nil rest hno =>
    intro wl1 rest2 hcap heq
    cases wl1 with
    | nil => exact Or.inl ⟨rfl, by simpa using heq.symm⟩
    | cons w1 wl1 =>
      exfalso
      obtain ⟨u, ls, ws, rfl, hu, hne, hls, _⟩ := hcap w1 (by simp)
      cases ls with
      | nil => exact hne rfl
      | cons l ls =>
        have := hno u l _ (by simpa using heq) hu
        rw [hls l (by simp)] at this
        cases this
  | cons w rest1 wl rest2g hw hws ih =>
    intro wl1 rest2 hcap heq
    obtain ⟨u, ls, ws, rfl, hu, hne, hls, hws', hmaxl, hmaxs⟩ := hw
    cases wl1 with
    | nil =>
      refine Or.inr ⟨(u :: ls ++ ws) ++ wl.flatten, u, ls ++ ws ++ rest1, by simp, ?_,
        ne_comma_of_class (Or.inl hu)⟩
      simpa using heq.symm
    | cons w1 wl1 =>
      obtain ⟨u1, ls1, ws1, rfl, hu1, hne1, hls1, hws1⟩ := hcap w1 (by simp)
      have hcap1 : ∀ w ∈ wl1, CapWord w := fun w hw => hcap w (by simp [hw])
      simp only [List.flatten_cons, List.cons_append, List.append_assoc, List.cons.injEq]
        at heq
      obtain ⟨rfl, heq⟩ := heq
      obtain ⟨t, hlt, hr1⟩ := run_isPrefix isLower ls1 ls (ws ++ rest1)
        (ws1 ++ (wl1.flatten ++ rest2)) hls1 hmaxl heq
      cases t with
      | cons x t =>
        have hx : isLower x = true := hls x (by simp [hlt])
        cases ws1 with
        | cons y ws1 =>
          exfalso
          simp only [List.cons_append, List.cons.injEq] at hr1
          have := hws1 y (by simp)
          rw [hr1.1, isLower_not_space hx] at this
          cases this
        | nil =>
          cases wl1 with
          | cons w2 wl2 =>
            exfalso
            obtain ⟨u2, ls2, ws2, rfl, hu2, _⟩ := hcap1 w2 (by simp)
            simp only [List.nil_append, List.flatten_cons, List.cons_append,
              List.cons.injEq] at hr1
            rw [← hr1.1, isUpper_not_lower hu2] at hx
            cases hx
          | nil =>
            simp only [List.nil_append, List.flatten_nil] at hr1
            refine Or.inr ⟨x :: t ++ ws ++ wl.flatten, x, t ++ (ws ++ rest1), ?_, hr1,
              ne_comma_of_class (Or.inr (Or.inl hx))⟩
            simp [hlt]
      | nil =>
        simp only [List.append_nil, List.nil_append] at hlt hr1
        subst hlt
        obtain ⟨t2, hws2, hr2⟩ := run_isPrefix isSpace ws1 ws rest1
          (wl1.flatten ++ rest2) hws1 hmaxs hr1.symm
        cases t2 with
        | cons x t2 =>
          have hx : isSpace x = true := hws' x (by simp [hws2])
          cases wl1 with
          | cons w2 wl2 =>
            exfalso
            obtain ⟨u2, ls2, ws2, rfl, hu2, _⟩ := hcap1 w2 (by simp)
            simp only [List.flatten_cons, List.cons_append, List.cons.injEq] at hr2
            rw [← hr2.1, isUpper_not_space hu2] at hx
            cases hx
          | nil =>
            simp only [List.nil_append, List.flatten_nil] at hr2
            refine Or.inr ⟨x :: t2 ++ wl.flatten, x, t2 ++ rest1, ?_, hr2,
              ne_comma_of_class (Or.inr (Or.inr hx))⟩
            simp [hws2]
        | nil =>
          simp only [List.append_nil, List.nil_append] at hws2 hr2
          subst hws2
          rcases ih wl1 rest2 hcap1 hr2.symm with ⟨hf, hrest⟩ | ⟨t, x, t1, hf, hrest, hx⟩
          · exact Or.inl ⟨by simp [hf], hrest⟩
          · exact Or.inr ⟨t, x, t1, by simp [hf], hrest, hx⟩

theorem regionCode_unique {r r1 p p1 : Str} (h : RegionCode r) (h1 : RegionCode r1)
    (heq : r ++ p = r1 ++ p1) : r = r1 := by
  obtain ⟨ws, a, b, rfl, hws, ha, _⟩ := h
  obtain ⟨ws1, a1, b1, rfl, hws1, ha1, _⟩ := h1
  simp only [List.cons_append, List.append_assoc, List.cons.injEq, true_and] at heq
  have hh : ∀ (c0 : Char) (t : Str), isUpper c0 = true → ∀ c, (c0 :: t).head? = some c →
      isSpace c = false := by
    intro c0 t hc0 c hc
    simp only [List.head?_cons, Option.some.injEq] at hc
    subst hc
    exact isUpper_not_space hc0
  obtain ⟨rfl, hrest⟩ := run_unique isSpace ws ws1 _ _ hws hws1 (hh a _ ha) (hh a1 _ ha1) heq
  simp only [List.cons.injEq] at hrest
  obtain ⟨rfl, rfl, _⟩ := hrest
  rfl

/-- What a successful search for the location pattern captures: the capture of the
occurrence of the location phrase at the leftmost position where the phrase occurs that
every other capture at that position is a prefix of. -/
theorem location_search_longest {text : Str} {m : SMatch}
    (h : regex_search text locationPattern = some m) :
    ∃ pre, LocationPhraseAt text pre (m.sub 1) ∧
      (∀ pre1 c1, LocationPhraseAt text pre1 c1 → pre.length ≤ pre1.length) ∧
      ∀ c1, LocationPhraseAt text pre c1 → c1 <+: m.sub 1 := by
  obtain ⟨pre, f, hmatch, hrun, rfl, hleft⟩ := regex_search_eq_some text locationPattern m h
  obtain ⟨post, htext, _⟩ := hmatch
  have hdrop : text.drop pre.length = post := by simp [htext]
  rw [hdrop] at hrun
  obtain ⟨ws, wl, r, s1, s2, s4, s5, a1, hne, hws, a2, hwlne, hgw, a4, a5, hr, rfl⟩ :=
    location_run_greedy hrun
  obtain ⟨hcap, _⟩ := greedyWords_flatten hgw
  obtain ⟨r1, b1, c1⟩ := a1
  obtain ⟨r2, b2, c2⟩ := a2
  obtain ⟨r4, b4, c4⟩ := a4
  obtain ⟨r5, b5, c5⟩ := a5
  simp only at r1 b1 c1
  have htext' : text = (pre ++ ['i', 'n'] ++ ws) ++ (wl.flatten ++ r) ++ s5.rest := by
    rw [htext, r1, r2, r4, r5]
    simp
  have hphrase : LocationPhrase (wl.flatten ++ r) := by
    refine ⟨wl, r, rfl, hwlne, hcap, ?_⟩
    rcases hr with hr | ⟨hr, _⟩
    · exact Or.inr hr
    · exact Or.inl hr
  have hsub : SMatch.sub ⟨text, pre.length, (s5.close 1 s2).before.length,
      (s5.close 1 s2).caps⟩ 1 = wl.flatten ++ r := by
    simp only [SMatch.sub, MState.close, List.lookup, beq_self_eq_true, b5, b4, b2, b1]
    have hl : (r.reverse ++ (wl.flatten.reverse ++ (ws.reverse ++
        (List.reverse ['i', 'n'] ++ pre.reverse)))).length =
        (pre ++ ['i', 'n'] ++ ws).length + (wl.flatten ++ r).length := by
      simp only [List.length_append, List.length_reverse, List.length_cons, List.length_nil]
      omega
    have hl2 : (ws.reverse ++ (List.reverse ['i', 'n'] ++ pre.reverse)).length =
        (pre ++ ['i', 'n'] ++ ws).length := by
      simp only [List.length_append, List.length_reverse, List.length_cons, List.length_nil]
      omega
    rw [hl, hl2, htext']
    exact slice_append _ _ _
  rw [hsub]
  refine ⟨pre, ⟨ws, s5.rest, htext', hne, hws, hphrase⟩, ?_, ?_⟩
  · intro pre1 c1 h1
    obtain ⟨f1, hf1⟩ := matchAt_of_locationPhraseAt h1
    exact hleft pre1 f1 hf1
  · rintro c1 ⟨ws1, post1, htext1, hne1, hws1, hc1⟩
    obtain ⟨u1, t1, hu1, hup1⟩ := locationPhrase_head hc1
    obtain ⟨u0, t0, hu0, hup0⟩ := locationPhrase_head hphrase
    obtain ⟨wl1, q1, rfl, hwl1ne, hcap1, hq1⟩ := hc1
    have heq : ws ++ ((wl.flatten ++ r) ++ s5.rest) =
        ws1 ++ ((wl1.flatten ++ q1) ++ post1) := by
      have := htext'.symm.trans htext1
      simpa using this
    have hh : ∀ (c0 : Char) (t : Str), isUpper c0 = true → ∀ c, (c0 :: t).head? = some c →
        isSpace c = false := by
      intro c0 t hc0 c hc
      simp only [List.head?_cons, Option.some.injEq] at hc
      subst hc
      exact isUpper_not_space hc0
    obtain ⟨hwsw, hrest⟩ := run_unique isSpace ws ws1 _ _ hws hws1
      (by rw [hu0]; exact hh u0 _ hup0) (by rw [hu1]; exact hh u1 _ hup1) heq
    have hs2 : s2.rest = wl1.flatten ++ (q1 ++ post1) := by
      rw [r4, r5]
      simpa using hrest
    rcases greedyWords_longest hgw wl1 (q1 ++ post1) hcap1 hs2 with
      ⟨hf, hrest1⟩ | ⟨t, x, t1, hf, hx, hxne⟩
    · rcases hq1 with rfl | hq1
      · rw [hf]
        simp only [List.append_nil]
        exact List.prefix_append _ _
      · rcases hr with hr | ⟨_, hno⟩
        · rw [r5] at hrest1
          have := regionCode_unique hq1 hr hrest1
          rw [hf, this]
        · exact absurd hrest1.symm (hno q1 post1 hq1)
    · rcases hq1 with rfl | hq1
      · rw [hf]
        simp only [List.append_nil, List.append_assoc]
        exact List.prefix_append _ _
      · obtain ⟨ws2, a, b, rfl, _⟩ := hq1
        simp only [List.cons_append, List.cons.injEq] at hx
        exact absurd hx.1.symm hxne

/-! ## Runs that find the same values where the uninitialised field is read -/

theorem extractShootingInfo_congr_read (u v : Int) (text source : Str)
    (h : regex_search text victimsPattern = none → u = v) :
    extractShootingInfo u text source = extractShootingInfo v text source := by
  cases hs : regex_search text victimsPattern with
  | none =>
    rw [h hs]
  | some m =>
    simp only [extractShootingInfo, hs]

theorem processItem_congr_read (u v : Int) (item : Item)
    (h : containsRelevantTerms item.ocrText = true →
      regex_search item.ocrText victimsPattern = none → u = v) :
    processItem u item = processItem v item := by
  cases hrel : containsRelevantTerms item.ocrText with
  | false => simp only [processItem, hrel, Bool.false_eq_true, if_false]
  | true =>
    simp only [processItem, hrel, if_true,
      extractShootingInfo_congr_read u v item.ocrText item.filename (h hrel)]

theorem loopFrom_congr_read (u v : Nat → Int) : ∀ (l : List Item) (i j : Nat),
    (∀ k item, l[k]? = some item → containsRelevantTerms item.ocrText = true →
      regex_search item.ocrText victimsPattern = none → u (i + k) = v (j + k)) →
    loopFrom u i l = loopFrom v j l := by
  intro l
  induction l with
  | nil => intro i j _; rfl
  | cons item l ih =>
    intro i j h
    have h0 : processItem (u i) item = processItem (v j) item :=
      processItem_congr_read _ _ _ (fun hrel hno => by simpa using h 0 item (by simp) hrel hno)
    have hrec : loopFrom u (i + 1) l = loopFrom v (j + 1) l := by
      apply ih
      intro k item1 hk hrel hno
      have := h (k + 1) item1 (by simpa using hk) hrel hno
      rw [show i + 1 + k = i + (k + 1) by omega, show j + 1 + k = j + (k + 1) by omega]
      exact this
    simp only [loopFrom, h0, hrec]

/-- Two runs whose sequential loops agree have the same outcome up to the order of the
records, whatever the worker counts and the interleavings. -/
theorem batch_same_outcome (W1 W2 : Nat) (s1 s2 : List Nat) (u1 u2 : Nat → Int)
    (items1 items2 : List Item) (h1 : 1 ≤ W1) (h2 : 1 ≤ W2)
    (hloop : processLoop u1 items1 items1.length 0 = processLoop u2 items2 items2.length 0) :
    (∀ d1, processNewspaperImages W1 s1 u1 items1 = .ok d1 →
      ∃ d2, processNewspaperImages W2 s2 u2 items2 = .ok d2 ∧ d1.Perm d2) ∧
    (∀ e, processNewspaperImages W1 s1 u1 items1 = .error e →
      processNewspaperImages W2 s2 u2 items2 = .error e) := by
  obtain ⟨e1, o1⟩ := processNewspaperImages_loop W1 s1 u1 items1 h1
  obtain ⟨e2, o2⟩ := processNewspaperImages_loop W2 s2 u2 items2 h2
  constructor
  · intro d1 hd1
    cases hl : processLoop u1 items1 items1.length 0 with
    | error e => rw [e1 e hl] at hd1; cases hd1
    | ok all =>
      obtain ⟨d1', hd1', hp1⟩ := o1 all hl
      obtain ⟨d2, hd2, hp2⟩ := o2 all (by rw [← hloop, hl])
      rw [hd1] at hd1'
      cases hd1'
      exact ⟨d2, hd2, hp1.trans hp2.symm⟩
  · intro e he
    cases hl : processLoop u1 items1 items1.length 0 with
    | error e0 =>
      rw [e1 e0 hl] at he
      cases he
      exact e2 _ (by rw [← hloop, hl])
    | ok all =>
      obtain ⟨d1', hd1', _⟩ := o1 all hl
      rw [he] at hd1'
      cases hd1'

theorem processLoop_congr_read (u v : Nat → Int) (items : List Item)
    (h : ∀ i item, items[i]? = some item → containsRelevantTerms item.ocrText = true →
      regex_search item.ocrText victimsPattern = none → u i = v i) :
    processLoop u items items.length 0 = processLoop v items items.length 0 := by
  rw [processLoop_eq_loopFrom u _ _ 0 (by simp), processLoop_eq_loopFrom v _ _ 0 (by simp)]
  simp only [List.drop_zero]
  apply loopFrom_congr_read
  intro k item hk hrel hno
  simpa using h k item hk hrel hno

/-- With one worker the batch is the loop of `processImagesThread` over all images. -/
theorem processNewspaperImages_one (s : List Nat) (u : Nat → Int) (items : List Item) :
    processNewspaperImages 1 s u items = processImagesThread u items 0 items.length := by
  simp only [processNewspaperImages, Nat.one_ne_zero, if_false, Nat.div_one,
    show List.range 1 = [0] from rfl, runWorkers, Nat.sub_self, if_true, Nat.zero_mul]
  cases processImagesThread u items 0 items.length with
  | error e => rfl
  | ok out => simp [interleave_singleton]

/-- An image with empty text changes nothing in the loop over a list, when the other
images find the same values where they read the uninitialised field. -/
theorem loopFrom_skip_read (u1 u2 : Nat → Int) (filename : Str) (b : List Item) :
    ∀ (a : List Item) (i : Nat),
      (∀ k item, (a ++ b)[k]? = some item → containsRelevantTerms item.ocrText = true →
        regex_search item.ocrText victimsPattern = none →
        u2 (i + k) = u1 (i + if k < a.length then k else k + 1)) →
      loopFrom u1 i (a ++ ⟨filename, []⟩ :: b) = loopFrom u2 i (a ++ b) := by
  intro a
  induction a with
  | nil =>
    intro i h
    simp only [List.nil_append, loopFrom, processItem_empty]
    have h1 := loopFrom_congr_read u1 u2 b (i + 1) i (by
      intro k item hk hrel hno
      have := h k item (by simpa using hk) hrel hno
      simp only [List.length_nil, Nat.not_lt_zero, if_false] at this
      rw [this]
      congr 1
      omega)
    rw [h1]
    cases loopFrom u2 i b <;> simp [Option.toList]
  | cons x a ih =>
    intro i h
    have h0 : processItem (u1 i) x = processItem (u2 i) x :=
      processItem_congr_read _ _ _ (fun hrel hno => by
        have := h 0 x (by simp) hrel hno
        simpa using this.symm)
    have hrec := ih (i + 1) (by
      intro k item hk hrel hno
      have := h (k + 1) item (by simpa using hk) hrel hno
      simp only [List.length_cons, Nat.add_lt_add_iff_right] at this
      rw [show i + 1 + k = i + (k + 1) by omega, this]
      congr 1
      split <;> omega)
    show loopFrom u1 i (x :: (a ++ ⟨filename, []⟩ :: b)) = loopFrom u2 i (x :: (a ++ b))
    rw [loopFrom, loopFrom, h0, hrec]

theorem acceptedFrom_append (u : Nat → Int) : ∀ (a b : List Item) (i : Nat),
    acceptedFrom u i (a ++ b) = acceptedFrom u i a ++ acceptedFrom u (i + a.length) b := by
  intro a
  induction a with
  | nil => intro b i; simp [acceptedFrom]
  | cons x a ih =>
    intro b i
    show acceptedFrom u i (x :: (a ++ b)) =
      acceptedFrom u i (x :: a) ++ acceptedFrom u (i + (x :: a).length) b
    rw [acceptedFrom, acceptedFrom, ih b (i + 1), List.append_assoc, List.length_cons,
      show i + 1 + a.length = i + (a.length + 1) by omega]

/-- The loop over the two images of `borderItems`: the record of the first, and the record
of the second when the value it finds in the uninitialised field is positive. -/
theorem borderItems_loop (u : Nat → Int) :
    processLoop u borderItems borderItems.length 0 = .ok
      (⟨[], 3, "Chicago".toList, "3 dead in Chicago".toList, "a.png".toList⟩ ::
        if 0 < u 1 then
          [⟨[], u 1, "Boston".toList, "shot in Boston".toList, "b.png".toList⟩]
        else []) := by
  rw [processLoop_eq_loopFrom u _ _ 0 (by simp)]
  have ha : processItem (u 0) ⟨"a.png".toList, "3 dead in Chicago".toList⟩ =
      .ok (some ⟨[], 3, "Chicago".toList, "3 dead in Chicago".toList, "a.png".toList⟩) := by
    rfl
  have hb : processItem (u 1) ⟨"b.png".toList, "shot in Boston".toList⟩ =
      if 0 < u 1 then
        .ok (some ⟨[], u 1, "Boston".toList, "shot in Boston".toList, "b.png".toList⟩)
      else .ok none := by
    have hrel : containsRelevantTerms "shot in Boston".toList = true := by rfl
    have hext : extractShootingInfo (u 1) "shot in Boston".toList "b.png".toList =
        .ok ⟨[], u 1, "Boston".toList, "shot in Boston".toList, "b.png".toList⟩ := by rfl
    have hne : ("Boston".toList : Str) ≠ [] := by decide
    simp only [processItem, hrel, if_true, hext]
    by_cases hpos : 0 < u 1
    · simp [hpos, hne]
    · simp [hpos]
  simp only [borderItems, List.drop_zero, loopFrom, ha, Nat.zero_add, hb]
  by_cases hpos : 0 < u 1
  · simp [hpos, Option.toList]
  · simp [hpos, Option.toList]

/-- The collection returned by the batch is a rearrangement of the accepted records. -/
theorem batch_perm_accepted (W : Nat) (sched : List Nat) (uninit : Nat → Int)
    (items : List Item) (data : List ShootingInfo)
    (hdata : processNewspaperImages W sched uninit items = .ok data) :
    data.Perm (acceptedRecords uninit items) := by
  have hW : 1 ≤ W := by
    by_contra hW
    have hW0 : W = 0 := by omega
    simp [processNewspaperImages, hW0] at hdata
  obtain ⟨e1, o1⟩ := processNewspaperImages_loop W sched uninit items hW
  cases hl : processLoop uninit items items.length 0 with
  | error e => rw [e1 e hl] at hdata; cases hdata
  | ok all =>
    obtain ⟨d, hd, hp⟩ := o1 all hl
    rw [hdata] at hd
    cases hd
    have := processLoop_eq_accepted uninit items items.length 0 all (by simp) hl
    rw [this] at hp
    simpa [acceptedRecords] using hp

/-- The loop over the two images of `staleItems`, the first of which has index `i`: the
first gives no record, and the second gives its record when the value it finds in the
uninitialised field is positive. -/
theorem staleItems_loopFrom (u : Nat → Int) (i : Nat) :
    loopFrom u i staleItems = .ok
      (if 0 < u (i + 1) then
        [⟨[], u (i + 1), "Chicago".toList, "shot in Chicago".toList, "d.png".toList⟩]
      else []) := by
  have hc : processItem (u i) ⟨"c.png".toList, "2 dead after the shooting downtown.".toList⟩ =
      .ok none := by
    rfl
  have hd : processItem (u (i + 1)) ⟨"d.png".toList, "shot in Chicago".toList⟩ =
      if 0 < u (i + 1) then
        .ok (some ⟨[], u (i + 1), "Chicago".toList, "shot in Chicago".toList, "d.png".toList⟩)
      else .ok none := by
    have hrel : containsRelevantTerms "shot in Chicago".toList = true := by rfl
    have hext : extractShootingInfo (u (i + 1)) "shot in Chicago".toList "d.png".toList =
        .ok ⟨[], u (i + 1), "Chicago".toList, "shot in Chicago".toList, "d.png".toList⟩ := by
      rfl
    have hne : ("Chicago".toList : Str) ≠ [] := by decide
    simp only [processItem, hrel, if_true, hext]
    by_cases hpos : 0 < u (i + 1)
    · simp [hpos, hne]
    · simp [hpos]
  simp only [staleItems, loopFrom, hc, hd]
  by_cases hpos : 0 < u (i + 1)
  · simp [hpos, Option.toList]
  · simp [hpos, Option.toList]

theorem staleItems_loop (u : Nat → Int) :
    processLoop u staleItems staleItems.length 0 = .ok
      (if 0 < u 1 then
        [⟨[], u 1, "Chicago".toList, "shot in Chicago".toList, "d.png".toList⟩]
      else []) := by
  rw [processLoop_eq_loopFrom u _ _ 0 (by simp)]
  exact staleItems_loopFrom u 0

theorem staleItems_loop_cons (u : Nat → Int) (filename : Str) :
    processLoop u (⟨filename, []⟩ :: staleItems) (⟨filename, []⟩ :: staleItems).length 0 =
      .ok (if 0 < u 2 then
        [⟨[], u 2, "Chicago".toList, "shot in Chicago".toList, "d.png".toList⟩]
      else []) := by
  rw [processLoop_eq_loopFrom u _ _ 0 (by simp)]
  show loopFrom u 0 (⟨filename, []⟩ :: staleItems) = _
  rw [loopFrom, processItem_empty, staleItems_loopFrom u (0 + 1)]
  rfl

/-- The loop over the five images of the sample corpus: the records of the first and of
the last image, and between them the record of the fourth when the value it finds in the
uninitialised field is positive. -/
theorem sampleItems_loop (u : Nat → Int) :
    processLoop u sampleItems sampleItems.length 0 = .ok
      (⟨[], 4, "Chicago".toList, "A gunman shot 4 people in Chicago.".toList,
          "a.png".toList⟩ ::
        ((if 0 < u 3 then
          [⟨[], u 3, "Chicago".toList, "shot in Chicago".toList, "d.png".toList⟩]
        else []) ++
        [⟨[], 7, "Austin, TX".toList, "7 killed in Austin, TX".toList, "e.png".toList⟩])) := by
  rw [processLoop_eq_loopFrom u _ _ 0 (by simp)]
  have ha : processItem (u 0) ⟨"a.png".toList, "A gunman shot 4 people in Chicago.".toList⟩ =
      .ok (some ⟨[], 4, "Chicago".toList, "A gunman shot 4 people in Chicago.".toList,
        "a.png".toList⟩) := by
    rfl
  have hb : processItem (u 1)
      ⟨"b.png".toList, "The weather was nice in Boston; 3 people came.".toList⟩ =
      .ok none := by
    rfl
  have he : processItem (u 4) ⟨"e.png".toList, "7 killed in Austin, TX".toList⟩ =
      .ok (some ⟨[], 7, "Austin, TX".toList, "7 killed in Austin, TX".toList,
        "e.png".toList⟩) := by
    rfl
  show loopFrom u 0 (⟨"a.png".toList, "A gunman shot 4 people in Chicago.".toList⟩ ::
    ⟨"b.png".toList, "The weather was nice in Boston; 3 people came.".toList⟩ ::
    ⟨"c.png".toList, "2 dead after the shooting downtown.".toList⟩ ::
    ⟨"d.png".toList, "shot in Chicago".toList⟩ ::
    [⟨"e.png".toList, "7 killed in Austin, TX".toList⟩]) = _
  have hc : processItem (u 2) ⟨"c.png".toList, "2 dead after the shooting downtown.".toList⟩ =
      .ok none := by
    rfl
  have hd : processItem (u 3) ⟨"d.png".toList, "shot in Chicago".toList⟩ =
      if 0 < u 3 then
        .ok (some ⟨[], u 3, "Chicago".toList, "shot in Chicago".toList, "d.png".toList⟩)
      else .ok none := by
    have hrel : containsRelevantTerms "shot in Chicago".toList = true := by rfl
    have hext : extractShootingInfo (u 3) "shot in Chicago".toList "d.png".toList =
        .ok ⟨[], u 3, "Chicago".toList, "shot in Chicago".toList, "d.png".toList⟩ := by
      rfl
    have hne : ("Chicago".toList : Str) ≠ [] := by decide
    simp only [processItem, hrel, if_true, hext]
    by_cases hpos : 0 < u 3
    · simp [hpos, hne]
    · simp [hpos]
  simp only [loopFrom, ha, hb, hc, hd, he, Nat.zero_add]
  by_cases hpos : 0 < u 3
  · simp [hpos, Option.toList]
  · simp [hpos, Option.toList]

/-! ## The claims -/

set_option maxRecDepth 100000

/-- Claim C1: `containsRelevantTerms` returns true exactly when the text with `A`..`Z`
replaced by `a`..`z` (every other character kept) contains a term of the vocabulary as a
contiguous substring, that is, when some substring of the text is a term in some letter
case; no word boundary is asked for. It is true for "The suspect surrendered after a
standoff.", for "A STANDOFF" and for "An Outrageous Claim" (the term "rage" inside a
word), and false for every text none of whose substrings is a term in some letter
case. -/
theorem containsRelevantTerms_iff_vocabulary :
    (∀ text : Str, containsRelevantTerms text = true ↔
      ∃ term ∈ terms, term <:+: text.map (fun c =>
        if 65 ≤ c.toNat ∧ c.toNat ≤ 90 then Char.ofNat (c.toNat + 32) else c)) ∧
    (∀ text : Str, containsRelevantTerms text = true ↔
      ∃ term ∈ terms, ∃ w, w <:+: text ∧ InSomeCase w term) ∧
    containsRelevantTerms "The suspect surrendered after a standoff.".toList = true ∧
    containsRelevantTerms "A STANDOFF".toList = true ∧
    containsRelevantTerms "An Outrageous Claim".toList = true ∧
    containsRelevantTerms "The weather was nice in Boston.".toList = false ∧
    (∀ text : Str, (∀ term ∈ terms, ∀ w : Str, w <:+: text → ¬ InSomeCase w term) →
      containsRelevantTerms text = false) := by
  refine ⟨containsRelevantTerms_iff, containsRelevantTerms_iff_occurrence,
    by rfl, by rfl, by rfl, by rfl, ?_⟩
  intro text h
  rw [Bool.eq_false_iff]
  intro hc
  obtain ⟨term, hterm, w, hw, hcase⟩ := (containsRelevantTerms_iff_occurrence text).mp hc
  exact h term hterm w hw hcase

/-- Claim C2: every record of the collection returned by the batch, threaded or
sequential, for any corpus, worker count and interleaving, has `victims > 0` and a
non-empty location. -/
theorem batch_filter_invariant (numThreads : Nat) (sched : List Nat) (uninit : Nat → Int)
    (items : List Item) :
    (∀ data, processNewspaperImages numThreads sched uninit items = .ok data →
      ∀ r ∈ data, r.victims > 0 ∧ r.location ≠ []) ∧
    (∀ data, Extracter.processNewspaperImages uninit items = .ok data →
      ∀ r ∈ data, r.victims > 0 ∧ r.location ≠ []) := by
  constructor
  · intro data h r hr
    simp only [processNewspaperImages] at h
    split at h
    · cases h
    · split at h
      · cases h
      · rename_i outs houts
        simp only [Except.ok.injEq] at h
        subst h
        have hr1 : r ∈ outs.flatten := (interleave_perm sched outs).mem_iff.mp hr
        obtain ⟨o, ho, hro⟩ := List.mem_flatten.mp hr1
        obtain ⟨i, hi⟩ := runWorkers_mem _ _ _ houts o ho
        exact processLoop_filter uninit items _ _ _ hi r hro
  · intro data h r hr
    exact processEntries_filter uninit items 0 data h r hr

/-- The invariant of C2 on a run of two workers over the sample corpus. -/
theorem batch_filter_invariant_witness :
    processNewspaperImages 2 [1, 0] (fun _ => 0) sampleItems = .ok
      [⟨[], 7, "Austin, TX".toList, "7 killed in Austin, TX".toList, "e.png".toList⟩,
       ⟨[], 4, "Chicago".toList, "A gunman shot 4 people in Chicago.".toList,
        "a.png".toList⟩] ∧
    ∀ r ∈ [(⟨[], 7, "Austin, TX".toList, "7 killed in Austin, TX".toList,
            "e.png".toList⟩ : ShootingInfo),
       ⟨[], 4, "Chicago".toList, "A gunman shot 4 people in Chicago.".toList,
        "a.png".toList⟩], r.victims > 0 ∧ r.location ≠ [] :=
  ⟨by rfl, (batch_filter_invariant 2 [1, 0] (fun _ => 0) sampleItems).1 _ (by rfl)⟩

/-- Claim C3, as amended: `extractShootingInfo` returns a record for every text, the empty
string included, in which the victim-count phrase does not occur or the digit run of its
leftmost occurrence has a value of at most 2147483647, and in the second case `victims` is
that value, hence not negative; when the value is larger, `std::stoi` raises
`out_of_range` and no record is returned. -/
theorem extractShootingInfo_returns (uninit : Int) (text source : Str) :
    ((∀ pre ds, ¬ VictimPhraseAt text pre ds) →
      ∃ info, extractShootingInfo uninit text source = .ok info) ∧
    (∀ pre ds, VictimPhraseAt text pre ds →
      (∀ pre1 ds1, VictimPhraseAt text pre1 ds1 → pre.length ≤ pre1.length) →
      ((decimal ds : Int) ≤ 2147483647 →
        ∃ info, extractShootingInfo uninit text source = .ok info ∧
          info.victims = (decimal ds : Int) ∧ 0 ≤ info.victims) ∧
      (2147483647 < (decimal ds : Int) →
        extractShootingInfo uninit text source = .error .out_of_range)) ∧
    (∃ info, extractShootingInfo uninit [] source = .ok info) := by
  refine ⟨?_, ?_, ?_⟩
  · intro h
    obtain ⟨info, hinfo, _⟩ := extractShootingInfo_no_victims uninit text source
      ((victims_search_none_iff text).mpr h)
    exact ⟨info, hinfo⟩
  · intro pre ds h hleft
    obtain ⟨h1, h2⟩ := extractShootingInfo_victims uninit text source pre ds h hleft
    refine ⟨?_, h2⟩
    intro hfit
    obtain ⟨info, hinfo, hv⟩ := h1 hfit
    exact ⟨info, hinfo, hv, by rw [hv]; exact Int.natCast_nonneg _⟩
  · exact ⟨_, rfl⟩

/-- The amended C3 on two texts: in "3 dead" the phrase occurs at the front with a digit
run that fits, and a record with `victims = 3` is returned; in "99999999999 dead" the
digit run is above `INT_MAX`, and the call raises `out_of_range`. -/
theorem extractShootingInfo_returns_witness :
    (VictimPhraseAt "3 dead".toList [] "3".toList ∧
      ∃ info, extractShootingInfo 0 "3 dead".toList "a.png".toList = .ok info ∧
        info.victims = (decimal "3".toList : Int) ∧ 0 ≤ info.victims) ∧
    (VictimPhraseAt "99999999999 dead".toList [] "99999999999".toList ∧
      extractShootingInfo 0 "99999999999 dead".toList "a.png".toList =
        .error .out_of_range) :=
  have hp3 : VictimPhraseAt "3 dead".toList [] "3".toList :=
    ⟨" ".toList, "dead", [], by rfl, by decide, by decide, by decide, by decide⟩
  have hp : VictimPhraseAt "99999999999 dead".toList [] "99999999999".toList :=
    ⟨" ".toList, "dead", [], by rfl, by decide, by decide, by decide, by decide⟩
  ⟨⟨hp3, ((extractShootingInfo_returns 0 "3 dead".toList "a.png".toList).2.1
      [] "3".toList hp3 (fun _ _ _ => Nat.zero_le _)).1 (by decide)⟩,
   ⟨hp, ((extractShootingInfo_returns 0 "99999999999 dead".toList "a.png".toList).2.1
      [] "99999999999".toList hp (fun _ _ _ => Nat.zero_le _)).2 (by decide)⟩⟩

/-- Claim C3 fails as stated: on a text whose matched digit run is too long for an `int`
the call raises `out_of_range` instead of returning a record. -/
theorem extractShootingInfo_raises :
    extractShootingInfo 0 "99999999999 dead".toList "a.png".toList = .error .out_of_range ∧
    ¬ ∃ info, extractShootingInfo 0 "99999999999 dead".toList "a.png".toList = .ok info := by
  have h : extractShootingInfo 0 "99999999999 dead".toList "a.png".toList =
      .error .out_of_range := by rfl
  exact ⟨h, fun ⟨info, hinfo⟩ => by rw [h] at hinfo; cases hinfo⟩

/-- Claim C4 against the code: whenever the victim-count phrase does not occur in the text
the returned record carries the uninitialised value of `victims`, whatever it is, where
0 is claimed; on "shot in Chicago" with 7 in the field the record has `victims = 7`. -/
theorem extractShootingInfo_victims_uninitialised :
    (∀ (uninit : Int) (text source : Str), (∀ pre ds, ¬ VictimPhraseAt text pre ds) →
      ∃ info, extractShootingInfo uninit text source = .ok info ∧ info.victims = uninit) ∧
    extractShootingInfo 7 "shot in Chicago".toList "d.png".toList =
      .ok ⟨[], 7, "Chicago".toList, "shot in Chicago".toList, "d.png".toList⟩ ∧
    extractShootingInfo 7 [] "d.png".toList = .ok ⟨[], 7, [], [], "d.png".toList⟩ := by
  refine ⟨?_, by rfl, by rfl⟩
  intro uninit text source h
  exact extractShootingInfo_no_victims uninit text source
    ((victims_search_none_iff text).mpr h)

/-- Claim C5: when the victim-count phrase occurs in the text and the digit run of its
leftmost occurrence fits an `int`, `victims` is the decimal value of that digit run, later
occurrences playing no part; "12 people were killed and 5 injured" gives 12. -/
theorem first_victim_match_wins (uninit : Int) (text source pre ds : Str)
    (h : VictimPhraseAt text pre ds)
    (hleft : ∀ pre1 ds1, VictimPhraseAt text pre1 ds1 → pre.length ≤ pre1.length)
    (hfit : (decimal ds : Int) ≤ 2147483647) :
    (∃ info, extractShootingInfo uninit text source = .ok info ∧
      info.victims = (decimal ds : Int)) ∧
    (∃ info, extractShootingInfo uninit "12 people were killed and 5 injured".toList source
      = .ok info ∧ info.victims = 12) :=
  ⟨(extractShootingInfo_victims uninit text source pre ds h hleft).1 hfit, ⟨_, rfl, rfl⟩⟩

/-- Claim C5 on "12 people were killed and 5 injured": the leftmost occurrence is "12
people" at the front, a later one is "5 injured", and `victims` is 12. -/
theorem first_victim_match_wins_witness :
    VictimPhraseAt "12 people were killed and 5 injured".toList [] "12".toList ∧
    VictimPhraseAt "12 people were killed and 5 injured".toList
      "12 people were killed and ".toList "5".toList ∧
    ∃ info, extractShootingInfo 0 "12 people were killed and 5 injured".toList [] = .ok info ∧
      info.victims = (decimal "12".toList : Int) :=
  have hp : VictimPhraseAt "12 people were killed and 5 injured".toList [] "12".toList :=
    ⟨" ".toList, "people", " were killed and 5 injured".toList, by rfl, by decide, by decide,
      by decide, by decide⟩
  ⟨hp, ⟨" ".toList, "injured", [], by rfl, by decide, by decide, by decide, by decide⟩,
    (first_victim_match_wins 0 "12 people were killed and 5 injured".toList [] []
      "12".toList hp (fun _ _ _ => Nat.zero_le _) (by decide)).1⟩

/-- Claim C6: `extractDate` returns, verbatim, the leftmost substring of the text that has
the form month name, white space, one or two digits, comma, white space, four digits and
stands between word boundaries, and returns the empty string when the text has no such
substring; "...on March 3, 2021, police said..." gives "March 3, 2021", and a text that
contains none of the twelve month names gives the empty string. -/
theorem extractDate_leftmost :
    (∀ text pre d : Str, DatePhraseAt text pre d →
      (∀ pre1 d1, DatePhraseAt text pre1 d1 → pre.length ≤ pre1.length) →
      extractDate text = d) ∧
    (∀ text : Str, (∀ pre d, ¬ DatePhraseAt text pre d) ↔ extractDate text = []) ∧
    (∀ text : Str, extractDate text ≠ [] → ∃ pre, DatePhraseAt text pre (extractDate text) ∧
      ∀ pre1 d1, DatePhraseAt text pre1 d1 → pre.length ≤ pre1.length) ∧
    extractDate "...on March 3, 2021, police said...".toList = "March 3, 2021".toList ∧
    (∀ text : Str, (∀ month ∈ monthNames, ¬ month.toList <:+: text) →
      extractDate text = []) := by
  have hnone : ∀ text : Str, (∀ pre d, ¬ DatePhraseAt text pre d) → extractDate text = [] := by
    intro text h
    simp only [extractDate, (date_search_none_iff text).mpr h]
  refine ⟨?_, ?_, ?_, by rfl, ?_⟩
  rotate_left 2
  · intro text hne
    cases hs : regex_search text datePattern with
    | none => simp [extractDate, hs] at hne
    | some m =>
      obtain ⟨pre0, d0, h0, hstr, hleft0⟩ := date_search_some hs
      refine ⟨pre0, ?_, hleft0⟩
      simpa only [extractDate, hs, hstr] using h0
  · intro text h
    apply hnone
    rintro pre d ⟨post, htext, ⟨month, ws1, day, ws2, year, hd, hmonth, _⟩, _⟩
    apply h month hmonth
    refine ⟨pre, ws1 ++ day ++ [','] ++ ws2 ++ year ++ post, ?_⟩
    rw [htext, hd]
    simp
  · intro text pre d h hleft
    cases hs : regex_search text datePattern with
    | none => exact absurd h ((date_search_none_iff text).mp hs pre d)
    | some m =>
      obtain ⟨pre0, d0, h0, hstr, hleft0⟩ := date_search_some hs
      have hlen : pre0.length = pre.length :=
        Nat.le_antisymm (hleft0 pre d h) (hleft pre0 d0 h0)
      have hpre : pre0 = pre := by
        obtain ⟨_, e0, _⟩ := h0
        obtain ⟨_, e1, _⟩ := h
        rw [e1] at e0
        simp only [List.append_assoc] at e0
        exact (append_inj_of_length e0 hlen.symm).symm
      subst hpre
      simp only [extractDate, hs, hstr]
      exact datePhraseAt_unique h0 h
  · intro text
    refine ⟨hnone text, ?_⟩
    intro he pre d h
    cases hs : regex_search text datePattern with
    | none => exact (date_search_none_iff text).mp hs pre d h
    | some m =>
      obtain ⟨pre0, d0, h0, hstr, _⟩ := date_search_some hs
      simp only [extractDate, hs, hstr] at he
      obtain ⟨_, _, ⟨month, ws1, day, ws2, year, hd, _⟩, _⟩ := h0
      rw [he] at hd
      simp at hd

/-- Claim C7: the location of a returned record is the capture of the match of the
location phrase ("in", white space, one or more capitalised words, possibly a region code)
at the leftmost position where the phrase occurs, and it is empty exactly when the phrase
occurs nowhere. The match is the greedy one: every other capture of the phrase at that
position is a prefix of the location. "shooting occurred in Springfield, IL yesterday"
gives "Springfield, IL", the "in" inside "shooting" starting no match; "in New York" gives
"New York", where the one-word pattern of `incident_extracter.cpp` gives "New". -/
theorem location_leftmost_capture (uninit : Int) (text source : Str) (info : ShootingInfo)
    (h : extractShootingInfo uninit text source = .ok info) :
    ((∀ pre c, ¬ LocationPhraseAt text pre c) ↔ info.location = []) ∧
    ((∃ pre c, LocationPhraseAt text pre c) →
      ∃ pre, LocationPhraseAt text pre info.location ∧
        (∀ pre1 c1, LocationPhraseAt text pre1 c1 → pre.length ≤ pre1.length) ∧
        (∀ c1, LocationPhraseAt text pre c1 → c1 <+: info.location)) ∧
    (∃ info1, extractShootingInfo uninit
        "shooting occurred in Springfield, IL yesterday".toList source = .ok info1 ∧
      info1.location = "Springfield, IL".toList) ∧
    (∀ c, ¬ LocationPhraseAt "shooting occurred in Springfield, IL yesterday".toList
      "shoot".toList c) ∧
    (∃ info1, extractShootingInfo uninit "in New York".toList source = .ok info1 ∧
      info1.location = "New York".toList) ∧
    (∃ info1, Extracter.extractShootingInfo uninit "in New York".toList source = .ok info1 ∧
      info1.location = "New".toList) := by
  have hloc := (extractShootingInfo_fields h).2.1
  refine ⟨?_, ?_, ⟨_, rfl, rfl⟩, ?_, ⟨_, rfl, rfl⟩, ⟨_, rfl, rfl⟩⟩
  · constructor
    · intro hno
      rw [hloc, (location_search_none_iff text).mpr hno]
    · intro he pre c hp
      cases hs : regex_search text locationPattern with
      | none => exact (location_search_none_iff text).mp hs pre c hp
      | some m =>
        obtain ⟨pre0, c0, h0, hsub, _⟩ := location_search_some hs
        rw [hs] at hloc
        simp only [hsub] at hloc
        rw [he] at hloc
        obtain ⟨_, _, _, _, _, hc0⟩ := h0
        exact locationPhrase_ne_nil hc0 hloc.symm
  · rintro ⟨pre, c, hp⟩
    cases hs : regex_search text locationPattern with
    | none => exact absurd hp ((location_search_none_iff text).mp hs pre c)
    | some m =>
      obtain ⟨pre0, h0, hleft0, hlong0⟩ := location_search_longest hs
      rw [hs] at hloc
      simp only at hloc
      rw [hloc]
      exact ⟨pre0, h0, hleft0, hlong0⟩
  · rintro c ⟨ws, post, htext, hne, hws, _⟩
    cases ws with
    | nil => exact hne rfl
    | cons x ws =>
      have hx := hws x (by simp)
      have : x = 'g' := by
        have := congrArg (fun l => l[7]?) htext
        simpa using this.symm
      subst this
      revert hx
      decide

/-- Claim C7 on its example and on "in New York": in the example the phrase occurs after
"shooting occurred " and the record has location "Springfield, IL"; in "in New York" the
phrase occurs at the start with the captures "Ne", "New ", "New York" and others, the
record has the location "New York", and each of these captures is a prefix of it. -/
theorem location_leftmost_capture_witness :
    LocationPhraseAt "shooting occurred in Springfield, IL yesterday".toList
      "shooting occurred ".toList "Springfield, IL".toList ∧
    (∃ pre, LocationPhraseAt "shooting occurred in Springfield, IL yesterday".toList pre
      "Springfield, IL".toList ∧
      (∀ pre1 c1, LocationPhraseAt "shooting occurred in Springfield, IL yesterday".toList
        pre1 c1 → pre.length ≤ pre1.length) ∧
      (∀ c1, LocationPhraseAt "shooting occurred in Springfield, IL yesterday".toList pre c1 →
        c1 <+: "Springfield, IL".toList)) ∧
    LocationPhraseAt "in New York".toList [] "New ".toList ∧
    ∃ pre, LocationPhraseAt "in New York".toList pre "New York".toList ∧
      (∀ pre1 c1, LocationPhraseAt "in New York".toList pre1 c1 → pre.length ≤ pre1.length) ∧
      (∀ c1, LocationPhraseAt "in New York".toList pre c1 → c1 <+: "New York".toList) :=
  have hs : LocationPhraseAt "shooting occurred in Springfield, IL yesterday".toList
      "shooting occurred ".toList "Springfield, IL".toList :=
    ⟨" ".toList, " yesterday".toList, by rfl, by decide, by decide,
      ["Springfield".toList], ", IL".toList, by rfl, by decide,
      fun w hw => by
        rw [List.mem_singleton.mp hw]
        exact ⟨'S', "pringfield".toList, [], by rfl, by decide, by decide, by decide,
          by decide⟩,
      Or.inr ⟨" ".toList, 'I', 'L', by rfl, by decide, by decide, by decide⟩⟩
  have hp : LocationPhraseAt "in New York".toList [] "New ".toList :=
    ⟨" ".toList, "York".toList, by rfl, by decide, by decide,
      ["New ".toList], [], by rfl, by decide,
      fun w hw => by
        rw [List.mem_singleton.mp hw]
        exact ⟨'N', "ew".toList, " ".toList, by rfl, by decide, by decide, by decide,
          by decide⟩,
      Or.inl rfl⟩
  ⟨hs, (location_leftmost_capture 0 "shooting occurred in Springfield, IL yesterday".toList
    "a.png".toList ⟨[], 0, "Springfield, IL".toList,
      "shooting occurred in Springfield, IL yesterday".toList, "a.png".toList⟩
    (by rfl)).2.1 ⟨_, _, hs⟩,
   hp, (location_leftmost_capture 0 "in New York".toList "a.png".toList
    ⟨[], 0, "New York".toList, "in New York".toList, "a.png".toList⟩ (by rfl)).2.1 ⟨_, _, hp⟩⟩

/-- Claim C8: when the description phrase occurs nowhere in the text, in particular when
the text contains neither "shooting" nor "incident", the description of a returned record
is the first `min 500 (length text)` characters of the text: a prefix of the text, of
length at most 500, and the whole text when it has at most 500 characters. The sequential
program always takes these characters. -/
theorem description_fallback (uninit : Int) (text source : Str) (info : ShootingInfo)
    (h : extractShootingInfo uninit text source = .ok info)
    (hno : ∀ pre d, ¬ DescriptionPhraseAt text pre d) :
    info.description = text.take (min 500 text.length) ∧
    info.description <+: text ∧ info.description.length ≤ 500 ∧
    (text.length ≤ 500 → info.description = text) ∧
    ((¬ "shooting".toList <:+: text ∧ ¬ "incident".toList <:+: text) →
      ∀ pre d, ¬ DescriptionPhraseAt text pre d) ∧
    (∀ info1, Extracter.extractShootingInfo uninit text source = .ok info1 →
      info1.description = text.take (min 500 text.length)) := by
  have hmin : text.take (min 500 text.length) = text.take 500 := by
    rcases Nat.le_total 500 text.length with hle | hle
    · rw [Nat.min_eq_left hle]
    · rw [Nat.min_eq_right hle, List.take_of_length_le hle, List.take_of_length_le (le_refl _)]
  have hdesc : info.description = text.take 500 := by
    rw [(extractShootingInfo_fields h).2.2.1, (details_search_none_iff text).mpr hno]
  refine ⟨by rw [hmin, hdesc], by rw [hdesc]; exact List.take_prefix _ _, ?_, ?_, ?_, ?_⟩
  · rw [hdesc, List.length_take]
    exact Nat.min_le_left _ _
  · intro hle
    rw [hdesc, List.take_of_length_le hle]
  · rintro ⟨h1, h2⟩ pre d hp
    rcases descriptionPhraseAt_has_anchor hp with h3 | h3
    · exact h1 h3
    · exact h2 h3
  · intro info1 h1
    simp only [Extracter.extractShootingInfo] at h1
    split at h1
    · cases h1
    · simp only [Except.ok.injEq] at h1
      subst h1
      exact hmin.symm

/-- Claim C8 on a text of 520 characters without anchor: the description is its first 500
characters. -/
theorem description_fallback_witness :
    extractShootingInfo 0 longText "a.png".toList =
      .ok ⟨[], 0, [], List.replicate 500 'x', "a.png".toList⟩ ∧
    (List.replicate 500 'x' : Str) = longText.take (min 500 longText.length) :=
  have h : extractShootingInfo 0 longText "a.png".toList =
      .ok ⟨[], 0, [], List.replicate 500 'x', "a.png".toList⟩ := by rfl
  ⟨h, (description_fallback 0 longText "a.png".toList _ h
    ((details_search_none_iff longText).mp (by rfl))).1⟩

/-- Claim C9 against the code: two runs over the same corpus with worker counts
`W1, W2 ≥ 1` have the same outcome up to the order of the records whenever every image that
reads the uninitialised `victims` field (a relevant text without a victim-count match)
finds the same value in both runs, and one worker is the sequential loop. But the value
found depends on the shards: when the storage of `info` is reused from one iteration of a
worker to the next, the second image of `borderItems` finds the 3 of the first image with
one worker, and what the second thread's stack held with two workers. One worker returns
two records; two workers return the same two records only if that stack content happens
to be 3, and one record if it is not positive. On the sample corpus of five images two
workers return three records, "d.png" with the 2 victims of "c.png" among them; five
workers return these three only if the stack of the fourth thread happens to hold 2, and
two records if it holds nothing positive. -/
theorem worker_count_changes_result :
    (∀ (W1 W2 : Nat) (s1 s2 : List Nat) (u1 u2 : Nat → Int) (items : List Item),
      1 ≤ W1 → 1 ≤ W2 →
      (∀ i item, items[i]? = some item → containsRelevantTerms item.ocrText = true →
        regex_search item.ocrText victimsPattern = none → u1 i = u2 i) →
      (∀ d1, processNewspaperImages W1 s1 u1 items = .ok d1 →
        ∃ d2, processNewspaperImages W2 s2 u2 items = .ok d2 ∧ d1.Perm d2) ∧
      (∀ e, processNewspaperImages W1 s1 u1 items = .error e →
        processNewspaperImages W2 s2 u2 items = .error e)) ∧
    (∀ (s : List Nat) (u : Nat → Int) (items : List Item),
      processNewspaperImages 1 s u items = processImagesThread u items 0 items.length) ∧
    (∀ garbage : Nat → Int, reusedVictims 1 garbage borderItems 1 = 3 ∧
      reusedVictims 2 garbage borderItems 1 = garbage 1) ∧
    (∀ (s : List Nat) (garbage : Nat → Int),
      processNewspaperImages 1 s (reusedVictims 1 garbage borderItems) borderItems = .ok
        [⟨[], 3, "Chicago".toList, "3 dead in Chicago".toList, "a.png".toList⟩,
         ⟨[], 3, "Boston".toList, "shot in Boston".toList, "b.png".toList⟩]) ∧
    (∀ (s : List Nat) (garbage : Nat → Int), ∃ d2,
      processNewspaperImages 2 s (reusedVictims 2 garbage borderItems) borderItems = .ok d2 ∧
      (d2.Perm
          [⟨[], 3, "Chicago".toList, "3 dead in Chicago".toList, "a.png".toList⟩,
           ⟨[], 3, "Boston".toList, "shot in Boston".toList, "b.png".toList⟩] ↔
        garbage 1 = 3) ∧
      (garbage 1 ≤ 0 →
        d2 = [⟨[], 3, "Chicago".toList, "3 dead in Chicago".toList, "a.png".toList⟩])) ∧
    (∀ (s : List Nat) (garbage : Nat → Int), ∃ d2,
      processNewspaperImages 2 s (reusedVictims 2 garbage sampleItems) sampleItems = .ok d2 ∧
      d2.Perm
        [⟨[], 4, "Chicago".toList, "A gunman shot 4 people in Chicago.".toList,
            "a.png".toList⟩,
         ⟨[], 2, "Chicago".toList, "shot in Chicago".toList, "d.png".toList⟩,
         ⟨[], 7, "Austin, TX".toList, "7 killed in Austin, TX".toList, "e.png".toList⟩]) ∧
    (∀ (s : List Nat) (garbage : Nat → Int), ∃ d5,
      processNewspaperImages 5 s (reusedVictims 5 garbage sampleItems) sampleItems = .ok d5 ∧
      (d5.Perm
          [⟨[], 4, "Chicago".toList, "A gunman shot 4 people in Chicago.".toList,
              "a.png".toList⟩,
           ⟨[], 2, "Chicago".toList, "shot in Chicago".toList, "d.png".toList⟩,
           ⟨[], 7, "Austin, TX".toList, "7 killed in Austin, TX".toList, "e.png".toList⟩] ↔
        garbage 3 = 2) ∧
      (garbage 3 ≤ 0 → d5.Perm
          [⟨[], 4, "Chicago".toList, "A gunman shot 4 people in Chicago.".toList,
              "a.png".toList⟩,
           ⟨[], 7, "Austin, TX".toList, "7 killed in Austin, TX".toList,
            "e.png".toList⟩])) := by
  refine ⟨?_, processNewspaperImages_one, fun garbage => ⟨by rfl, by rfl⟩, ?_, ?_, ?_, ?_⟩
  · intro W1 W2 s1 s2 u1 u2 items h1 h2 h
    exact batch_same_outcome W1 W2 s1 s2 u1 u2 items items h1 h2
      (processLoop_congr_read u1 u2 items h)
  · intro s garbage
    rw [processNewspaperImages_one]
    have h := borderItems_loop (reusedVictims 1 garbage borderItems)
    have h3 : reusedVictims 1 garbage borderItems 1 = 3 := by rfl
    rw [h3] at h
    exact h
  · intro s garbage
    have h := borderItems_loop (reusedVictims 2 garbage borderItems)
    have h3 : reusedVictims 2 garbage borderItems 1 = garbage 1 := by rfl
    rw [h3] at h
    obtain ⟨d2, hd2, hp⟩ := (processNewspaperImages_loop 2 s
      (reusedVictims 2 garbage borderItems) borderItems (by decide)).2 _ h
    refine ⟨d2, hd2, ?_, ?_⟩
    · constructor
      · intro hperm
        have hp2 := hp.symm.trans hperm
        by_cases hpos : 0 < garbage 1
        · simp only [hpos, if_true] at hp2
          have hmem : (⟨[], garbage 1, "Boston".toList, "shot in Boston".toList,
              "b.png".toList⟩ : ShootingInfo) ∈
              [(⟨[], 3, "Chicago".toList, "3 dead in Chicago".toList,
                "a.png".toList⟩ : ShootingInfo),
               ⟨[], 3, "Boston".toList, "shot in Boston".toList, "b.png".toList⟩] :=
            hp2.subset (by simp)
          simp only [List.mem_cons, ShootingInfo.mk.injEq, List.mem_singleton,
            List.not_mem_nil, or_false] at hmem
          rcases hmem with ⟨_, _, hloc, _⟩ | ⟨_, hv, _⟩
          · exact absurd hloc (by decide)
          · exact hv
        · simp only [hpos, if_false] at hp2
          have := hp2.length_eq
          simp at this
      · intro hg
        rw [hg] at hp
        simpa using hp
    · intro hle
      have hpos : ¬ 0 < garbage 1 := by omega
      simp only [hpos, if_false] at hp
      exact List.perm_singleton.mp hp
  · intro s garbage
    have h := sampleItems_loop (reusedVictims 2 garbage sampleItems)
    have h3 : reusedVictims 2 garbage sampleItems 3 = 2 := by rfl
    rw [h3] at h
    obtain ⟨d2, hd2, hp⟩ := (processNewspaperImages_loop 2 s
      (reusedVictims 2 garbage sampleItems) sampleItems (by decide)).2 _ h
    exact ⟨d2, hd2, by simpa using hp⟩
  · intro s garbage
    have h := sampleItems_loop (reusedVictims 5 garbage sampleItems)
    have h3 : reusedVictims 5 garbage sampleItems 3 = garbage 3 := by rfl
    rw [h3] at h
    obtain ⟨d5, hd5, hp⟩ := (processNewspaperImages_loop 5 s
      (reusedVictims 5 garbage sampleItems) sampleItems (by decide)).2 _ h
    refine ⟨d5, hd5, ?_, ?_⟩
    · constructor
      · intro hperm
        have hp2 := hp.symm.trans hperm
        by_cases hpos : 0 < garbage 3
        · simp only [hpos, if_true] at hp2
          have hmem : (⟨[], garbage 3, "Chicago".toList, "shot in Chicago".toList,
              "d.png".toList⟩ : ShootingInfo) ∈
              [(⟨[], 4, "Chicago".toList, "A gunman shot 4 people in Chicago.".toList,
                "a.png".toList⟩ : ShootingInfo),
               ⟨[], 2, "Chicago".toList, "shot in Chicago".toList, "d.png".toList⟩,
               ⟨[], 7, "Austin, TX".toList, "7 killed in Austin, TX".toList,
                "e.png".toList⟩] :=
            hp2.subset (by simp)
          simp only [List.mem_cons, ShootingInfo.mk.injEq, List.mem_singleton,
            List.not_mem_nil, or_false] at hmem
          rcases hmem with ⟨_, _, _, hdesc, _⟩ | ⟨_, hv, _⟩ | ⟨_, _, hloc, _⟩
          · exact absurd hdesc (by decide)
          · exact hv
          · exact absurd hloc (by decide)
        · simp only [hpos, if_false] at hp2
          have := hp2.length_eq
          simp at this
      · intro hg
        rw [hg] at hp
        simpa using hp
    · intro hle
      have hpos : ¬ 0 < garbage 3 := by omega
      simp only [hpos, if_false] at hp
      simpa using hp

/-- Claim C10: the returned collection is a rearrangement of the list that has one record
`extractShootingInfo(text, filename)` for each image whose text is relevant and whose
record has `victims > 0` and a non-empty location, and nothing else; with at least one
worker the batch returns whenever no relevant image makes the extraction raise. The three
images of the example give exactly the one record of the first. -/
theorem batch_exactly_accepted (W : Nat) (sched : List Nat) (uninit : Nat → Int)
    (items : List Item) :
    (∀ data, processNewspaperImages W sched uninit items = .ok data →
      data.Perm (acceptedRecords uninit items)) ∧
    (1 ≤ W →
      (∀ i item, items[i]? = some item → containsRelevantTerms item.ocrText = true →
        ∃ info, extractShootingInfo (uninit i) item.ocrText item.filename = .ok info) →
      ∃ data, processNewspaperImages W sched uninit items = .ok data) ∧
    (1 ≤ W → processNewspaperImages W sched uninit threeItems = .ok
      [⟨[], 4, "Chicago".toList, "A gunman shot 4 people in Chicago.".toList,
        "a.png".toList⟩]) := by
  refine ⟨?_, ?_, ?_⟩
  · intro data hdata
    have hW : 1 ≤ W := by
      by_contra hW
      have hW0 : W = 0 := by omega
      simp [processNewspaperImages, hW0] at hdata
    obtain ⟨e1, o1⟩ := processNewspaperImages_loop W sched uninit items hW
    cases hl : processLoop uninit items items.length 0 with
    | error e => rw [e1 e hl] at hdata; cases hdata
    | ok all =>
      obtain ⟨d, hd, hp⟩ := o1 all hl
      rw [hdata] at hd
      cases hd
      have := processLoop_eq_accepted uninit items items.length 0 all (by simp) hl
      rw [this] at hp
      simpa [acceptedRecords] using hp
  · intro hW hok
    obtain ⟨_, o1⟩ := processNewspaperImages_loop W sched uninit items hW
    obtain ⟨all, hall⟩ := processLoop_returns uninit items hok items.length 0
    obtain ⟨d, hd, _⟩ := o1 all hall
    exact ⟨d, hd⟩
  · intro hW
    obtain ⟨_, o1⟩ := processNewspaperImages_loop W sched uninit threeItems hW
    obtain ⟨d, hd, hp⟩ := o1 [⟨[], 4, "Chicago".toList,
      "A gunman shot 4 people in Chicago.".toList, "a.png".toList⟩] (by rfl)
    rw [hd, List.perm_singleton.mp hp]

/-- Claim C10 on the three images of the example, two workers: the first text is relevant,
the second is not, the third is relevant, and the collection is the record of the
first. -/
theorem batch_exactly_accepted_witness :
    containsRelevantTerms "A gunman shot 4 people in Chicago.".toList = true ∧
    containsRelevantTerms "The weather was nice in Boston.".toList = false ∧
    containsRelevantTerms "2 dead after the shooting downtown.".toList = true ∧
    extractShootingInfo 0 "2 dead after the shooting downtown.".toList "c.png".toList =
      .ok ⟨[], 2, [], "shooting downtown.".toList, "c.png".toList⟩ ∧
    acceptedRecords (fun _ => 0) threeItems =
      [⟨[], 4, "Chicago".toList, "A gunman shot 4 people in Chicago.".toList,
        "a.png".toList⟩] ∧
    processNewspaperImages 2 [1, 0] (fun _ => 0) threeItems = .ok
      [⟨[], 4, "Chicago".toList, "A gunman shot 4 people in Chicago.".toList,
        "a.png".toList⟩] :=
  ⟨by rfl, by rfl, by rfl, by rfl, by rfl,
    (batch_exactly_accepted 2 [1, 0] (fun _ => 0) threeItems).2.2 (by decide)⟩

/-- Claim C13, as amended: on "4 critically injured, 12 dead" `victims` is 12, because
"4" is followed by " critically" and not by one of the eight words; the heuristic does
select the smaller, earlier number on "4 injured, 12 dead", where `victims` is 4. -/
theorem first_match_on_open_question (uninit : Int) (source : Str) :
    (∃ info, extractShootingInfo uninit "4 critically injured, 12 dead".toList source =
      .ok info ∧ info.victims = 12) ∧
    (∀ ds, ¬ VictimPhraseAt "4 critically injured, 12 dead".toList [] ds) ∧
    (∃ info, extractShootingInfo uninit "4 injured, 12 dead".toList source =
      .ok info ∧ info.victims = 4) := by
  refine ⟨⟨_, rfl, rfl⟩, ?_, ⟨_, rfl, rfl⟩⟩
  rintro ds ⟨ws, word, post, htext, hne, hds, hws, hword⟩
  have hpre : ∀ {a b : Str}, "4 critically injured, 12 dead".toList = a ++ b →
      a = ("4 critically injured, 12 dead".toList).take a.length := by
    intro a b h
    rw [h]
    simp
  have hds1 : ds = ['4'] := by
    rcases ds with _ | ⟨d, _ | ⟨d2, ds⟩⟩
    · exact absurd rfl hne
    · have := congrArg (fun l => l[0]?) htext
      simp at this
      rw [← this]
    · exfalso
      have h2 := hds d2 (by simp)
      have := congrArg (fun l => l[1]?) htext
      simp at this
      rw [← this] at h2
      revert h2
      decide
  subst hds1
  have hws1 : ws = [' '] := by
    rcases ws with _ | ⟨w, _ | ⟨w2, ws⟩⟩
    · exfalso
      obtain ⟨c, t, hc, hcd, hcs⟩ := victimWords_head word hword
      rw [hc] at htext
      have := congrArg (fun l => l[1]?) htext
      simp at this
      rw [← this] at hcs
      revert hcs
      decide
    · have := congrArg (fun l => l[1]?) htext
      simp at this
      rw [← this]
    · exfalso
      have h2 := hws w2 (by simp)
      have := congrArg (fun l => l[2]?) htext
      simp at this
      rw [← this] at h2
      revert h2
      decide
  subst hws1
  have htail : "critically injured, 12 dead".toList = word.toList ++ post := by
    have := congrArg (List.drop 2) htext
    simpa using this
  have hfirst : ∀ w ∈ victimWords, ∃ c t, w.toList = c :: t ∧ c ≠ 'c' := by
    intro w hw
    simp only [victimWords, List.mem_cons, List.mem_singleton, List.not_mem_nil, or_false]
      at hw
    rcases hw with rfl | rfl | rfl | rfl | rfl | rfl | rfl | rfl <;>
      exact ⟨_, _, rfl, by decide⟩
  obtain ⟨c, t, hc, hcne⟩ := hfirst word hword
  rw [hc] at htail
  have := congrArg (fun l => l[0]?) htail
  simp at this
  exact hcne this.symm

/-- Claim C13 fails as stated: on "4 critically injured, 12 dead" the record has
`victims = 12`, not 4. -/
theorem victims_on_open_question_is_twelve :
    extractShootingInfo 0 "4 critically injured, 12 dead".toList "a.png".toList =
      .ok ⟨[], 12, [], "4 critically injured, 12 dead".toList, "a.png".toList⟩ ∧
    ¬ ∃ info, extractShootingInfo 0 "4 critically injured, 12 dead".toList "a.png".toList =
      .ok info ∧ info.victims = 4 := by
  have h : extractShootingInfo 0 "4 critically injured, 12 dead".toList "a.png".toList =
      .ok ⟨[], 12, [], "4 critically injured, 12 dead".toList, "a.png".toList⟩ := by rfl
  refine ⟨h, ?_⟩
  rintro ⟨info, hinfo, hv⟩
  rw [h] at hinfo
  cases hinfo
  revert hv
  decide

/-- Claim C18: the classifier does not depend on letter case: a text, its lower-cased form
and its upper-cased form get the same answer. -/
theorem containsRelevantTerms_case_invariant (text : Str) :
    containsRelevantTerms text = containsRelevantTerms (lowerText text) ∧
    containsRelevantTerms (lowerText text) = containsRelevantTerms (upperText text) := by
  constructor
  · unfold containsRelevantTerms
    rw [lowerText_lowerText]
  · unfold containsRelevantTerms
    rw [lowerText_lowerText, lowerText_upperText]

/-- Claim C19: the classifier is monotone under embedding: a relevant text stays relevant
with any text put before and after it. -/
theorem containsRelevantTerms_embedding (a t b : Str)
    (h : containsRelevantTerms t = true) : containsRelevantTerms (a ++ t ++ b) = true := by
  rw [containsRelevantTerms_iff] at h ⊢
  obtain ⟨term, hterm, hin⟩ := h
  refine ⟨term, hterm, ?_⟩
  rw [lowerText_append, lowerText_append]
  exact hin.trans ⟨lowerText a, lowerText b, rfl⟩

/-- Claim C19 on "standoff" put inside a sentence. -/
theorem containsRelevantTerms_embedding_witness :
    containsRelevantTerms "standoff".toList = true ∧
    containsRelevantTerms ("After a ".toList ++ "standoff".toList ++ " he left.".toList)
      = true :=
  ⟨by rfl, containsRelevantTerms_embedding "After a ".toList "standoff".toList
    " he left.".toList (by rfl)⟩

/-- Claim C20: the date, the location and the description of a returned record are each a
contiguous substring of the input text, possibly empty, and the source is the source id
given. -/
theorem extraction_never_invents (uninit : Int) (text source : Str) (info : ShootingInfo)
    (h : extractShootingInfo uninit text source = .ok info) :
    info.date <:+: text ∧ info.location <:+: text ∧ info.description <:+: text ∧
    info.source = source := by
  obtain ⟨hdate, hloc, hdesc, hsrc⟩ := extractShootingInfo_fields h
  refine ⟨?_, ?_, ?_, hsrc⟩
  · rw [hdate, extractDate]
    split
    · rename_i m hm
      have := regex_search_text hm
      simp only [SMatch.str, this]
      exact slice_isInfix _ _ _
    · exact List.nil_infix
  · rw [hloc]
    split
    · rename_i m hm
      have := smatch_sub_isInfix m 1
      rwa [regex_search_text hm] at this
    · exact List.nil_infix
  · rw [hdesc]
    split
    · rename_i m hm
      have := smatch_sub_isInfix m 1
      rwa [regex_search_text hm] at this
    · exact (List.take_prefix _ _).isInfix

/-- Claim C20 on a text with a date, a location and a description sentence. -/
theorem extraction_never_invents_witness :
    extractShootingInfo 0
      "On March 3, 2021, a shooting occurred in Springfield, IL. 5 dead".toList
      "p1.png".toList =
      .ok ⟨"March 3, 2021".toList, 5, "Springfield, IL".toList,
        "shooting occurred in Springfield, IL.".toList, "p1.png".toList⟩ ∧
    "March 3, 2021".toList <:+:
      "On March 3, 2021, a shooting occurred in Springfield, IL. 5 dead".toList ∧
    "Springfield, IL".toList <:+:
      "On March 3, 2021, a shooting occurred in Springfield, IL. 5 dead".toList ∧
    "shooting occurred in Springfield, IL.".toList <:+:
      "On March 3, 2021, a shooting occurred in Springfield, IL. 5 dead".toList :=
  have h : extractShootingInfo 0
      "On March 3, 2021, a shooting occurred in Springfield, IL. 5 dead".toList
      "p1.png".toList =
      .ok ⟨"March 3, 2021".toList, 5, "Springfield, IL".toList,
        "shooting occurred in Springfield, IL.".toList, "p1.png".toList⟩ := by rfl
  have hall := extraction_never_invents 0 _ _ _ h
  ⟨h, hall.1, hall.2.1, hall.2.2.1⟩

/-- Claim C15: for `n` images and `W ≥ 1` workers the shards `[start_i, end_i)` of
`processNewspaperImages` satisfy `start_i ≤ end_i ≤ n`, follow one another from 0 to `n`,
are pairwise disjoint and contain every index below `n` exactly once; every shard but the
last has `n / W` images and the last has `n / W + n % W`. -/
theorem shards_partition (n W : Nat) (hW : 1 ≤ W) :
    (∀ i, i < W → shardStart n W i ≤ shardEnd n W i ∧ shardEnd n W i ≤ n) ∧
    shardStart n W 0 = 0 ∧
    (∀ i, i + 1 < W → shardEnd n W i = shardStart n W (i + 1)) ∧
    shardEnd n W (W - 1) = n ∧
    (∀ i j, i < j → j < W → shardEnd n W i ≤ shardStart n W j) ∧
    (∀ k, k < n → ∃ i, i < W ∧ shardStart n W i ≤ k ∧ k < shardEnd n W i ∧
      ∀ j, j < W → shardStart n W j ≤ k → k < shardEnd n W j → j = i) ∧
    (∀ i, i + 1 < W → shardEnd n W i - shardStart n W i = n / W) ∧
    shardEnd n W (W - 1) - shardStart n W (W - 1) = n / W + n % W := by
  have hend : ∀ i, i + 1 < W → shardEnd n W i = (i + 1) * (n / W) := by
    intro i hi
    simp only [shardEnd]
    rw [if_neg (by omega)]
  have hlast : shardEnd n W (W - 1) = n := by simp [shardEnd]
  have hmono : ∀ i j, i ≤ j → i * (n / W) ≤ j * (n / W) :=
    fun i j h => Nat.mul_le_mul_right _ h
  have hdisj : ∀ i j, i < j → j < W → shardEnd n W i ≤ shardStart n W j := by
    intro i j hij hj
    rw [hend i (by omega)]
    exact hmono _ _ hij
  have hbound : ∀ i, i < W → shardStart n W i ≤ shardEnd n W i ∧ shardEnd n W i ≤ n := by
    intro i hi
    by_cases hl : i + 1 < W
    · rw [hend i hl]
      exact ⟨hmono _ _ (by omega), shard_mul_le n W hW (i + 1) (by omega)⟩
    · have : i = W - 1 := by omega
      subst this
      rw [hlast]
      exact ⟨shard_mul_le n W hW _ (by omega), le_refl _⟩
  have huniq : ∀ i j k, i < W → j < W → shardStart n W i ≤ k → k < shardEnd n W i →
      shardStart n W j ≤ k → k < shardEnd n W j → j = i := by
    intro i j k hi hj h1 h2 h3 h4
    rcases Nat.lt_trichotomy i j with h | h | h
    · have := hdisj i j h hj
      omega
    · exact h.symm
    · have := hdisj j i h hi
      omega
  refine ⟨hbound, by simp [shardStart], fun i hi => by rw [hend i hi]; rfl, hlast, hdisj,
    ?_, ?_, ?_⟩
  · intro k hk
    by_cases hper : n / W = 0
    · refine ⟨W - 1, by omega, by simp [shardStart, hper], by rw [hlast]; exact hk, ?_⟩
      intro j hj h1 h2
      exact huniq (W - 1) j k (by omega) hj (by simp [shardStart, hper])
        (by rw [hlast]; exact hk) h1 h2
    · have hpos : 0 < n / W := Nat.pos_of_ne_zero hper
      by_cases hin : k / (n / W) + 1 < W
      · have h1 : shardStart n W (k / (n / W)) ≤ k := by
          simp only [shardStart]
          exact Nat.div_mul_le_self k (n / W)
        have h2 : k < shardEnd n W (k / (n / W)) := by
          rw [hend _ hin]
          have e1 := Nat.div_add_mod k (n / W)
          have e2 := Nat.mod_lt k hpos
          rw [Nat.succ_mul, Nat.mul_comm (k / (n / W)) (n / W)]
          omega
        exact ⟨k / (n / W), by omega, h1, h2,
          fun j hj h3 h4 => huniq _ j k (by omega) hj h1 h2 h3 h4⟩
      · have h1 : shardStart n W (W - 1) ≤ k := by
          simp only [shardStart]
          calc (W - 1) * (n / W) ≤ k / (n / W) * (n / W) :=
                Nat.mul_le_mul_right _ (by omega)
            _ ≤ k := Nat.div_mul_le_self k (n / W)
        have h2 : k < shardEnd n W (W - 1) := by rw [hlast]; exact hk
        exact ⟨W - 1, by omega, h1, h2,
          fun j hj h3 h4 => huniq _ j k (by omega) hj h1 h2 h3 h4⟩
  · intro i hi
    rw [hend i hi]
    simp only [shardStart, Nat.add_mul, Nat.one_mul]
    exact Nat.add_sub_cancel_left _ _
  · rw [hlast]
    simp only [shardStart]
    have h1 := Nat.div_add_mod n W
    have h2 : (W - 1) * (n / W) + n / W = W * (n / W) := by
      rw [← Nat.succ_mul]
      congr 1
      omega
    have h3 := shard_mul_le n W hW (W - 1) (by omega)
    omega

/-- Claim C15 on 10 images and 4 workers: the shards are [0,2), [2,4), [4,6), [6,10). -/
theorem shards_partition_witness :
    (shardStart 10 4 0, shardEnd 10 4 0) = (0, 2) ∧
    (shardStart 10 4 1, shardEnd 10 4 1) = (2, 4) ∧
    (shardStart 10 4 2, shardEnd 10 4 2) = (4, 6) ∧
    (shardStart 10 4 3, shardEnd 10 4 3) = (6, 10) ∧
    shardEnd 10 4 (4 - 1) - shardStart 10 4 (4 - 1) = 10 / 4 + 10 % 4 :=
  ⟨by decide, by decide, by decide, by decide,
    (shards_partition 10 4 (by decide)).2.2.2.2.2.2.2⟩

/-- Claim C11 against the code: the classifier rejects the empty text, so an image whose
OCR text is empty pushes no record, raises nothing and leaves the storage of `info`
alone; in every run the result is the accepted records of the other images; and the
corpus without the image has the same outcome whenever the other images find the same
values where they read the uninitialised `victims` field. But taking the image out moves
the shards, and with them what the other images find there: with two workers and the
storage of `info` reused, the corpus of an empty-text image followed by `staleItems`
returns the record of "d.png" with the 2 victims of "c.png", and `staleItems` alone
returns that record only if the second thread's stack happens to hold 2, and nothing if
it holds nothing positive. -/
theorem empty_image_changes_result :
    containsRelevantTerms [] = false ∧
    (∀ (u : Int) (filename : Str), processItem u ⟨filename, []⟩ = .ok none) ∧
    (∀ (items : List Item) (garbage : Int) (start n : Nat) (filename : Str),
      items[start + n]? = some ⟨filename, []⟩ →
      victimsSlot items garbage start (n + 1) = victimsSlot items garbage start n) ∧
    (∀ (W : Nat) (sched : List Nat) (u : Nat → Int) (a b : List Item) (filename : Str)
      (data : List ShootingInfo),
      processNewspaperImages W sched u (a ++ ⟨filename, []⟩ :: b) = .ok data →
      data.Perm (acceptedFrom u 0 a ++ acceptedFrom u (a.length + 1) b)) ∧
    (∀ (W1 W2 : Nat) (s1 s2 : List Nat) (u1 u2 : Nat → Int) (a b : List Item)
      (filename : Str), 1 ≤ W1 → 1 ≤ W2 →
      (∀ i item, (a ++ b)[i]? = some item → containsRelevantTerms item.ocrText = true →
        regex_search item.ocrText victimsPattern = none →
        u2 i = u1 (if i < a.length then i else i + 1)) →
      (∀ d1, processNewspaperImages W1 s1 u1 (a ++ ⟨filename, []⟩ :: b) = .ok d1 →
        ∃ d2, processNewspaperImages W2 s2 u2 (a ++ b) = .ok d2 ∧ d1.Perm d2) ∧
      (∀ e, processNewspaperImages W1 s1 u1 (a ++ ⟨filename, []⟩ :: b) = .error e →
        processNewspaperImages W2 s2 u2 (a ++ b) = .error e) ∧
      (∀ d2, processNewspaperImages W2 s2 u2 (a ++ b) = .ok d2 →
        ∃ d1, processNewspaperImages W1 s1 u1 (a ++ ⟨filename, []⟩ :: b) = .ok d1 ∧
          d1.Perm d2)) ∧
    (∀ (s : List Nat) (garbage : Nat → Int),
      processNewspaperImages 2 s
        (reusedVictims 2 garbage (⟨"x.png".toList, []⟩ :: staleItems))
        (⟨"x.png".toList, []⟩ :: staleItems) = .ok
        [⟨[], 2, "Chicago".toList, "shot in Chicago".toList, "d.png".toList⟩]) ∧
    (∀ (s : List Nat) (garbage : Nat → Int), ∃ d,
      processNewspaperImages 2 s (reusedVictims 2 garbage staleItems) staleItems = .ok d ∧
      (d = [⟨[], 2, "Chicago".toList, "shot in Chicago".toList, "d.png".toList⟩] ↔
        garbage 1 = 2) ∧
      (garbage 1 ≤ 0 → d = [])) := by
  refine ⟨by rfl, processItem_empty, ?_, ?_, ?_, ?_, ?_⟩
  · intro items garbage start n filename h
    rw [victimsSlot, h]
    rfl
  · intro W sched u a b filename data hdata
    have hperm := batch_perm_accepted W sched u (a ++ ⟨filename, []⟩ :: b) data hdata
    have hacc : acceptedRecords u (a ++ ⟨filename, []⟩ :: b) =
        acceptedFrom u 0 a ++ acceptedFrom u (a.length + 1) b := by
      rw [acceptedRecords, acceptedFrom_append, Nat.zero_add]
      congr 1
    rw [hacc] at hperm
    exact hperm
  · intro W1 W2 s1 s2 u1 u2 a b filename h1 h2 h
    have hloop : processLoop u1 (a ++ ⟨filename, []⟩ :: b)
        (a ++ ⟨filename, []⟩ :: b).length 0 = processLoop u2 (a ++ b) (a ++ b).length 0 := by
      rw [processLoop_eq_loopFrom u1 _ _ 0 (by simp),
        processLoop_eq_loopFrom u2 _ _ 0 (by simp)]
      simp only [List.drop_zero]
      apply loopFrom_skip_read
      intro k item hk hrel hno
      simpa using h k item hk hrel hno
    obtain ⟨o12, e12⟩ := batch_same_outcome W1 W2 s1 s2 u1 u2 _ _ h1 h2 hloop
    obtain ⟨o21, _⟩ := batch_same_outcome W2 W1 s2 s1 u2 u1 _ _ h2 h1 hloop.symm
    refine ⟨o12, e12, ?_⟩
    intro d2 hd2
    obtain ⟨d1, hd1, hp⟩ := o21 d2 hd2
    exact ⟨d1, hd1, hp.symm⟩
  · intro s garbage
    have h := staleItems_loop_cons
      (reusedVictims 2 garbage (⟨"x.png".toList, []⟩ :: staleItems)) "x.png".toList
    have h5 : reusedVictims 2 garbage (⟨"x.png".toList, []⟩ :: staleItems) 2 = 2 := by rfl
    rw [h5] at h
    obtain ⟨d, hd, hp⟩ := (processNewspaperImages_loop 2 s _ _ (by decide)).2 _ h
    rw [hd]
    simp only [show (0 : Int) < 2 by decide, if_true] at hp
    rw [List.perm_singleton.mp hp]
  · intro s garbage
    have h := staleItems_loop (reusedVictims 2 garbage staleItems)
    have h1 : reusedVictims 2 garbage staleItems 1 = garbage 1 := by rfl
    rw [h1] at h
    obtain ⟨d, hd, hp⟩ := (processNewspaperImages_loop 2 s _ _ (by decide)).2 _ h
    refine ⟨d, hd, ?_, ?_⟩
    · by_cases hpos : 0 < garbage 1
      · simp only [hpos, if_true] at hp
        rw [List.perm_singleton.mp hp]
        simp
      · simp only [hpos, if_false] at hp
        rw [List.perm_nil.mp hp]
        constructor
        · intro hnil
          cases hnil
        · intro hg
          omega
    · intro hle
      have hpos : ¬ 0 < garbage 1 := by omega
      simp only [hpos, if_false] at hp
      exact List.perm_nil.mp hp

/-- Claim C12 against the code: `json j;` starts as `null` and only `push_back` turns it
into an array, so for the empty collection the value written is `null` and not an empty
array; for every non-empty collection it is the array of the records' objects, one per
record in the collection's order, each with exactly the five members `date`,
`description`, `location`, `source`, `victims` holding the fields of the record. -/
theorem saveToJson_value :
    saveToJson [] = .ok .null ∧
    (∀ data : List ShootingInfo, data ≠ [] →
      saveToJson data = .ok (.arr (data.map recordObject))) ∧
    (∀ info : ShootingInfo, Json.ofInit (recordInit info) =
      .obj [("date".toList, .str info.date), ("description".toList, .str info.description),
        ("location".toList, .str info.location), ("source".toList, .str info.source),
        ("victims".toList, .int info.victims)]) := by
  refine ⟨rfl, ?_, fun info => rfl⟩
  intro data hne
  cases data with
  | nil => exact absurd rfl hne
  | cons info rest =>
    simp only [saveToJson, buildJson, Json.push_back_init, Json.push_back, ofInit_recordInit,
      buildJson_arr, List.map_cons, List.singleton_append]

/-- Claim C14, as amended: the location of a returned record is empty or is a capitalised
place-name phrase in the sense of the pattern: one or more words, each an upper-case
letter followed by one or more lower-case letters and then by white space (possibly none,
so that words may touch, and kept also after the last word), then possibly a comma, white
space (possibly none) and two upper-case letters; it starts with an upper-case letter, so
it has no leading white space, but it may end in white space: "in Chicago yesterday"
gives "Chicago " with the space. -/
theorem location_is_phrase (uninit : Int) (text source : Str) (info : ShootingInfo)
    (h : extractShootingInfo uninit text source = .ok info) :
    (info.location = [] ∨
      (LocationPhrase info.location ∧ ∃ u t, info.location = u :: t ∧ isUpper u = true)) ∧
    (∃ info1, extractShootingInfo uninit "in Chicago yesterday".toList source = .ok info1 ∧
      info1.location = "Chicago ".toList) := by
  refine ⟨?_, ⟨_, rfl, rfl⟩⟩
  have hloc := (extractShootingInfo_fields h).2.1
  cases hs : regex_search text locationPattern with
  | none =>
    rw [hs] at hloc
    exact Or.inl hloc
  | some m =>
    obtain ⟨pre0, c0, h0, hsub, _⟩ := location_search_some hs
    rw [hs] at hloc
    simp only [hsub] at hloc
    obtain ⟨_, _, _, _, _, hc0⟩ := h0
    rw [hloc]
    exact Or.inr ⟨hc0, locationPhrase_head hc0⟩

/-- The amended C14 on "in Chicago yesterday": the location "Chicago " is a phrase of one
word with its trailing space. -/
theorem location_is_phrase_witness :
    extractShootingInfo 0 "in Chicago yesterday".toList "a.png".toList =
      .ok ⟨[], 0, "Chicago ".toList, "in Chicago yesterday".toList, "a.png".toList⟩ ∧
    ("Chicago ".toList = [] ∨
      (LocationPhrase "Chicago ".toList ∧
        ∃ u t, "Chicago ".toList = u :: t ∧ isUpper u = true)) :=
  have h : extractShootingInfo 0 "in Chicago yesterday".toList "a.png".toList =
      .ok ⟨[], 0, "Chicago ".toList, "in Chicago yesterday".toList, "a.png".toList⟩ := by rfl
  ⟨h, (location_is_phrase 0 _ _ _ h).1⟩

/-- Claim C14 fails as stated: for the text "in Chicago yesterday" the location is
"Chicago " with a trailing space, not "Chicago". -/
theorem location_keeps_trailing_space :
    extractShootingInfo 0 "in Chicago yesterday".toList "a.png".toList =
      .ok ⟨[], 0, "Chicago ".toList, "in Chicago yesterday".toList, "a.png".toList⟩ ∧
    ¬ ∃ info, extractShootingInfo 0 "in Chicago yesterday".toList "a.png".toList =
      .ok info ∧ info.location = "Chicago".toList := by
  have h : extractShootingInfo 0 "in Chicago yesterday".toList "a.png".toList =
      .ok ⟨[], 0, "Chicago ".toList, "in Chicago yesterday".toList, "a.png".toList⟩ := by rfl
  refine ⟨h, ?_⟩
  rintro ⟨info, hinfo, hl⟩
  rw [h] at hinfo
  cases hinfo
  revert hl
  decide

/-- Claim C17, as amended: when the text has an anchor ("mass", white space, "shooting";
"shooting"; "incident") that a period or a line feed follows, and no carriage return
stands between the leftmost anchor and the first period or line feed after it, the
description of a returned record is the substring from that leftmost anchor to that first
period or line feed, included; the part after the anchor holds exactly one period or line
feed, its last character (the anchor itself may hold a line feed, between "mass" and
"shooting"). The description may be longer than 500 characters. -/
theorem description_first_sentence (uninit : Int) (text source : Str) (info : ShootingInfo)
    (pre a body post : Str) (stop : Char)
    (h : extractShootingInfo uninit text source = .ok info)
    (htext : text = pre ++ a ++ body ++ [stop] ++ post)
    (ha : DescriptionAnchor a)
    (hleft : ∀ pre1 a1, AnchorAt text pre1 a1 → pre.length ≤ pre1.length)
    (hbody : ∀ x ∈ body, isStop x = false) (hstop : isStop stop = true)
    (hcr : ∀ x ∈ body, x ≠ '\r') :
    info.description = a ++ body ++ [stop] ∧
    List.filter isStop (body ++ [stop]) = [stop] ∧
    (∃ info1, extractShootingInfo uninit longSentence source = .ok info1 ∧
      info1.description = longSentence ∧ 500 < info1.description.length) := by
  obtain ⟨m, hm, hsub⟩ := details_search_first_sentence htext ha hleft hbody hstop hcr
  have hdesc := (extractShootingInfo_fields h).2.2.1
  rw [hm] at hdesc
  simp only [hsub] at hdesc
  refine ⟨hdesc, filter_isStop_body body stop hbody hstop, ?_⟩
  have hlong : ∃ m1, regex_search longSentence detailsPattern = some m1 ∧
      m1.sub 1 = "shooting".toList ++ List.replicate 500 'x' ++ ['.'] := by
    apply @details_search_first_sentence longSentence [] _ _ [] '.'
    · simp [longSentence]
    · exact Or.inr (Or.inl rfl)
    · intro _ _ _
      exact Nat.zero_le _
    · intro x hx
      rw [List.eq_of_mem_replicate hx]
      decide
    · decide
    · intro x hx
      rw [List.eq_of_mem_replicate hx]
      decide
  obtain ⟨m1, hm1, hsub1⟩ := hlong
  have hnov : regex_search longSentence victimsPattern = none := by
    rw [victims_search_none_iff]
    rintro p ds ⟨ws, word, post1, ht, hne, hds, _⟩
    cases ds with
    | nil => exact hne rfl
    | cons d ds =>
      have hd := hds d (by simp)
      have hmem : d ∈ longSentence := by
        rw [ht]
        simp
      simp only [longSentence, List.mem_append, List.mem_replicate, List.mem_singleton] at hmem
      rcases hmem with (hmem | ⟨_, rfl⟩) | rfl
      · have hall : ∀ c ∈ "shooting".toList, isDigit c = false := by decide
        rw [hall d hmem] at hd
        cases hd
      · revert hd
        decide
      · revert hd
        decide
  obtain ⟨info1, hinfo1, _⟩ := extractShootingInfo_no_victims uninit longSentence source hnov
  have hdesc1 := (extractShootingInfo_fields hinfo1).2.2.1
  rw [hm1] at hdesc1
  simp only [hsub1] at hdesc1
  refine ⟨info1, hinfo1, hdesc1, ?_⟩
  rw [hdesc1]
  simp

/-- The amended C17 on "A mass shooting in Reno. More later.\n": the leftmost anchor is
"mass shooting", the first period after it ends "in Reno", and the description is "mass
shooting in Reno.". -/
theorem description_first_sentence_witness :
    extractShootingInfo 0 "A mass shooting in Reno. More later.\n".toList "a.png".toList =
      .ok ⟨[], 0, "Reno".toList, "mass shooting in Reno.".toList, "a.png".toList⟩ ∧
    "mass shooting in Reno.".toList =
      "mass shooting".toList ++ " in Reno".toList ++ ['.'] :=
  have h : extractShootingInfo 0 "A mass shooting in Reno. More later.\n".toList
      "a.png".toList =
      .ok ⟨[], 0, "Reno".toList, "mass shooting in Reno.".toList, "a.png".toList⟩ := by rfl
  ⟨h, (description_first_sentence 0 "A mass shooting in Reno. More later.\n".toList
    "a.png".toList _ "A ".toList "mass shooting".toList " in Reno".toList
    " More later.\n".toList '.' h (by rfl)
    (Or.inl ⟨" ".toList, by decide, by decide, by rfl⟩)
    (by
      rintro pre1 a1 ⟨post1, ht, ha1⟩
      obtain ⟨c, t, rfl, hc⟩ := descriptionAnchor_head ha1
      rcases pre1 with _ | ⟨p, _ | ⟨p2, pre1⟩⟩
      · have h0 := congrArg (fun l => l[0]?) ht
        simp only [List.nil_append, List.cons_append, List.getElem?_cons_zero] at h0
        have hc0 : c = 'A' := (Option.some.inj h0).symm
        subst hc0
        exact absurd hc (by decide)
      · have h1 := congrArg (fun l => l[1]?) ht
        simp only [List.nil_append, List.cons_append, List.getElem?_cons_succ,
          List.getElem?_cons_zero] at h1
        have hc1 : c = ' ' := (Option.some.inj h1).symm
        subst hc1
        exact absurd hc (by decide)
      · show 2 ≤ (p :: p2 :: pre1).length
        simp)
    (by decide) (by decide) (by decide)).1⟩

/-- Claim C17 fails as stated: in "incident\rx. shooting y." a carriage return follows
the leftmost anchor, the pattern has no match there, and the description is "shooting y."
instead of "incident\rx."; in "mass\nshooting ended." the description holds two
period-or-line-feed characters. -/
theorem description_blocked_by_carriage_return :
    extractShootingInfo 0 "incident\rx. shooting y.".toList "a.png".toList =
      .ok ⟨[], 0, [], "shooting y.".toList, "a.png".toList⟩ ∧
    (¬ ∃ info, extractShootingInfo 0 "incident\rx. shooting y.".toList "a.png".toList =
      .ok info ∧ info.description = "incident\rx.".toList) ∧
    extractShootingInfo 0 "mass\nshooting ended.".toList "a.png".toList =
      .ok ⟨[], 0, [], "mass\nshooting ended.".toList, "a.png".toList⟩ ∧
    List.filter isStop "mass\nshooting ended.".toList = ['\n', '.'] := by
  have h : extractShootingInfo 0 "incident\rx. shooting y.".toList "a.png".toList =
      .ok ⟨[], 0, [], "shooting y.".toList, "a.png".toList⟩ := by rfl
  refine ⟨h, ?_, by rfl, by decide⟩
  rintro ⟨info, hinfo, hd⟩
  rw [h] at hinfo
  cases hinfo
  revert hd
  decide

/-- Claim C16: in every state that the worker threads reach, under any schedule, at most
one worker is between the construction and the destruction of its `lock_guard`; every
step that changes `data` is the `push_back` of a worker that owns `mtx` before and after
the step; and a worker outside that region, in particular one at `performOCR`, at
`containsRelevantTerms` or at `extractShootingInfo`, does not own `mtx`. -/
theorem race_free_aggregation (numThreads : Nat) (uninit : Nat → Int) (items : List Item)
    (sched : List Nat) :
    (∀ (w1 w2 : Nat) (k1 k2 : Worker),
      (runSchedule uninit items sched (initSys numThreads items)).workers[w1]? = some k1 →
      (runSchedule uninit items sched (initSys numThreads items)).workers[w2]? = some k2 →
      k1.pc.holdsLock = true → k2.pc.holdsLock = true → w1 = w2) ∧
    (∀ (w : Nat) (s1 : Sys),
      stepWorker uninit items w (runSchedule uninit items sched (initSys numThreads items))
        = some s1 →
      s1.data ≠ (runSchedule uninit items sched (initSys numThreads items)).data →
      (runSchedule uninit items sched (initSys numThreads items)).mtx = some w ∧
      s1.mtx = some w ∧
      ∃ info, s1.data =
        (runSchedule uninit items sched (initSys numThreads items)).data ++ [info]) ∧
    (∀ (w : Nat) (k : Worker),
      (runSchedule uninit items sched (initSys numThreads items)).workers[w]? = some k →
      (k.pc = .ocr ∨ (∃ item, k.pc = .classify item) ∨ (∃ item, k.pc = .extract item) ∨
        k.pc.holdsLock = false) →
      (runSchedule uninit items sched (initSys numThreads items)).mtx ≠ some w) := by
  have hinv := lockInv_runSchedule uninit items sched _ (lockInv_init numThreads items)
  refine ⟨?_, ?_, ?_⟩
  · intro w1 w2 k1 k2 h1 h2 l1 l2
    have e1 := (hinv w1 k1 h1).mp l1
    have e2 := (hinv w2 k2 h2).mp l2
    rw [e1] at e2
    exact Option.some.inj e2
  · intro w s1 hstep hd
    obtain ⟨k, info, hk, hpc, hdata, hm⟩ := stepWorker_data uninit items w _ s1 hstep hd
    have hown := (hinv w k hk).mp (by rw [hpc]; rfl)
    exact ⟨hown, by rw [hm, hown], info, hdata⟩
  · intro w k hk hpc hown
    have hl := (hinv w k hk).mpr hown
    rcases hpc with h | ⟨item, h⟩ | ⟨item, h⟩ | h
    · rw [h] at hl; cases hl
    · rw [h] at hl; cases hl
    · rw [h] at hl; cases hl
    · rw [h] at hl; cases hl

/-- Claim C16 on the sample corpus with two workers: when worker 1 is at its `push_back`
it owns `mtx`, worker 0 waits at the constructor of its guard and cannot move, and does
not own `mtx`; when both workers have finished, `data` holds the two accepted records and
`mtx` is free. -/
theorem race_free_aggregation_witness :
    (runSchedule (fun _ => 0) sampleItems waitingSchedule (initSys 2 sampleItems)).mtx
      = some 1 ∧
    stepWorker (fun _ => 0) sampleItems 0
      (runSchedule (fun _ => 0) sampleItems waitingSchedule (initSys 2 sampleItems)) = none ∧
    (runSchedule (fun _ => 0) sampleItems waitingSchedule (initSys 2 sampleItems)).mtx
      ≠ some 0 ∧
    runSchedule (fun _ => 0) sampleItems fullSchedule (initSys 2 sampleItems) =
      { workers := [⟨2, 2, .done⟩, ⟨5, 5, .done⟩], mtx := none,
        data := [⟨[], 7, "Austin, TX".toList, "7 killed in Austin, TX".toList,
            "e.png".toList⟩,
          ⟨[], 4, "Chicago".toList, "A gunman shot 4 people in Chicago.".toList,
            "a.png".toList⟩],
        terminated := false } :=
  ⟨by rfl, by rfl,
    (race_free_aggregation 2 (fun _ => 0) sampleItems waitingSchedule).2.2 0
      ⟨0, 2, .acquire ⟨[], 4, "Chicago".toList, "A gunman shot 4 people in Chicago.".toList,
        "a.png".toList⟩⟩ (by rfl) (Or.inr (Or.inr (Or.inr rfl))),
    by rfl⟩

end IncidentExtractor
